import Mathlib

/-!
Shallow embedding of the mempool core (txmempool.cpp), the block assembler
(miner.cpp) and the compact-block reconstructor (blockencodings.cpp) of this
repository, together with theorems settling the frozen claims about them.

Machine integers (int64_t, CAmount) are modelled as `Int`, sizes (size_t,
uint64_t) as `Nat`; txids (uint256) as `Nat`; `std::set`/`std::map` keyed by
txid as `Finset Nat` or association lists, as noted at each definition.
-/

namespace BitcoinMempool

/-- Transaction identifier (uint256 in the source). -/
abbrev Hash := Nat

/-- COutPoint: a (txid, output index) pair. -/
abbrev OutPoint := Hash × Nat

/-- CTxIn: a transaction input; the core only reads `prevout`. -/
structure CTxIn where
  prevout : OutPoint
deriving DecidableEq

instance : Inhabited CTxIn := ⟨{ prevout := (0, 0) }⟩

/-- CTransaction as seen by the mempool core: its hash, inputs, the number of
outputs, and the witness marker used by the assembler. -/
structure CTransaction where
  txid : Hash
  vin : List CTxIn
  voutLen : Nat
  hasWitness : Bool
deriving DecidableEq

/-- The set of outpoints created by a transaction. -/
def CTransaction.outpoints (tx : CTransaction) : Finset OutPoint :=
  (Finset.range tx.voutLen).image (fun i => (tx.txid, i))

/-- CTxMemPoolEntry: a mempool record.  `nCountWithDescendants`,
`nSizeWithDescendants` and `nFeesWithDescendants` are the descendant
aggregates (int64_t / CAmount in the source, modelled as `Int`); the ancestor
aggregates and sigop fields are the ones the block assembler reads. -/
structure CTxMemPoolEntry where
  tx : CTransaction
  nFee : Int
  nTxSize : Nat
  nUsageSize : Nat
  nTime : Int
  sigOpCost : Int
  txWeight : Nat
  modifiedFee : Int
  nCountWithDescendants : Int
  nSizeWithDescendants : Int
  nFeesWithDescendants : Int
  nSizeWithAncestors : Nat
  nModFeesWithAncestors : Int
  nSigOpCostWithAncestors : Int
  nCountWithAncestors : Nat
deriving DecidableEq

namespace CTxMemPoolEntry

/-- Modelled from the spec: the dirty indicator of an entry (declared in the
missing header txmempool.h).  The spec's "dirty flag indicates these
aggregates are stale"; in the source `SetDirty` encodes the flag by zeroing
`nCountWithDescendants` (a live entry always counts itself, so 0 is never a
valid count), and the fresh-entry constructor sets the count to 1. -/
def IsDirty (e : CTxMemPoolEntry) : Bool :=
  e.nCountWithDescendants == 0

/-- CTxMemPoolEntry::SetDirty (txmempool.cpp): zero the descendant count and
reset size/fees with descendants to the entry's self-only values. -/
def SetDirty (e : CTxMemPoolEntry) : CTxMemPoolEntry :=
  { e with
    nCountWithDescendants := 0
    nSizeWithDescendants := (e.nTxSize : Int)
    nFeesWithDescendants := e.nFee }

/-- CTxMemPoolEntry::UpdateState (txmempool.cpp): add the modification deltas
to the descendant aggregates, unless the entry is dirty. -/
def UpdateState (e : CTxMemPoolEntry) (modifySize : Int) (modifyFee : Int)
    (modifyCount : Int) : CTxMemPoolEntry :=
  if e.IsDirty then e
  else
    { e with
      nSizeWithDescendants := e.nSizeWithDescendants + modifySize
      nFeesWithDescendants := e.nFeesWithDescendants + modifyFee
      nCountWithDescendants := e.nCountWithDescendants + modifyCount }

/-- GetFee accessor. -/
def GetFee (e : CTxMemPoolEntry) : Int := e.nFee

/-- GetTxSize accessor. -/
def GetTxSize (e : CTxMemPoolEntry) : Nat := e.nTxSize

end CTxMemPoolEntry

/-- A concrete non-dirty entry used by counterexamples and witnesses:
a 250-byte transaction paying 1000 units of fee, with one input. -/
def sampleEntry : CTxMemPoolEntry :=
  { tx := { txid := 7, vin := [{ prevout := (3, 0) }], voutLen := 2,
            hasWitness := false }
    nFee := 1000
    nTxSize := 250
    nUsageSize := 400
    nTime := 5
    sigOpCost := 4
    txWeight := 1000
    modifiedFee := 1000
    nCountWithDescendants := 1
    nSizeWithDescendants := 250
    nFeesWithDescendants := 1000
    nSizeWithAncestors := 250
    nModFeesWithAncestors := 1000
    nSigOpCostWithAncestors := 4
    nCountWithAncestors := 1 }

instance : Inhabited CTxMemPoolEntry :=
  ⟨{ tx := { txid := 0, vin := [], voutLen := 0, hasWitness := false }
     nFee := 0, nTxSize := 0, nUsageSize := 0, nTime := 0, sigOpCost := 0
     txWeight := 0, modifiedFee := 0, nCountWithDescendants := 0
     nSizeWithDescendants := 0, nFeesWithDescendants := 0
     nSizeWithAncestors := 0, nModFeesWithAncestors := 0
     nSigOpCostWithAncestors := 0, nCountWithAncestors := 0 }⟩

/-- CTxMemPool: the indexed entry store.  `mapTx` is the entry set (a
boost multi_index in the source, here a list with unique txids);
`mapNextTx` maps each spent outpoint to (spender txid, input index);
`mapLinks` maps each txid to its (parents, children) link sets;
`mapDeltas` is the prioritisation map (priority delta modelled as ℚ in
place of the source's double, fee delta as CAmount). -/
structure CTxMemPool where
  mapTx : List CTxMemPoolEntry
  mapNextTx : List (OutPoint × (Hash × Nat))
  mapLinks : List (Hash × (Finset Hash × Finset Hash))
  totalTxSize : Nat
  cachedInnerUsage : Nat
  mapDeltas : List (Hash × (ℚ × Int))
  nTransactionsUpdated : Nat
deriving DecidableEq

/-- Memory-accounting constants of memusage.h (absent from src/): the
per-node malloc usages that DynamicMemoryUsage / GuessDynamicMemoryUsage
combine.  They enter the claims only through sums, so they are carried as
an environment. -/
structure MemEnv where
  mallocEntry : Nat
  incNextTx : Nat
  incSetEntries : Nat
  incMapLinks : Nat
  nextTxNode : Nat
  deltasNode : Nat
  linksNode : Nat
deriving DecidableEq

namespace CTxMemPool

/-- mapTx.find(hash): look an entry up by txid. -/
def findTx (pool : CTxMemPool) (h : Hash) : Option CTxMemPoolEntry :=
  pool.mapTx.find? (fun e => e.tx.txid == h)

/-- exists(hash). -/
def existsTx (pool : CTxMemPool) (h : Hash) : Bool :=
  (pool.findTx h).isSome

/-- The mapNextTx scan `lower_bound(COutPoint(hash, 0))` … `first.hash ==
hash`: the txids of all entries spending an output of `h`. -/
def nextTxChildren (pool : CTxMemPool) (h : Hash) : List Hash :=
  (pool.mapNextTx.filter (fun p => p.1.1 == h)).map (fun p => p.2.1)

/-- CTxMemPool::GuessDynamicMemoryUsage: the memory the pool would devote
to one entry (per-entry malloc usage, the entry's own dynamic usage, one
mapNextTx node and one link-set node per input, one mapLinks node). -/
def GuessDynamicMemoryUsage (env : MemEnv) (e : CTxMemPoolEntry) : Nat :=
  env.mallocEntry + e.nUsageSize +
    (env.incNextTx + env.incSetEntries) * e.tx.vin.length + env.incMapLinks

/-- CTxMemPool::DynamicMemoryUsage: per-entry malloc usage times the entry
count, plus the dynamic usage of mapNextTx, mapDeltas and mapLinks, plus
cachedInnerUsage. -/
def DynamicMemoryUsage (env : MemEnv) (pool : CTxMemPool) : Nat :=
  env.mallocEntry * pool.mapTx.length + env.nextTxNode * pool.mapNextTx.length +
    env.deltasNode * pool.mapDeltas.length +
    env.linksNode * pool.mapLinks.length + pool.cachedInnerUsage

end CTxMemPool

/-- The state of the inner breadth-first walk of CTxMemPool::TrimMempool
over the descendants of one candidate: the todo deque, the accumulating
`now` set with its fee/size/usage sums, the global iteration counter and
the `good` flag. -/
structure TrimBfsState where
  todo : List Hash
  now : Finset Hash
  nowfee : Int
  nowsize : Nat
  nowusage : Nat
  itertotal : Nat
  good : Bool
deriving DecidableEq

/-- One candidate's descendant walk in CTxMemPool::TrimMempool (the inner
`while (!todo.empty())` loop).  A protected hash, exceeding the iteration
budget `iterLimit = iterextra + iterperfail*(fails+1)`, or exceeding the
fee budget aborts with `good := false`; otherwise the front hash joins
`now` and its spenders join the todo deque.  The fuel argument only makes
the recursion structural: callers pass `iterLimit + 2`, which the
iteration counter (incremented once per non-aborting round and capped by
`iterLimit`) can never exhaust, so the fuel-0 branch is unreachable and
mirrors the iteration-budget abort. -/
def trimBfs (env : MemEnv) (pool : CTxMemPool) (protect : Finset Hash)
    (stage : Finset Hash) (nFeesReserved nFeesRemoved feeToUse : Int)
    (iterLimit : Nat) : Nat → TrimBfsState → TrimBfsState
  | 0, s => { s with good := false }
  | fuel + 1, s =>
    match s.todo with
    | [] => s
    | hashnow :: rest =>
      if hashnow ∈ protect then { s with good := false }
      else
        let itertotal := s.itertotal + 1
        if iterLimit < itertotal then { s with itertotal := itertotal, good := false }
        else
          let origTx := (pool.findTx hashnow).getD default
          let nowfee := s.nowfee + origTx.GetFee
          if feeToUse < nFeesReserved + nFeesRemoved + nowfee then
            { s with itertotal := itertotal, nowfee := nowfee, good := false }
          else
            let now := insert hashnow s.now
            let children := pool.nextTxChildren hashnow
            let todo := rest ++ children.filter (fun nh => ¬(nh ∈ stage ∨ nh ∈ now))
            trimBfs env pool protect stage nFeesReserved nFeesRemoved feeToUse
              iterLimit fuel
              { todo := todo, now := now, nowfee := nowfee
                nowsize := s.nowsize + origTx.GetTxSize
                nowusage := s.nowusage + CTxMemPool.GuessDynamicMemoryUsage env origTx
                itertotal := itertotal, good := s.good }

/-- The accumulating state of CTxMemPool::TrimMempool's outer loop over
the descendant-score index: the staged set with its removed-fee and
removed-usage sums, the global iteration counter, the failure counter and
the position in the `insecure_rand()` stream. -/
structure TrimLoopState where
  stage : Finset Hash
  nFeesRemoved : Int
  usageRemoved : Nat
  itertotal : Nat
  fails : Nat
  randIdx : Nat
deriving DecidableEq

/-- The `iterperfail` constant of CTxMemPool::TrimMempool. -/
def iterperfail : Nat := 10

/-- The `failmax` constant of CTxMemPool::TrimMempool. -/
def failmax : Nat := 10

/-- The outer loop of CTxMemPool::TrimMempool.  `order` is the sequence of
txids delivered by the reverse iterator over the descendant-score index
(lowest feerate first); `rand` is the `insecure_rand()` stream, consumed
one value per iteration for the 1-in-10 sampling throttle.  A candidate
already staged is skipped; a candidate whose feerate comparison
`fee * sizeToUse > feeToUse * txSize` (a double comparison in the source,
exact here) fails breaks out of the whole scan; otherwise its descendant
closure is walked and, when `good` survives the walk and the closure's
aggregate feerate check, staged. -/
def trimLoop (env : MemEnv) (pool : CTxMemPool) (protect : Finset Hash)
    (sizeToTrim : Nat) (nFeesReserved : Int) (sizeToUse : Nat) (feeToUse : Int)
    (iterextra : Nat) (rand : Nat → Nat) :
    List Hash → TrimLoopState → TrimLoopState
  | [], st => st
  | h :: rest, st =>
    if sizeToTrim ≤ st.usageRemoved then st
    else if rand st.randIdx % 10 ≠ 0 then
      trimLoop env pool protect sizeToTrim nFeesReserved sizeToUse feeToUse
        iterextra rand rest { st with randIdx := st.randIdx + 1 }
    else
      let st1 : TrimLoopState := { st with randIdx := st.randIdx + 1 }
      if h ∈ st1.stage then
        trimLoop env pool protect sizeToTrim nFeesReserved sizeToUse feeToUse
          iterextra rand rest st1
      else
        let cand := (pool.findTx h).getD default
        if cand.GetFee * (sizeToUse : Int) > feeToUse * (cand.GetTxSize : Int) then
          st1
        else
          let iterLimit := iterextra + iterperfail * (st1.fails + 1)
          let s := trimBfs env pool protect st1.stage nFeesReserved
            st1.nFeesRemoved feeToUse iterLimit (iterLimit + 2)
            { todo := [h], now := ∅, nowfee := 0, nowsize := 0, nowusage := 0
              itertotal := st1.itertotal, good := true }
          let good := s.good &&
            !(s.nowfee * (sizeToUse : Int) > feeToUse * (s.nowsize : Int))
          if good then
            trimLoop env pool protect sizeToTrim nFeesReserved sizeToUse feeToUse
              iterextra rand rest
              { st1 with stage := st1.stage ∪ s.now
                         nFeesRemoved := st1.nFeesRemoved + s.nowfee
                         usageRemoved := st1.usageRemoved + s.nowusage
                         itertotal := s.itertotal }
          else
            let st2 : TrimLoopState :=
              { st1 with fails := st1.fails + 1, itertotal := s.itertotal }
            if failmax < st2.fails then st2
            else
              trimLoop env pool protect sizeToTrim nFeesReserved sizeToUse feeToUse
                iterextra rand rest st2

/-- Result of CTxMemPool::TrimMempool / StageTrimToSize: the staged set,
the accumulated removed fees, and the boolean return. -/
structure TrimResult where
  stage : Finset Hash
  nFeesRemoved : Int
  ok : Bool
deriving DecidableEq

/-- CTxMemPool::TrimMempool.  After the scan: failure when
`mustTrimAllSize` is set and the usage target was missed, or when the
stage is empty while there was something to trim. -/
def TrimMempool (env : MemEnv) (pool : CTxMemPool) (order : List Hash)
    (rand : Nat → Nat) (sizeToTrim : Nat) (protect : Finset Hash)
    (nFeesReserved : Int) (sizeToUse : Nat) (feeToUse : Int)
    (mustTrimAllSize : Bool) (iterextra : Nat) (stage0 : Finset Hash)
    (nFeesRemoved0 : Int) : TrimResult :=
  let st := trimLoop env pool protect sizeToTrim nFeesReserved sizeToUse feeToUse
    iterextra rand order
    { stage := stage0, nFeesRemoved := nFeesRemoved0, usageRemoved := 0
      itertotal := 0, fails := 0, randIdx := 0 }
  let ok :=
    if mustTrimAllSize ∧ st.usageRemoved < sizeToTrim then false
    else if st.stage = ∅ ∧ 0 < sizeToTrim then false
    else true
  { stage := st.stage, nFeesRemoved := st.nFeesRemoved, ok := ok }

/-- CTxMemPool::StageTrimToSize: build the protect set from the txids the
incoming entry spends; if the expected usage fits the limit succeed with
nothing staged, else trim `min(expsize - sizelimit, incUsage)` with
`mustTrimAllSize = true` and `iterextra = 10`. -/
def StageTrimToSize (env : MemEnv) (pool : CTxMemPool) (order : List Hash)
    (rand : Nat → Nat) (sizelimit : Nat) (toadd : CTxMemPoolEntry)
    (nFeesReserved : Int) (stage0 : Finset Hash) (nFeesRemoved0 : Int) :
    TrimResult :=
  let protect : Finset Hash := (toadd.tx.vin.map (fun i => i.prevout.1)).toFinset
  let incUsage := CTxMemPool.GuessDynamicMemoryUsage env toadd
  let expsize := CTxMemPool.DynamicMemoryUsage env pool + incUsage
  if expsize ≤ sizelimit then
    { stage := stage0, nFeesRemoved := nFeesRemoved0, ok := true }
  else
    TrimMempool env pool order rand (min (expsize - sizelimit) incUsage) protect
      nFeesReserved toadd.GetTxSize toadd.GetFee true 10 stage0 nFeesRemoved0

/-- One spend step inside the pool: `c` is the txid of a pool entry one of
whose inputs references an output of `p`. -/
def stepRel (pool : CTxMemPool) (p c : Hash) : Prop :=
  ∃ e ∈ pool.mapTx, e.tx.txid = c ∧ ∃ inp ∈ e.tx.vin, inp.prevout.1 = p

/-- `a` is an in-mempool ancestor of the (not necessarily pooled)
transaction `tx`: some chain of pool transactions leads from `a` down to a
txid that `tx` spends directly. -/
def isAncestorOf (pool : CTxMemPool) (tx : CTransaction) (a : Hash) : Prop :=
  ∃ d, Relation.ReflTransGen (stepRel pool) a d ∧ ∃ inp ∈ tx.vin, inp.prevout.1 = d

/-- Completeness of the spend map (invariant I2): every input of every
pool entry is registered in mapNextTx under its outpoint. -/
def nextTxComplete (pool : CTxMemPool) : Prop :=
  ∀ e ∈ pool.mapTx, ∀ inp ∈ e.tx.vin,
    ∃ p ∈ pool.mapNextTx, p.1 = inp.prevout ∧ p.2.1 = e.tx.txid

/-- The links record of a txid (GetMemPoolParents/GetMemPoolChildren read
its two components); absent keys read as empty links, standing for the
source's default-constructed TxLinks. -/
def linksOf (pool : CTxMemPool) (h : Hash) : Finset Hash × Finset Hash :=
  ((pool.mapLinks.find? (fun p => p.1 == h)).map (fun p => p.2)).getD (∅, ∅)

/-- Update the links record of `h` in place (creating it when absent, as
`mapLinks[h]` does). -/
def setLinks (m : List (Hash × (Finset Hash × Finset Hash))) (h : Hash)
    (f : Finset Hash × Finset Hash → Finset Hash × Finset Hash) :
    List (Hash × (Finset Hash × Finset Hash)) :=
  if m.any (fun p => p.1 == h) then
    m.map (fun p => if p.1 == h then (p.1, f p.2) else p)
  else m ++ [(h, f (∅, ∅))]

/-- CTxMemPool::UpdateChild: add or remove `child` in `entry`'s children
set, adjusting cachedInnerUsage when the set actually changed. -/
def UpdateChild (env : MemEnv) (pool : CTxMemPool) (entry child : Hash)
    (add : Bool) : CTxMemPool :=
  let ls := linksOf pool entry
  if add then
    if child ∈ ls.2 then pool
    else
      { pool with
        mapLinks := setLinks pool.mapLinks entry (fun l => (l.1, insert child l.2))
        cachedInnerUsage := pool.cachedInnerUsage + env.incSetEntries }
  else
    if child ∈ ls.2 then
      { pool with
        mapLinks := setLinks pool.mapLinks entry (fun l => (l.1, l.2.erase child))
        cachedInnerUsage := pool.cachedInnerUsage - env.incSetEntries }
    else pool

/-- CTxMemPool::UpdateParent: add or remove `parent` in `entry`'s parents
set, adjusting cachedInnerUsage when the set actually changed. -/
def UpdateParent (env : MemEnv) (pool : CTxMemPool) (entry parent : Hash)
    (add : Bool) : CTxMemPool :=
  let ls := linksOf pool entry
  if add then
    if parent ∈ ls.1 then pool
    else
      { pool with
        mapLinks := setLinks pool.mapLinks entry (fun l => (insert parent l.1, l.2))
        cachedInnerUsage := pool.cachedInnerUsage + env.incSetEntries }
  else
    if parent ∈ ls.1 then
      { pool with
        mapLinks := setLinks pool.mapLinks entry (fun l => (l.1.erase parent, l.2))
        cachedInnerUsage := pool.cachedInnerUsage - env.incSetEntries }
    else pool

/-- The "no limit" value passed by addUnchecked, UpdateForRemoveFromMempool
and the block assembler: std::numeric_limits of uint64_t. -/
def nNoLimit : Nat := 2 ^ 64 - 1

/-- Reduction of a size_t / uint64_t expression modulo the machine width,
making the source's unsigned wrap-around explicit. -/
def u64 (n : Nat) : Nat := n % 2 ^ 64

/-- Conversion of an int64_t expression to uint64_t, as in the source's
`uint64_t(stageit->GetCountWithDescendants() + 1)`. -/
def u64i (i : Int) : Nat := (i % (2 ^ 64 : Int)).toNat

/-- Insertion into a sorted list of hashes; building block of the sorted
iteration order of std::set. -/
def insSorted (x : Nat) : List Nat → List Nat
  | [] => [x]
  | y :: ys => if x ≤ y then x :: y :: ys else y :: insSorted x ys

theorem insSorted_comm (x y : Nat) (l : List Nat) :
    insSorted x (insSorted y l) = insSorted y (insSorted x l) := by
  have key : ∀ (x y : Nat), x ≤ y → ∀ l,
      insSorted x (insSorted y l) = insSorted y (insSorted x l) := by
    intro x y hxy l
    induction l with
    | nil =>
      by_cases hyx : y ≤ x
      · have hxyeq : x = y := Nat.le_antisymm hxy hyx
        subst hxyeq; rfl
      · simp [insSorted, hxy, hyx]
    | cons z zs ih =>
      by_cases hyz : y ≤ z
      · have hxz : x ≤ z := le_trans hxy hyz
        by_cases hyx : y ≤ x
        · have hxyeq : x = y := Nat.le_antisymm hxy hyx
          subst hxyeq; rfl
        · simp [insSorted, hxy, hyz, hxz, hyx]
      · by_cases hxz : x ≤ z
        · have hyx : ¬ y ≤ x := by omega
          simp [insSorted, hyz, hxz, hyx, hxy]
        · simp only [insSorted, if_neg hyz, if_neg hxz]
          rw [ih]
  rcases le_total x y with h | h
  · exact key x y h l
  · exact (key y x h l).symm

instance : LeftCommutative insSorted := ⟨insSorted_comm⟩

/-- The ascending iteration order of a std::set of txids: the sorted
listing of the finite set. -/
def sortHashes (s : Finset Hash) : List Hash :=
  Multiset.foldr insSorted [] s.1

theorem mem_insSorted (a x : Nat) (l : List Nat) :
    a ∈ insSorted x l ↔ a = x ∨ a ∈ l := by
  induction l with
  | nil => simp [insSorted]
  | cons z zs ih =>
    by_cases hxz : x ≤ z
    · simp [insSorted, hxz]
    · simp only [insSorted, if_neg hxz, List.mem_cons, ih]
      tauto

theorem mem_sortHashes (a : Hash) (s : Finset Hash) :
    a ∈ sortHashes s ↔ a ∈ s := by
  have hm : ∀ (m : Multiset Hash), a ∈ Multiset.foldr insSorted [] m ↔ a ∈ m := by
    intro m
    induction m using Multiset.induction_on with
    | empty => simp [Multiset.foldr_zero]
    | cons x t ih => rw [Multiset.foldr_cons, mem_insSorted, ih]; simp
  exact (hm s.1).trans Finset.mem_def.symm

/-- The direct-parent scan of CTxMemPool::CalculateMemPoolAncestors: walk
the entry's inputs against mapTx, inserting each in-pool parent and
failing as soon as the parent count plus one exceeds the ancestor-count
limit. -/
def scanParents (pool : CTxMemPool) (limitAncestorCount : Nat) :
    List CTxIn → Finset Hash → Except String (Finset Hash)
  | [], acc => .ok acc
  | inp :: rest, acc =>
    match pool.findTx inp.prevout.1 with
    | none => scanParents pool limitAncestorCount rest acc
    | some p =>
      let acc' := insert p.tx.txid acc
      if limitAncestorCount < u64 (acc'.card + 1) then
        .error "too many unconfirmed parents"
      else scanParents pool limitAncestorCount rest acc'

/-- The inner parent-expansion of CalculateMemPoolAncestors: push each
not-yet-seen parent of the ancestor being expanded onto the stage set,
failing as soon as the staged-plus-seen count plus one exceeds the
ancestor-count limit. -/
def calcAncParents (setAncestors : Finset Hash) (limitAncestorCount : Nat) :
    List Hash → Finset Hash → Except String (Finset Hash)
  | [], sps => .ok sps
  | ph :: rest, sps =>
    let sps' := if ph ∈ setAncestors then sps else insert ph sps
    if limitAncestorCount < u64 (sps'.card + setAncestors.card + 1) then
      .error "too many unconfirmed ancestors"
    else calcAncParents setAncestors limitAncestorCount rest sps'

/-- One round of CalculateMemPoolAncestors' BFS: expand every hash of the
current frontier, accumulating the ancestor-size total and checking the
descendant-size, descendant-count and ancestor-size limits at each hash
before collecting its parents. -/
def calcAncRound (pool : CTxMemPool) (entryTxSize : Nat)
    (limitAncestorCount limitAncestorSize limitDescendantCount
      limitDescendantSize : Nat) (setAncestors : Finset Hash) :
    List Hash → Finset Hash → Nat → Except String (Finset Hash × Nat)
  | [], sps, total => .ok (sps, total)
  | sh :: rest, sps, total =>
    let stageit := (pool.findTx sh).getD default
    let total' := total + stageit.GetTxSize
    if limitDescendantSize <
        u64i (stageit.nSizeWithDescendants + (entryTxSize : Int)) then
      .error "exceeds descendant size limit for tx"
    else if limitDescendantCount < u64i (stageit.nCountWithDescendants + 1) then
      .error "too many descendants for tx"
    else if limitAncestorSize < u64 total' then
      .error "exceeds ancestor size limit"
    else
      match calcAncParents setAncestors limitAncestorCount
          (sortHashes (linksOf pool sh).1) sps with
      | .error e => .error e
      | .ok sps' =>
        calcAncRound pool entryTxSize limitAncestorCount limitAncestorSize
          limitDescendantCount limitDescendantSize setAncestors rest sps' total'

/-- All hashes appearing in some parents set of mapLinks; every BFS
frontier beyond the first is contained in it, so its cardinality bounds
the rounds the ancestor walk can take. -/
def allLinkParents (pool : CTxMemPool) : Finset Hash :=
  pool.mapLinks.foldr (fun p acc => p.2.1 ∪ acc) ∅

/-- The `while (!parentHashes.empty())` loop of CalculateMemPoolAncestors.
On error the partially accumulated out-parameter set is returned alongside
the message, mirroring the source's in-out `setAncestors` reference.  The
fuel only makes the recursion structural: `fuelForAncestors` below always
suffices (`calcAncLoop_fuel_irrelevant`), so the fuel-0 branch is
unreachable. -/
def calcAncLoop (pool : CTxMemPool) (entryTxSize : Nat)
    (limitAncestorCount limitAncestorSize limitDescendantCount
      limitDescendantSize : Nat) :
    Nat → Finset Hash → Finset Hash → Nat →
      Except (String × Finset Hash) (Finset Hash)
  | 0, setAncestors, _, _ => .error ("out of fuel", setAncestors)
  | fuel + 1, setAncestors, parentHashes, total =>
    if parentHashes = ∅ then .ok setAncestors
    else
      let setAncestors' := setAncestors ∪ parentHashes
      match calcAncRound pool entryTxSize limitAncestorCount limitAncestorSize
          limitDescendantCount limitDescendantSize setAncestors'
          (sortHashes parentHashes) ∅ total with
      | .error e => .error (e, setAncestors')
      | .ok (sps, total') =>
        calcAncLoop pool entryTxSize limitAncestorCount limitAncestorSize
          limitDescendantCount limitDescendantSize fuel setAncestors' sps total'

/-- Fuel sufficient for the ancestor walk: the frontier is always inside
the initial parents plus all link parents, and a nonempty frontier grows
the seen set. -/
def fuelForAncestors (pool : CTxMemPool) (parents0 : Finset Hash) : Nat :=
  (parents0 ∪ allLinkParents pool).card + 1

/-- CTxMemPool::CalculateMemPoolAncestors: scan direct parents, then walk
the frontier; returns the ancestor set, or the error message together with
the partially filled out-parameter. -/
def CalculateMemPoolAncestors (pool : CTxMemPool) (entry : CTxMemPoolEntry)
    (limitAncestorCount limitAncestorSize limitDescendantCount
      limitDescendantSize : Nat) :
    Except (String × Finset Hash) (Finset Hash) :=
  match scanParents pool limitAncestorCount entry.tx.vin ∅ with
  | .error e => .error (e, ∅)
  | .ok parents0 =>
    calcAncLoop pool entry.GetTxSize limitAncestorCount limitAncestorSize
      limitDescendantCount limitDescendantSize
      (fuelForAncestors pool parents0) ∅ parents0 entry.GetTxSize

/-- The content of the `setAncestors` out-parameter after a call whose
boolean result the caller ignores (addUnchecked, UpdateForRemoveFromMempool
and the block assembler all do). -/
def calcAncestorsOut (pool : CTxMemPool) (entry : CTxMemPoolEntry)
    (limitAncestorCount limitAncestorSize limitDescendantCount
      limitDescendantSize : Nat) : Finset Hash :=
  match CalculateMemPoolAncestors pool entry limitAncestorCount
      limitAncestorSize limitDescendantCount limitDescendantSize with
  | .ok s => s
  | .error (_, s) => s

/-- CTxMemPool::UpdateAncestorsOf: add or remove the entry `h` as a child
of each of its direct parents, then apply the signed self size/fee/count
delta to every ancestor's descendant aggregates. -/
def UpdateAncestorsOf (env : MemEnv) (pool : CTxMemPool) (add : Bool)
    (h : Hash) (setAncestors : Finset Hash) : CTxMemPool :=
  let it := (pool.findTx h).getD default
  let parentHashes := (linksOf pool h).1
  let pool1 := (sortHashes parentHashes).foldl
    (fun acc phash => UpdateChild env acc phash h add) pool
  let updateCount : Int := if add then 1 else -1
  let updateSize : Int := updateCount * it.GetTxSize
  let updateFee : Int := updateCount * it.GetFee
  { pool1 with
    mapTx := pool1.mapTx.map (fun e =>
      if e.tx.txid ∈ setAncestors then e.UpdateState updateSize updateFee updateCount
      else e) }

/-- CTxMemPool::UpdateChildrenForRemoval: sever the parent link pointing
at `h` in each of `h`'s children. -/
def UpdateChildrenForRemoval (env : MemEnv) (pool : CTxMemPool) (h : Hash) :
    CTxMemPool :=
  (sortHashes (linksOf pool h).2).foldl
    (fun acc child => UpdateParent env acc child h false) pool

/-- CTxMemPool::UpdateForRemoveFromMempool: for every hash being removed,
recompute its ancestors with no limits and decrement their descendant
aggregates, then sever the child-side links. -/
def UpdateForRemoveFromMempool (env : MemEnv) (pool : CTxMemPool)
    (hashesToRemove : Finset Hash) : CTxMemPool :=
  let pool1 := (sortHashes hashesToRemove).foldl
    (fun acc removeHash =>
      let entry := (acc.findTx removeHash).getD default
      let setAncestors :=
        calcAncestorsOut acc entry nNoLimit nNoLimit nNoLimit nNoLimit
      UpdateAncestorsOf env acc false removeHash setAncestors) pool
  (sortHashes hashesToRemove).foldl
    (fun acc removeHash => UpdateChildrenForRemoval env acc removeHash) pool1

/-- Insert-or-assign on the spend map, as `mapNextTx[outpoint] = inpoint`. -/
def nextTxAssign (m : List (OutPoint × (Hash × Nat))) (op : OutPoint)
    (v : Hash × Nat) : List (OutPoint × (Hash × Nat)) :=
  if m.any (fun p => p.1 == op) then
    m.map (fun p => if p.1 == op then (p.1, v) else p)
  else m ++ [(op, v)]

/-- CTxMemPool::addUnchecked (the four-argument overload): insert the
entry and its empty links record, account its usage, register every input
in the spend map, set the entry's parent links to its in-pool direct
parents (updating each parent's child set via UpdateAncestorsOf), and bump
the aggregate ancestors' descendant statistics. -/
def addUnchecked (env : MemEnv) (pool : CTxMemPool) (h : Hash)
    (entry : CTxMemPoolEntry) (setAncestors : Finset Hash) : CTxMemPool :=
  let pool1 : CTxMemPool :=
    { pool with
      mapTx := pool.mapTx ++ [entry]
      mapLinks := pool.mapLinks ++ [(h, (∅, ∅))]
      cachedInnerUsage := pool.cachedInnerUsage + entry.nUsageSize }
  let tx := entry.tx
  let pool2 : CTxMemPool :=
    { pool1 with
      mapNextTx := tx.vin.enum.foldl
        (fun m p => nextTxAssign m p.2.prevout (tx.txid, p.1))
        pool1.mapNextTx }
  let setParentTransactions := (tx.vin.map (fun i => i.prevout.1)).toFinset
  let pool3 := (sortHashes setParentTransactions).foldl
    (fun acc phash =>
      if acc.existsTx phash then UpdateParent env acc h phash true else acc)
    pool2
  let pool4 := UpdateAncestorsOf env pool3 true h setAncestors
  { pool4 with
    nTransactionsUpdated := pool4.nTransactionsUpdated + 1
    totalTxSize := pool4.totalTxSize + entry.GetTxSize }

/-- CTxMemPool::addUnchecked (the two-argument overload): compute the
ancestor set with no limits, ignoring the boolean result, and add. -/
def addUncheckedAuto (env : MemEnv) (pool : CTxMemPool) (h : Hash)
    (entry : CTxMemPoolEntry) : CTxMemPool :=
  let setAncestors :=
    calcAncestorsOut pool entry nNoLimit nNoLimit nNoLimit nNoLimit
  addUnchecked env pool h entry setAncestors

/-- CTxMemPool::removeUnchecked: erase the entry's inputs from the spend
map, release its size and usage accounting (including its two link sets),
and erase its links record and the entry itself. -/
def removeUnchecked (env : MemEnv) (pool : CTxMemPool) (h : Hash) :
    CTxMemPool :=
  let it := (pool.findTx h).getD default
  let ls := linksOf pool h
  { pool with
    mapNextTx := it.tx.vin.foldl
      (fun m inp => m.filter (fun p => ¬(p.1 == inp.prevout))) pool.mapNextTx
    totalTxSize := pool.totalTxSize - it.GetTxSize
    cachedInnerUsage := pool.cachedInnerUsage - it.nUsageSize -
      (env.incSetEntries * ls.1.card + env.incSetEntries * ls.2.card)
    mapLinks := pool.mapLinks.filter (fun p => ¬(p.1 == h))
    mapTx := pool.mapTx.filter (fun e => ¬(e.tx.txid == h))
    nTransactionsUpdated := pool.nTransactionsUpdated + 1 }

/-- All hashes appearing in some children set of mapLinks; bounds the
rounds of the descendant walk. -/
def allLinkChildren (pool : CTxMemPool) : Finset Hash :=
  pool.mapLinks.foldr (fun p acc => p.2.2 ∪ acc) ∅

/-- The staged walk of CTxMemPool::CalculateDescendants: union the stage
into the accumulator, then stage every child not yet accounted for.  The
fuel only makes the recursion structural; `fuelForDescendants` always
suffices. -/
def calcDescLoop (pool : CTxMemPool) :
    Nat → Finset Hash → Finset Hash → Finset Hash
  | 0, setDesc, _ => setDesc
  | fuel + 1, setDesc, stage =>
    if stage = ∅ then setDesc
    else
      let setDesc' := setDesc ∪ stage
      let next := stage.biUnion
        (fun sh => (linksOf pool sh).2.filter (fun c => c ∉ setDesc'))
      calcDescLoop pool fuel setDesc' next

/-- Fuel sufficient for the descendant walk. -/
def fuelForDescendants (pool : CTxMemPool) (h : Hash) : Nat :=
  (insert h (allLinkChildren pool)).card + 1

/-- CTxMemPool::CalculateDescendants: add to `setDescendants` every
in-pool descendant of `h` (including `h` itself) not already accounted
for. -/
def CalculateDescendants (pool : CTxMemPool) (h : Hash)
    (setDescendants : Finset Hash) : Finset Hash :=
  calcDescLoop pool (fuelForDescendants pool h) setDescendants
    (if h ∈ setDescendants then ∅ else {h})

/-- CTxMemPool::RemoveStaged: update ancestor statistics and links for the
whole staged set, then erase each staged entry. -/
def RemoveStaged (env : MemEnv) (pool : CTxMemPool) (stage : Finset Hash) :
    CTxMemPool :=
  let pool1 := UpdateForRemoveFromMempool env pool stage
  (sortHashes stage).foldl (fun acc h => removeUnchecked env acc h) pool1

/-- CTxMemPool::remove: stage the transaction (or, when it is absent and
the removal is recursive, the in-pool spenders of its outputs), close the
stage under descendants when recursive, and remove the staged set. -/
def remove (env : MemEnv) (pool : CTxMemPool) (origTx : CTransaction)
    (fRecursive : Bool) : CTxMemPool :=
  let txToRemove : Finset Hash :=
    if pool.existsTx origTx.txid then {origTx.txid}
    else if fRecursive then
      (List.range origTx.voutLen).foldl
        (fun acc i =>
          match (pool.mapNextTx.find? (fun p => p.1 == (origTx.txid, i))).map
              (fun p => p.2.1) with
          | none => acc
          | some spender => insert spender acc) ∅
    else ∅
  let setAllRemoves : Finset Hash :=
    if fRecursive then
      (sortHashes txToRemove).foldl
        (fun acc h => CalculateDescendants pool h acc) ∅
    else txToRemove
  RemoveStaged env pool setAllRemoves

/-- CTxMemPool::removeConflicts: for every input of `tx`, if the spend map
names a different transaction as the outpoint's spender, remove that
conflicting transaction recursively. -/
def removeConflicts (env : MemEnv) (pool : CTxMemPool) (tx : CTransaction) :
    CTxMemPool :=
  tx.vin.foldl
    (fun acc txin =>
      match (acc.mapNextTx.find? (fun p => p.1 == txin.prevout)).map
          (fun p => p.2.1) with
      | none => acc
      | some spender =>
        if spender ≠ tx.txid then
          let txConflict := ((acc.findTx spender).getD default).tx
          remove env acc txConflict true
        else acc) pool

/-- CTxMemPool::PrioritiseTransaction: additively fold the two deltas into
the prioritisation map (creating the record when absent, as the source's
`mapDeltas[hash]` does). -/
def PrioritiseTransaction (pool : CTxMemPool) (h : Hash)
    (dPriorityDelta : ℚ) (nFeeDelta : Int) : CTxMemPool :=
  if pool.mapDeltas.any (fun p => p.1 == h) then
    { pool with mapDeltas := pool.mapDeltas.map (fun p =>
        if p.1 == h then (p.1, (p.2.1 + dPriorityDelta, p.2.2 + nFeeDelta))
        else p) }
  else
    { pool with mapDeltas := pool.mapDeltas ++ [(h, (dPriorityDelta, nFeeDelta))] }

/-- CTxMemPool::ApplyDeltas: add the registered deltas, if any, to the
caller's accumulators. -/
def ApplyDeltas (pool : CTxMemPool) (h : Hash) (dPriorityDelta : ℚ)
    (nFeeDelta : Int) : ℚ × Int :=
  match (pool.mapDeltas.find? (fun p => p.1 == h)).map (fun p => p.2) with
  | none => (dPriorityDelta, nFeeDelta)
  | some d => (dPriorityDelta + d.1, nFeeDelta + d.2)

/-- CTxMemPool::ClearPrioritisation: erase the record. -/
def ClearPrioritisation (pool : CTxMemPool) (h : Hash) : CTxMemPool :=
  { pool with mapDeltas := pool.mapDeltas.filter (fun p => ¬(p.1 == h)) }

/-- CTxMemPool::removeForBlock: for every transaction of the connected
block, remove it non-recursively, remove whatever conflicts with it, and
clear its prioritisation record.  (The policy-estimator snapshot is
external to the core.) -/
def removeForBlock (env : MemEnv) (pool : CTxMemPool)
    (vtx : List CTransaction) : CTxMemPool :=
  vtx.foldl
    (fun acc tx =>
      let acc1 := remove env acc tx false
      let acc2 := removeConflicts env acc1 tx
      ClearPrioritisation acc2 tx.txid) pool

/-- CTxMemPool::Expire: stage every entry older than `time` together with
its descendants, remove the staged set, and report how many entries were
staged. -/
def Expire (env : MemEnv) (pool : CTxMemPool) (time : Int) :
    CTxMemPool × Nat :=
  let toremove : Finset Hash :=
    ((pool.mapTx.filter (fun e => e.nTime < time)).map
      (fun e => e.tx.txid)).toFinset
  let stage := (sortHashes toremove).foldl
    (fun acc h => CalculateDescendants pool h acc) ∅
  (RemoveStaged env pool stage, stage.card)

/-- The stage is closed under the spend-map children relation: nothing is
staged without all transactions spending its outputs being staged too. -/
def stageClosed (pool : CTxMemPool) (stage : Finset Hash) : Prop :=
  ∀ h ∈ stage, ∀ c ∈ pool.nextTxChildren h, c ∈ stage

/-- Environment with unit memory-accounting constants, for witnesses. -/
def wEnv : MemEnv :=
  { mallocEntry := 1, incNextTx := 1, incSetEntries := 1, incMapLinks := 1
    nextTxNode := 1, deltasNode := 1, linksNode := 1 }

/-- Witness transaction 1: a root spending a confirmed outpoint. -/
def wTx1 : CTransaction :=
  { txid := 1, vin := [{ prevout := (100, 0) }], voutLen := 1, hasWitness := false }

/-- Witness transaction 2: spends the only output of transaction 1. -/
def wTx2 : CTransaction :=
  { txid := 2, vin := [{ prevout := (1, 0) }], voutLen := 1, hasWitness := false }

/-- Witness entry for transaction 1. -/
def wE1 : CTxMemPoolEntry :=
  { tx := wTx1, nFee := 100, nTxSize := 100, nUsageSize := 150, nTime := 1
    sigOpCost := 1, txWeight := 400, modifiedFee := 100
    nCountWithDescendants := 2, nSizeWithDescendants := 200
    nFeesWithDescendants := 150, nSizeWithAncestors := 100
    nModFeesWithAncestors := 100, nSigOpCostWithAncestors := 1
    nCountWithAncestors := 1 }

/-- Witness entry for transaction 2. -/
def wE2 : CTxMemPoolEntry :=
  { tx := wTx2, nFee := 50, nTxSize := 100, nUsageSize := 150, nTime := 2
    sigOpCost := 1, txWeight := 400, modifiedFee := 50
    nCountWithDescendants := 1, nSizeWithDescendants := 100
    nFeesWithDescendants := 50, nSizeWithAncestors := 200
    nModFeesWithAncestors := 150, nSigOpCostWithAncestors := 2
    nCountWithAncestors := 2 }

/-- Witness pool: the two-transaction chain 1 ← 2. -/
def wPool : CTxMemPool :=
  { mapTx := [wE1, wE2]
    mapNextTx := [((100, 0), (1, 0)), ((1, 0), (2, 0))]
    mapLinks := [(1, (∅, {2})), (2, ({1}, ∅))]
    totalTxSize := 200
    cachedInnerUsage := 302
    mapDeltas := []
    nTransactionsUpdated := 2 }

/-- Witness incoming entry: transaction 3 spends the only output of
transaction 2, so both 2 (directly) and 1 (transitively) are its
in-mempool ancestors. -/
def wToadd : CTxMemPoolEntry :=
  { tx := { txid := 3, vin := [{ prevout := (2, 0) }], voutLen := 1
            hasWitness := false }
    nFee := 10000, nTxSize := 100, nUsageSize := 150, nTime := 3
    sigOpCost := 1, txWeight := 400, modifiedFee := 10000
    nCountWithDescendants := 1, nSizeWithDescendants := 100
    nFeesWithDescendants := 10000, nSizeWithAncestors := 300
    nModFeesWithAncestors := 10150, nSigOpCostWithAncestors := 3
    nCountWithAncestors := 3 }

/-- Proof device for the add/remove round trip: the mapLinks list in which
the child `h` has been inserted into the children set of every record
whose key lies in `Q`. -/
def mapChildIns (h : Hash) (Q : Finset Hash)
    (m : List (Hash × (Finset Hash × Finset Hash))) :
    List (Hash × (Finset Hash × Finset Hash)) :=
  m.map (fun kls => if kls.1 ∈ Q then (kls.1, (kls.2.1, insert h kls.2.2)) else kls)

/-- The in-pool subset of a list of candidate parent txids, as a set. -/
def poolFiltered (pool : CTxMemPool) (l : List Hash) : Finset Hash :=
  (l.filter (fun x => pool.existsTx x)).toFinset

/-- The in-pool direct parents an addUnchecked call discovers for an
incoming entry: the distinct prevout txids of its inputs that are present
in the pool. -/
def directPoolParents (pool : CTxMemPool) (entry : CTxMemPoolEntry) : Finset Hash :=
  poolFiltered pool
    (sortHashes (entry.tx.vin.map (fun i => i.prevout.1)).toFinset)

/-- The admission preconditions and pool invariants in force when
addUnchecked is reached (the caller, AcceptToMemoryPool, "DOES do all the
appropriate checks"): the transaction is not in the pool, none of its
inputs is spent by a pool entry, the link records never mention the
incoming txid, every pool entry owns a links record, descendant counts are
nonnegative (0 being the dirty sentinel), and the transaction does not
spend its own outputs. -/
def admissionOk (pool : CTxMemPool) (entry : CTxMemPoolEntry) : Prop :=
  (∀ e ∈ pool.mapTx, e.tx.txid ≠ entry.tx.txid) ∧
  (∀ q ∈ pool.mapNextTx, ∀ inp ∈ entry.tx.vin, q.1 ≠ inp.prevout) ∧
  (∀ kls ∈ pool.mapLinks, kls.1 ≠ entry.tx.txid) ∧
  (∀ kls ∈ pool.mapLinks, entry.tx.txid ∉ kls.2.1) ∧
  (∀ kls ∈ pool.mapLinks, entry.tx.txid ∉ kls.2.2) ∧
  (∀ e ∈ pool.mapTx, pool.mapLinks.any (fun q => q.1 == e.tx.txid) = true) ∧
  (∀ e ∈ pool.mapTx, 0 ≤ e.nCountWithDescendants) ∧
  (∀ inp ∈ entry.tx.vin, inp.prevout.1 ≠ entry.tx.txid)

/-- The witness pool with a prioritisation delta of (1, 500) registered
for txid 1. -/
def wPoolD : CTxMemPool :=
  { wPool with mapDeltas := [(1, ((1 : ℚ), (500 : Int)))] }

/-- The tx size the ancestor walk reads for a txid: the looked-up entry's
GetTxSize (the source dereferences the iterator, which the walk only does
for present entries). -/
def szOf (pool : CTxMemPool) (a : Hash) : Nat :=
  ((pool.findTx a).getD default).GetTxSize

/-- The txids present in the pool. -/
def poolTxids (pool : CTxMemPool) : Finset Hash :=
  (pool.mapTx.map (fun e => e.tx.txid)).toFinset

/-- `a` is an in-mempool ancestor of `tx`: it is in the pool and sits
above `tx` in the spend graph. -/
def ancOf (pool : CTxMemPool) (tx : CTransaction) (a : Hash) : Prop :=
  pool.existsTx a = true ∧ isAncestorOf pool tx a

/-- Modelled from the spec: the declarative failure condition of
CalculateMemPoolAncestors — some in-mempool ancestor's size-with-
descendants plus the entry's size exceeds the descendant-size limit, some
ancestor's count-with-descendants plus one exceeds the descendant-count
limit, the entry's size plus the sizes of some (traversed, hence
arbitrary nonempty) set of ancestors exceeds the ancestor-size limit, or
the count of some nonempty set of ancestors plus one exceeds the
ancestor-count limit. -/
def specAncestorFailure (pool : CTxMemPool) (entry : CTxMemPoolEntry)
    (la ls2 ldc lds : Nat) : Prop :=
  (∃ a, ancOf pool entry.tx a ∧
    lds < u64i (((pool.findTx a).getD default).nSizeWithDescendants +
      (entry.GetTxSize : Int))) ∨
  (∃ a, ancOf pool entry.tx a ∧
    ldc < u64i (((pool.findTx a).getD default).nCountWithDescendants + 1)) ∨
  (∃ S : Finset Hash, S.Nonempty ∧ (∀ x ∈ S, ancOf pool entry.tx x) ∧
    ls2 < u64 (entry.GetTxSize + S.sum (szOf pool))) ∨
  (∃ S : Finset Hash, S.Nonempty ∧ (∀ x ∈ S, ancOf pool entry.tx x) ∧
    la < u64 (S.card + 1))

/-- Pool invariant: every recorded links-parent of a pool entry is an
in-pool transaction one of whose outputs the entry spends. -/
def linksSound (pool : CTxMemPool) : Prop :=
  ∀ e ∈ pool.mapTx, ∀ x ∈ (linksOf pool e.tx.txid).1,
    pool.existsTx x = true ∧ ∃ inp ∈ e.tx.vin, inp.prevout.1 = x

/-- Pool invariant: every in-pool transaction whose output a pool entry
spends is recorded among that entry's links-parents. -/
def linksComplete (pool : CTxMemPool) : Prop :=
  ∀ e ∈ pool.mapTx, ∀ inp ∈ e.tx.vin,
    pool.existsTx inp.prevout.1 = true →
      inp.prevout.1 ∈ (linksOf pool e.tx.txid).1

/-- ReadStatus of blockencodings.h (header absent; the three outcomes
InitData can produce). -/
inductive ReadStatus where
  | ok
  | invalid
  | failed
deriving DecidableEq

/-- A prefilled transaction of a compact block: its differential index
(a uint16) and whether the carried transaction is null. -/
structure PrefilledTx where
  index : Nat
  txNull : Bool
deriving DecidableEq

/-- CBlockHeaderAndShortTxIDs as InitData reads it: header nullness, the
48-bit short ids, and the prefilled transactions. -/
structure CmpctBlock where
  headerIsNull : Bool
  shorttxids : List Nat
  prefilledtxn : List PrefilledTx
deriving DecidableEq

/-- The prefilled-transaction pass of InitData: accumulate
lastprefilledindex (an int32 starting at -1), reject null transactions,
index overflow past the uint16 range, and indices beyond the known
transaction count, and record each filled txn_available slot. -/
def initPrefilled (shortCount : Nat) :
    Int → Finset Nat → Nat → List PrefilledTx →
      Except ReadStatus (Finset Nat)
  | _, avail, _, [] => .ok avail
  | lastIdx, avail, i, pf :: rest =>
    if pf.txNull then .error .invalid
    else
      let last2 := lastIdx + (pf.index : Int) + 1
      if 65535 < last2 then .error .invalid
      else if (shortCount + i : Nat) < last2.toNat then .error .invalid
      else initPrefilled shortCount last2 (insert last2.toNat avail)
        (i + 1) rest

/-- The `while (txn_available[i + index_offset]) index_offset++` scan:
advance past filled slots.  The fuel `avail.card + 1` always suffices. -/
def skipOffset (avail : Finset Nat) : Nat → Nat → Nat
  | 0, pos => pos
  | fuel + 1, pos => if pos ∈ avail then skipOffset avail fuel (pos + 1)
    else pos

/-- Insert-or-assign on the short-id map, as
`shorttxids[cmpctblock.shorttxids[i]] = i + index_offset` does. -/
def shortMapAssign (m : List (Nat × Nat)) (k v : Nat) : List (Nat × Nat) :=
  if m.any (fun p => p.1 == k) then
    m.map (fun p => if p.1 == k then (p.1, v) else p)
  else m ++ [(k, v)]

/-- The short-id-map build loop of InitData.  The bucket-size guard of the
source reads the unordered_map's hash layout, which lives outside the
message; it is carried as an oracle on the map built so far and the
inserted id, and firing it returns READ_STATUS_FAILED exactly as the
source does. -/
def buildShortMap (oracle : List (Nat × Nat) → Nat → Bool)
    (avail : Finset Nat) :
    List Nat → Nat → Nat → List (Nat × Nat) →
      Except ReadStatus (List (Nat × Nat))
  | [], _, _, m => .ok m
  | sid :: rest, i, off, m =>
    let pos := skipOffset avail (avail.card + 1) (i + off)
    let m2 := shortMapAssign m sid pos
    if oracle m2 sid then .error .failed
    else buildShortMap oracle avail rest (i + 1) (pos - i) m2

/-- PartiallyDownloadedBlock::InitData: the null/emptiness and size
pre-checks, the prefilled pass, the short-id map build with its bucket
guard, the short-id collision check `map.size() != shorttxids.size()`
returning READ_STATUS_FAILED, and the final mempool scan (which only
fills txn_available and always falls through to READ_STATUS_OK).
`sizeBound` is MAX_BLOCK_SIZE divided by a serialized empty transaction's
size, both from headers absent from the tree. -/
def InitData (sizeBound : Nat) (oracle : List (Nat × Nat) → Nat → Bool)
    (cb : CmpctBlock) : ReadStatus :=
  if cb.headerIsNull || (cb.shorttxids.isEmpty && cb.prefilledtxn.isEmpty)
    then .invalid
  else if sizeBound < cb.shorttxids.length + cb.prefilledtxn.length then
    .invalid
  else
    match initPrefilled cb.shorttxids.length (-1) ∅ 0 cb.prefilledtxn with
    | .error st => st
    | .ok avail =>
      match buildShortMap oracle avail cb.shorttxids 0 0 [] with
      | .error st => st
      | .ok m =>
        if m.length ≠ cb.shorttxids.length then .failed
        else .ok

/-- A CTxMemPoolModifiedEntry of the block assembler: a candidate txid
with its (possibly modified) ancestor-package aggregates. -/
structure ModEntry where
  txid : Hash
  nSizeWithAncestors : Nat
  nModFeesWithAncestors : Int
  nSigOpCostWithAncestors : Int
deriving DecidableEq

/-- The block-construction state (WorkingState of miner.h, absent from
the tree, as manipulated by miner.cpp): the non-coinbase transactions
appended so far and the block statistics. -/
structure BlockWorkState where
  blockTxs : List Hash
  nBlockSize : Nat
  nBlockWeight : Nat
  nBlockTx : Nat
  nBlockSigOpsCost : Int
  nFees : Int
  inBlock : Finset Hash
deriving DecidableEq

/-- The assembler's configuration: block limits and flags (read from
BlockAssembler's fields; WITNESS_SCALE_FACTOR and MAX_BLOCK_SIGOPS_COST
come from headers absent from the tree). -/
structure MinerEnv where
  nBlockMaxWeight : Nat
  nBlockMaxSize : Nat
  maxSigOpsCost : Int
  witnessScale : Nat
  fIncludeWitness : Bool
  fNeedSizeAccounting : Bool
deriving DecidableEq

/-- External behaviour the selection loop consults, from code absent from
the tree: blockMinFeeRate.GetFee (amount.h), the received-in-the-last-10-
seconds test (GetTime), the CompareModifiedEntry score comparison and
UpdatePackagesForAdded rewrite (mempool comparators of txmempool.h),
IsFinalTx (main.cpp), serialized sizes, and SortForBlock's
ancestor-count order. -/
structure MinerOracles where
  getFee : Nat → Int
  recentTx : CTxMemPoolEntry → Bool
  modBetter : ModEntry → CTxMemPoolEntry → Bool
  isFinalTx : Hash → Bool
  serSize : Hash → Nat
  sortForBlock : Finset Hash → List Hash
  updPackages : Finset Hash → List ModEntry → List ModEntry

/-- The package view of a mapTx entry (fUsingModified = false). -/
def modEntryOf (e : CTxMemPoolEntry) : ModEntry :=
  { txid := e.tx.txid
    nSizeWithAncestors := e.nSizeWithAncestors
    nModFeesWithAncestors := e.nModFeesWithAncestors
    nSigOpCostWithAncestors := e.nSigOpCostWithAncestors }

/-- BlockAssembler::TestPackage: the block-weight and sigops headroom
checks. -/
def TestPackage (env : MinerEnv) (ws : BlockWorkState) (packageSize : Nat)
    (packageSigOpsCost : Int) : Bool :=
  if env.nBlockMaxWeight ≤ ws.nBlockWeight + env.witnessScale * packageSize
    then false
  else if env.maxSigOpsCost ≤ ws.nBlockSigOpsCost + packageSigOpsCost then
    false
  else true

/-- BlockAssembler::TestPackageTransactions: finality, premature witness
and (when size accounting is on) serialized-size checks over the
package. -/
def testPkgTxs (env : MinerEnv) (orc : MinerOracles) (pool : CTxMemPool) :
    List Hash → Nat → Bool
  | [], _ => true
  | h :: rest, potSize =>
    let e := (pool.findTx h).getD default
    if orc.isFinalTx h = false then false
    else if (!env.fIncludeWitness && e.tx.hasWitness) then false
    else if env.fNeedSizeAccounting then
      if env.nBlockMaxSize ≤ potSize + orc.serSize h then false
      else testPkgTxs env orc pool rest (potSize + orc.serSize h)
    else testPkgTxs env orc pool rest potSize

/-- BlockAssembler::AddToBlock: append the transaction and update the
block statistics. -/
def AddToBlock (env : MinerEnv) (orc : MinerOracles) (pool : CTxMemPool)
    (ws : BlockWorkState) (h : Hash) : BlockWorkState :=
  let e := (pool.findTx h).getD default
  { ws with
    blockTxs := ws.blockTxs ++ [h]
    nBlockSize := if env.fNeedSizeAccounting then
      ws.nBlockSize + orc.serSize h else ws.nBlockSize
    nBlockWeight := ws.nBlockWeight + e.txWeight
    nBlockTx := ws.nBlockTx + 1
    nBlockSigOpsCost := ws.nBlockSigOpsCost + e.sigOpCost
    nFees := ws.nFees + e.GetFee
    inBlock := insert h ws.inBlock }

/-- BlockAssembler::SkipMapTxEntry: skip entries already modified, in the
block, or failed, and — when only older transactions are wanted —
recently received ones. -/
def SkipMapTxEntry (ws : BlockWorkState) (mapModifiedTx : List ModEntry)
    (failedTx : Finset Hash) (e : CTxMemPoolEntry)
    (fOnlyOlderTransactions : Bool) (orc : MinerOracles) : Bool :=
  if mapModifiedTx.any (fun m => m.txid == e.tx.txid) ||
      decide (e.tx.txid ∈ ws.inBlock) || decide (e.tx.txid ∈ failedTx) then
    true
  else if fOnlyOlderTransactions && orc.recentTx e then true
  else false

/-- The loop state of addPackageTxs. -/
structure APTState where
  ws : BlockWorkState
  mapModifiedTx : List ModEntry
  failedTx : Finset Hash
  nConsecutiveFailed : Int
  nPackagesSelected : Int

/-- The outcome of one considered package: return from addPackageTxs,
break out of the loop, or continue with an updated state. -/
inductive ConsiderResult where
  | ret
  | brk (st : APTState)
  | cont (st : APTState)

/-- The body of addPackageTxs after a package has been chosen: the
minimum-feerate return, TestPackage with the consecutive-failure
heuristic, ancestor collection (no limits) restricted to not-yet-included
transactions, the package-transaction checks, and the actual inclusion
with mapModifiedTx maintenance. -/
def aptConsider (env : MinerEnv) (orc : MinerOracles) (pool : CTxMemPool)
    (st : APTState) (pkg : ModEntry) (fUsingModified : Bool) :
    ConsiderResult :=
  let packageSize := pkg.nSizeWithAncestors
  let packageFees := pkg.nModFeesWithAncestors
  let packageSigOpsCost := pkg.nSigOpCostWithAncestors
  if packageFees < orc.getFee packageSize then .ret
  else if TestPackage env st.ws packageSize packageSigOpsCost = false then
    let st1 := if fUsingModified then
        { st with
          mapModifiedTx := st.mapModifiedTx.tail
          failedTx := insert pkg.txid st.failedTx }
      else st
    let st2 := { st1 with nConsecutiveFailed := st1.nConsecutiveFailed + 1 }
    if 1000 < st2.nConsecutiveFailed ∧
        env.nBlockMaxWeight - 4000 < st2.ws.nBlockWeight then .brk st2
    else .cont st2
  else
    let iterEntry := (pool.findTx pkg.txid).getD default
    let ancestors := insert pkg.txid
      ((calcAncestorsOut pool iterEntry nNoLimit nNoLimit nNoLimit
        nNoLimit) \ st.ws.inBlock)
    if testPkgTxs env orc pool (sortHashes ancestors) st.ws.nBlockSize =
        false then
      let st1 := if fUsingModified then
          { st with
            mapModifiedTx := st.mapModifiedTx.tail
            failedTx := insert pkg.txid st.failedTx }
        else st
      .cont st1
    else
      let st3 := { st with nConsecutiveFailed := 0 }
      let sortedEntries := orc.sortForBlock ancestors
      let ws2 := sortedEntries.foldl
        (fun w h => AddToBlock env orc pool w h) st3.ws
      let mm2 := sortedEntries.foldl
        (fun m h => m.filter (fun q => ¬(q.txid == h))) st3.mapModifiedTx
      .cont { st3 with
        ws := ws2
        mapModifiedTx := orc.updPackages ancestors mm2
        nPackagesSelected := st3.nPackagesSelected + 1 }

/-- The while loop of BlockAssembler::addPackageTxs: iterate the
ancestor-score view of mapTx alongside mapModifiedTx, skipping stale
entries, choosing the better of the next mapTx entry and the best
modified entry, and dispatching on the considered package's outcome.  The
fuel only makes the recursion structural. -/
def addPackageTxsLoop (env : MinerEnv) (orc : MinerOracles)
    (pool : CTxMemPool) (fIncludeRecentTransactions : Bool) :
    Nat → List CTxMemPoolEntry → APTState → APTState
  | 0, _, st => st
  | fuel + 1, remaining, st =>
    match remaining with
    | [] =>
      match st.mapModifiedTx with
      | [] => st
      | modit :: _ =>
        match aptConsider env orc pool st modit true with
        | .ret => st
        | .brk st2 => st2
        | .cont st2 =>
          addPackageTxsLoop env orc pool fIncludeRecentTransactions fuel
            [] st2
    | e :: rest =>
      if SkipMapTxEntry st.ws st.mapModifiedTx st.failedTx e
          (!fIncludeRecentTransactions) orc then
        addPackageTxsLoop env orc pool fIncludeRecentTransactions fuel
          rest st
      else
        match st.mapModifiedTx with
        | [] =>
          match aptConsider env orc pool st (modEntryOf e) false with
          | .ret => st
          | .brk st2 => st2
          | .cont st2 =>
            addPackageTxsLoop env orc pool fIncludeRecentTransactions fuel
              rest st2
        | modit :: _ =>
          if orc.modBetter modit e then
            match aptConsider env orc pool st modit true with
            | .ret => st
            | .brk st2 => st2
            | .cont st2 =>
              addPackageTxsLoop env orc pool fIncludeRecentTransactions
                fuel (e :: rest) st2
          else
            match aptConsider env orc pool st (modEntryOf e) false with
            | .ret => st
            | .brk st2 => st2
            | .cont st2 =>
              addPackageTxsLoop env orc pool fIncludeRecentTransactions
                fuel rest st2

/-- BlockAssembler::addPackageTxs as CreateNewBlock invokes it: empty
failed set and modified map, zero counters. -/
def addPackageTxs (env : MinerEnv) (orc : MinerOracles) (pool : CTxMemPool)
    (fIncludeRecentTransactions : Bool) (fuel : Nat)
    (order : List CTxMemPoolEntry) (ws0 : BlockWorkState) : APTState :=
  addPackageTxsLoop env orc pool fIncludeRecentTransactions fuel order
    { ws := ws0, mapModifiedTx := [], failedTx := ∅
      nConsecutiveFailed := 0, nPackagesSelected := 0 }

/-- BlockAssembler::CreateNewBlock, reduced to the transaction list of
the produced template: a dummy coinbase slot is created first, package
selection appends the selected transactions (called with
fIncludeRecentTransactions = true and a fresh mapModifiedTx), and the
coinbase is written into slot zero at the end.  `order` is mapTx's
ancestor-score iteration order. -/
def CreateNewBlock (env : MinerEnv) (orc : MinerOracles) (pool : CTxMemPool)
    (order : List CTxMemPoolEntry) (fuel : Nat) (ws0 : BlockWorkState)
    (coinbase : Hash) : List Hash :=
  let res := addPackageTxs env orc pool true fuel order
    { ws0 with blockTxs := [], inBlock := ∅ }
  coinbase :: res.ws.blockTxs

/-- Witness assembler configuration. -/
def wMinerEnv : MinerEnv :=
  { nBlockMaxWeight := 4000000, nBlockMaxSize := 1000000
    maxSigOpsCost := 80000, witnessScale := 4
    fIncludeWitness := true, fNeedSizeAccounting := false }

/-- Witness oracles: a minimum fee of 1000000 per package regardless of
size (a blockMinFeeRate above every witness entry's feerate), nothing
recent, no finality failures. -/
def wMinerOrc : MinerOracles :=
  { getFee := fun _ => 1000000
    recentTx := fun _ => false
    modBetter := fun _ _ => false
    isFinalTx := fun _ => true
    serSize := fun _ => 0
    sortForBlock := fun s => sortHashes s
    updPackages := fun _ m => m }

/-- Witness initial working state (the fresh-block reservations). -/
def wWS0 : BlockWorkState :=
  { blockTxs := [], nBlockSize := 1000, nBlockWeight := 4000
    nBlockTx := 0, nBlockSigOpsCost := 400, nFees := 0, inBlock := ∅ }

/-- Availability of a transaction's inputs in the duplicate coins view of
`CTxMemPool::check`.  The view (`CCoinsViewCache mempoolDuplicate`) lives in
coins code absent from `src/`; modelled from the spec as the set of
available outpoints: `HaveInputs` holds when every input's prevout is
available. -/
def HaveInputs (coins : Finset OutPoint) (tx : CTransaction) : Bool :=
  tx.vin.all (fun inp => decide (inp.prevout ∈ coins))

/-- Applying a transaction to the duplicate coins view (`UpdateCoins`, in
code absent from `src/`; modelled from the spec): its inputs are spent from
the view and its outputs become available. -/
def UpdateCoins (coins : Finset OutPoint) (tx : CTransaction) :
    Finset OutPoint :=
  (coins \ (tx.vin.map (fun inp => inp.prevout)).toFinset) ∪ tx.outpoints

/-- The topological-validation loop of `CTxMemPool::check` (txmempool.cpp
627-641), fuelled.  Each iteration pops the front pending transaction: if
its inputs are not all available it is pushed to the back and the
steps-since-last-remove counter is bumped, with the source's
`assert(stepsSinceLastRemove < waitingOnDependants.size())` modelled as
returning `none` when the assertion would fail; otherwise the transaction
is applied to the view and the counter resets to 0.  Running out of fuel
also returns `none`, so a `some` result certifies both termination within
the given number of iterations and that the assertion never fails. -/
def checkTopoLoop : Nat → Finset OutPoint → List CTransaction → Nat →
    Option (Finset OutPoint)
  | 0, _, _, _ => none
  | _ + 1, coins, [], _ => some coins
  | fuel + 1, coins, tx :: pending, steps =>
    if HaveInputs coins tx then
      checkTopoLoop fuel (UpdateCoins coins tx) pending 0
    else
      if (pending ++ [tx]).length ≤ steps + 1 then none
      else checkTopoLoop fuel coins (pending ++ [tx]) (steps + 1)

/-- Fuel budget for `checkTopoLoop` on a queue of length `L` with current
steps-counter `s` (a proof device for the termination bound). -/
def topoFuel : Nat → Nat → Nat
  | 0, _ => 1
  | L + 1, s => (L + 1 - s) + L * L + 1

/-! ### Theorems -/

/-- C3 counterexample: setting the dirty flag on the sample entry leaves
`nCountWithDescendants = 0`, not 1 as the claim states: the closure
"consisting of the entry itself" would have count 1, but SetDirty stores 0
(the zero count is exactly how the source encodes the flag). -/
theorem setDirty_count_not_one :
    (sampleEntry.SetDirty).nCountWithDescendants ≠ 1 := by
  decide

/-- C3 (amended): for every entry on which the dirty flag is set, the
size and fee aggregates equal the entry's self-only values
(`nSizeWithDescendants = nTxSize`, `nFeesWithDescendants = nFee`) while
`nCountWithDescendants` is set to 0 — the sentinel that encodes the dirty
flag itself — and the entry is treated as such (every later UpdateState is a
no-op) until a non-dirty recomputation occurs. -/
theorem setDirty_self_only (e : CTxMemPoolEntry) :
    (e.SetDirty).nSizeWithDescendants = (e.nTxSize : Int) ∧
    (e.SetDirty).nFeesWithDescendants = e.nFee ∧
    (e.SetDirty).nCountWithDescendants = 0 ∧
    (e.SetDirty).IsDirty = true ∧
    (∀ ms mf mc : Int, (e.SetDirty).UpdateState ms mf mc = e.SetDirty) := by
  refine ⟨rfl, rfl, rfl, rfl, ?_⟩
  intro ms mf mc
  simp [CTxMemPoolEntry.UpdateState, CTxMemPoolEntry.IsDirty,
    CTxMemPoolEntry.SetDirty]

/-- C10: once an entry is dirty, UpdateState is a no-op for it: every
(modifySize, modifyFee, modifyCount) triple leaves the three descendant
aggregates, and hence the whole entry, unchanged. -/
theorem updateState_noop_of_dirty (e : CTxMemPoolEntry)
    (h : e.IsDirty = true) (ms mf mc : Int) :
    e.UpdateState ms mf mc = e := by
  simp [CTxMemPoolEntry.UpdateState, h]

/-- C10 witness: the sample entry, once marked dirty, is frozen under a
concrete UpdateState call. -/
theorem updateState_noop_of_dirty_witness :
    (sampleEntry.SetDirty).IsDirty = true ∧
    (sampleEntry.SetDirty).UpdateState 250 1000 1 = sampleEntry.SetDirty :=
  ⟨by decide, updateState_noop_of_dirty _ (by decide) 250 1000 1⟩

/-- C7: in TrimMempool's ascending scan, reaching a considered candidate
(one not skipped by the sampling throttle and not already staged) whose
self fee-rate comparison `fee·sizeToUse > feeToUse·txSize` fires breaks
out of the whole loop: the state is returned unchanged apart from the
consumed random value, so no candidate after that point is staged. -/
theorem trimLoop_stops_at_bad_feerate
    (env : MemEnv) (pool : CTxMemPool) (protect : Finset Hash)
    (sizeToTrim : Nat) (nFeesReserved : Int) (sizeToUse : Nat) (feeToUse : Int)
    (iterextra : Nat) (rand : Nat → Nat) (h : Hash) (rest : List Hash)
    (st : TrimLoopState)
    (hcond : st.usageRemoved < sizeToTrim)
    (hrand : rand st.randIdx % 10 = 0)
    (hstage : h ∉ st.stage)
    (hfee : ((pool.findTx h).getD default).GetFee * (sizeToUse : Int) >
      feeToUse * (((pool.findTx h).getD default).GetTxSize : Int)) :
    trimLoop env pool protect sizeToTrim nFeesReserved sizeToUse feeToUse
      iterextra rand (h :: rest) st = { st with randIdx := st.randIdx + 1 } := by
  have h1 : ¬ sizeToTrim ≤ st.usageRemoved := Nat.not_le.mpr hcond
  have h2 : ¬ (rand st.randIdx % 10 ≠ 0) := fun hh => hh hrand
  rw [trimLoop]
  simp only [if_neg h1, if_neg h2]
  rw [if_neg hstage, if_pos hfee]

/-- C7 witness: with the two-entry witness pool, a zero random stream, a
positive trim target, `sizeToUse = 1` and `feeToUse = 0`, the first
candidate's fee-rate check fires and the loop returns with nothing
staged. -/
theorem trimLoop_stops_at_bad_feerate_witness :
    (0 : Nat) < 5 ∧ (1 : Hash) ∉ (∅ : Finset Hash) ∧
    ((wPool.findTx 1).getD default).GetFee * (1 : Int) >
      0 * (((wPool.findTx 1).getD default).GetTxSize : Int) ∧
    trimLoop wEnv wPool ∅ 5 0 1 0 10 (fun _ => 0) [1]
      { stage := ∅, nFeesRemoved := 0, usageRemoved := 0, itertotal := 0
        fails := 0, randIdx := 0 } =
      { stage := ∅, nFeesRemoved := 0, usageRemoved := 0, itertotal := 0
        fails := 0, randIdx := 1 } :=
  ⟨by decide, by decide, by decide,
    trimLoop_stops_at_bad_feerate wEnv wPool ∅ 5 0 1 0 10 (fun _ => 0) 1 []
      _ (by decide) (by decide) (by decide) (by decide)⟩

theorem mem_nextTxChildren_of_mem (pool : CTxMemPool)
    (p : OutPoint × (Hash × Nat)) (hp : p ∈ pool.mapNextTx) :
    p.2.1 ∈ pool.nextTxChildren p.1.1 := by
  unfold CTxMemPool.nextTxChildren
  exact List.mem_map.mpr ⟨p, List.mem_filter.mpr ⟨hp, by simp⟩, rfl⟩

theorem trimBfs_good_spec (env : MemEnv) (pool : CTxMemPool)
    (protect stage : Finset Hash) (fr fd fu : Int) (iterLimit : Nat) :
    ∀ (fuel : Nat) (s : TrimBfsState),
      (∀ x ∈ s.now, x ∉ protect) →
      (∀ h ∈ s.now, ∀ c ∈ pool.nextTxChildren h,
        c ∈ stage ∨ c ∈ s.now ∨ c ∈ s.todo) →
      (trimBfs env pool protect stage fr fd fu iterLimit fuel s).good = true →
      (∀ x ∈ (trimBfs env pool protect stage fr fd fu iterLimit fuel s).now,
        x ∉ protect) ∧
      (∀ h ∈ (trimBfs env pool protect stage fr fd fu iterLimit fuel s).now,
        ∀ c ∈ pool.nextTxChildren h,
          c ∈ stage ∨
            c ∈ (trimBfs env pool protect stage fr fd fu iterLimit fuel s).now) := by
  intro fuel
  induction fuel with
  | zero => intro s _ _ hg; simp [trimBfs] at hg
  | succ fuel ih =>
    intro s hnp hcl hg
    obtain ⟨todo, now, nowfee, nowsize, nowusage, itertotal, good⟩ := s
    cases todo with
    | nil =>
      simp only [trimBfs] at hg ⊢
      refine ⟨hnp, fun h hh c hc => ?_⟩
      rcases hcl h hh c hc with h' | h' | h'
      · exact Or.inl h'
      · exact Or.inr h'
      · simp at h'
    | cons hashnow rest =>
      by_cases hp : hashnow ∈ protect
      · simp [trimBfs, hp] at hg
      · by_cases hlim : iterLimit < itertotal + 1
        · simp [trimBfs, hp, hlim] at hg
        · by_cases hfee : fu < fr + fd +
            (nowfee + ((pool.findTx hashnow).getD default).GetFee)
          · simp [trimBfs, hp, hlim, hfee] at hg
          · have hunf :
                trimBfs env pool protect stage fr fd fu iterLimit (fuel + 1)
                  ⟨hashnow :: rest, now, nowfee, nowsize, nowusage, itertotal,
                    good⟩ =
                trimBfs env pool protect stage fr fd fu iterLimit fuel
                  { todo := rest ++ (pool.nextTxChildren hashnow).filter
                      (fun nh => ¬(nh ∈ stage ∨ nh ∈ insert hashnow now))
                    now := insert hashnow now
                    nowfee := nowfee + ((pool.findTx hashnow).getD default).GetFee
                    nowsize := nowsize + ((pool.findTx hashnow).getD default).GetTxSize
                    nowusage := nowusage +
                      CTxMemPool.GuessDynamicMemoryUsage env
                        ((pool.findTx hashnow).getD default)
                    itertotal := itertotal + 1
                    good := good } := by
              simp [trimBfs, hp, hlim, hfee]
            rw [hunf] at hg ⊢
            refine ih _ ?_ ?_ hg
            · intro x hx
              rcases Finset.mem_insert.mp hx with rfl | hx'
              · exact hp
              · exact hnp x hx'
            · intro h hh c hc
              rcases Finset.mem_insert.mp hh with rfl | hh'
              · by_cases hcs : c ∈ stage
                · exact Or.inl hcs
                · by_cases hcn : c ∈ insert h now
                  · exact Or.inr (Or.inl hcn)
                  · refine Or.inr (Or.inr (List.mem_append_right _ ?_))
                    exact List.mem_filter.mpr ⟨hc, by
                      simp only [decide_eq_true_eq]
                      exact fun hor => hor.elim hcs hcn⟩
              · rcases hcl h hh' c hc with h' | h' | h'
                · exact Or.inl h'
                · exact Or.inr (Or.inl (Finset.mem_insert_of_mem h'))
                · rcases List.mem_cons.mp h' with rfl | h''
                  · exact Or.inr (Or.inl (Finset.mem_insert_self _ _))
                  · exact Or.inr (Or.inr (List.mem_append_left _ h''))

theorem trimLoop_stage_inv (env : MemEnv) (pool : CTxMemPool)
    (protect : Finset Hash) (sizeToTrim : Nat) (nFeesReserved : Int)
    (sizeToUse : Nat) (feeToUse : Int) (iterextra : Nat) (rand : Nat → Nat) :
    ∀ (order : List Hash) (st : TrimLoopState),
      (∀ x ∈ st.stage, x ∉ protect) → stageClosed pool st.stage →
      (∀ x ∈ (trimLoop env pool protect sizeToTrim nFeesReserved sizeToUse
          feeToUse iterextra rand order st).stage, x ∉ protect) ∧
        stageClosed pool (trimLoop env pool protect sizeToTrim nFeesReserved
          sizeToUse feeToUse iterextra rand order st).stage := by
  intro order
  induction order with
  | nil =>
    intro st h1 h2
    rw [trimLoop]
    exact ⟨h1, h2⟩
  | cons h rest ih =>
    intro st h1 h2
    rw [trimLoop]
    by_cases hc1 : sizeToTrim ≤ st.usageRemoved
    · rw [if_pos hc1]; exact ⟨h1, h2⟩
    · rw [if_neg hc1]
      by_cases hc2 : rand st.randIdx % 10 ≠ 0
      · rw [if_pos hc2]; exact ih _ h1 h2
      · rw [if_neg hc2]
        by_cases hc3 : h ∈ st.stage
        · rw [if_pos hc3]; exact ih _ h1 h2
        · rw [if_neg hc3]
          by_cases hc4 : ((pool.findTx h).getD default).GetFee * (sizeToUse : Int) >
              feeToUse * (((pool.findTx h).getD default).GetTxSize : Int)
          · rw [if_pos hc4]; exact ⟨h1, h2⟩
          · rw [if_neg hc4]
            set s := trimBfs env pool protect st.stage nFeesReserved
              st.nFeesRemoved feeToUse
              (iterextra + iterperfail * (st.fails + 1))
              (iterextra + iterperfail * (st.fails + 1) + 2)
              { todo := [h], now := ∅, nowfee := 0, nowsize := 0, nowusage := 0
                itertotal := st.itertotal, good := true } with hs
            by_cases hg : (s.good &&
                !(s.nowfee * (sizeToUse : Int) > feeToUse * (s.nowsize : Int))) = true
            · rw [if_pos hg]
              have hgood : s.good = true := by
                have := hg
                simp only [Bool.and_eq_true] at this
                exact this.1
              have hb := trimBfs_good_spec env pool protect st.stage nFeesReserved
                st.nFeesRemoved feeToUse
                (iterextra + iterperfail * (st.fails + 1))
                (iterextra + iterperfail * (st.fails + 1) + 2)
                { todo := [h], now := ∅, nowfee := 0, nowsize := 0, nowusage := 0
                  itertotal := st.itertotal, good := true }
                (by intro x hx; simp at hx)
                (by intro x hx; simp at hx)
                (hs ▸ hgood)
              rw [← hs] at hb
              refine ih _ ?_ ?_
              · intro x hx
                rcases Finset.mem_union.mp hx with hx' | hx'
                · exact h1 x hx'
                · exact hb.1 x hx'
              · intro z hz c hc
                rcases Finset.mem_union.mp hz with hz' | hz'
                · exact Finset.mem_union_left _ (h2 z hz' c hc)
                · rcases hb.2 z hz' c hc with h' | h'
                  · exact Finset.mem_union_left _ h'
                  · exact Finset.mem_union_right _ h'
            · rw [if_neg hg]
              by_cases hc5 : failmax < st.fails + 1
              · rw [if_pos hc5]; exact ⟨h1, h2⟩
              · rw [if_neg hc5]; exact ih _ h1 h2

theorem updateChild_mapTx (env : MemEnv) (pool : CTxMemPool) (a b : Hash)
    (add : Bool) : (UpdateChild env pool a b add).mapTx = pool.mapTx := by
  unfold UpdateChild
  dsimp only
  split <;> split <;> rfl

theorem updateParent_mapTx (env : MemEnv) (pool : CTxMemPool) (a b : Hash)
    (add : Bool) : (UpdateParent env pool a b add).mapTx = pool.mapTx := by
  unfold UpdateParent
  dsimp only
  split <;> split <;> rfl

theorem foldl_updateChild_mapTx (env : MemEnv) (add : Bool) (h : Hash) :
    ∀ (l : List Hash) (pool : CTxMemPool),
      (l.foldl (fun acc phash => UpdateChild env acc phash h add) pool).mapTx =
        pool.mapTx := by
  intro l
  induction l with
  | nil => intro pool; rfl
  | cons p rest ih =>
    intro pool
    rw [List.foldl_cons, ih, updateChild_mapTx]

theorem updateState_tx (e : CTxMemPoolEntry) (ms mf mc : Int) :
    (e.UpdateState ms mf mc).tx = e.tx := by
  unfold CTxMemPoolEntry.UpdateState
  split <;> rfl

theorem existsTx_map_presTxid (l : List CTxMemPoolEntry)
    (g : CTxMemPoolEntry → CTxMemPoolEntry)
    (hg : ∀ e, (g e).tx.txid = e.tx.txid) (a : Hash) :
    ((l.map g).find? (fun e => e.tx.txid == a)).isSome =
      (l.find? (fun e => e.tx.txid == a)).isSome := by
  rw [Bool.eq_iff_iff]
  simp only [List.find?_isSome, List.mem_map]
  constructor
  · rintro ⟨_, ⟨e, he, rfl⟩, hp⟩
    exact ⟨e, he, by rwa [hg] at hp⟩
  · rintro ⟨e, he, hp⟩
    exact ⟨g e, ⟨e, he, rfl⟩, by rwa [hg]⟩

theorem updateAncestorsOf_mapTx (env : MemEnv) (pool : CTxMemPool)
    (add : Bool) (h : Hash) (s : Finset Hash) :
    (UpdateAncestorsOf env pool add h s).mapTx =
      pool.mapTx.map (fun e =>
        if e.tx.txid ∈ s then
          e.UpdateState
            ((if add then 1 else -1) * (((pool.findTx h).getD default).GetTxSize : Int))
            ((if add then 1 else -1) * ((pool.findTx h).getD default).GetFee)
            (if add then 1 else -1)
        else e) := by
  unfold UpdateAncestorsOf
  dsimp only
  rw [foldl_updateChild_mapTx]

theorem existsTx_congr_mapTx (pool1 pool2 : CTxMemPool) (a : Hash)
    (h : pool1.mapTx = pool2.mapTx) : pool1.existsTx a = pool2.existsTx a := by
  unfold CTxMemPool.existsTx CTxMemPool.findTx
  rw [h]

theorem existsTx_updateAncestorsOf (env : MemEnv) (pool : CTxMemPool)
    (add : Bool) (h : Hash) (s : Finset Hash) (a : Hash) :
    (UpdateAncestorsOf env pool add h s).existsTx a = pool.existsTx a := by
  unfold CTxMemPool.existsTx CTxMemPool.findTx
  rw [updateAncestorsOf_mapTx]
  refine existsTx_map_presTxid _ _ ?_ a
  intro e
  split
  · rw [updateState_tx]
  · rfl

theorem existsTx_updateChildrenForRemoval (env : MemEnv) (pool : CTxMemPool)
    (h : Hash) (a : Hash) :
    (UpdateChildrenForRemoval env pool h).existsTx a = pool.existsTx a := by
  unfold UpdateChildrenForRemoval
  generalize (sortHashes (linksOf pool h).2) = l
  induction l generalizing pool with
  | nil => rfl
  | cons c rest ih =>
    rw [List.foldl_cons, ih]
    exact existsTx_congr_mapTx _ _ _ (updateParent_mapTx env pool c h false)

theorem existsTx_updateForRemove (env : MemEnv) (pool : CTxMemPool)
    (s : Finset Hash) (a : Hash) :
    (UpdateForRemoveFromMempool env pool s).existsTx a = pool.existsTx a := by
  unfold UpdateForRemoveFromMempool
  dsimp only
  have h2 : ∀ (l2 : List Hash) (p : CTxMemPool),
      (l2.foldl (fun acc rh => UpdateChildrenForRemoval env acc rh) p).existsTx a
        = p.existsTx a := by
    intro l2
    induction l2 with
    | nil => intro p; rfl
    | cons c rest ih =>
      intro p
      rw [List.foldl_cons, ih, existsTx_updateChildrenForRemoval]
  rw [h2]
  generalize (sortHashes s) = l
  induction l generalizing pool with
  | nil => rfl
  | cons c rest ih =>
    rw [List.foldl_cons, ih, existsTx_updateAncestorsOf]

theorem existsTx_removeUnchecked (env : MemEnv) (pool : CTxMemPool)
    (h a : Hash) (hne : a ≠ h) :
    (removeUnchecked env pool h).existsTx a = pool.existsTx a := by
  unfold removeUnchecked CTxMemPool.existsTx CTxMemPool.findTx
  dsimp only
  rw [Bool.eq_iff_iff]
  simp only [List.find?_isSome, List.mem_filter, decide_eq_true_eq, beq_iff_eq]
  constructor
  · rintro ⟨e, ⟨he, _⟩, hp⟩
    exact ⟨e, he, hp⟩
  · rintro ⟨e, he, hp⟩
    exact ⟨e, ⟨he, fun hh => hne (hp ▸ hh)⟩, hp⟩

theorem existsTx_foldl_removeUnchecked (env : MemEnv) (a : Hash) :
    ∀ (l : List Hash), (∀ x ∈ l, a ≠ x) → ∀ (pool : CTxMemPool),
      (l.foldl (fun acc h => removeUnchecked env acc h) pool).existsTx a =
        pool.existsTx a := by
  intro l
  induction l with
  | nil => intro _ pool; rfl
  | cons c rest ih =>
    intro hmem pool
    rw [List.foldl_cons, ih (fun x hx => hmem x (List.mem_cons_of_mem _ hx)),
      existsTx_removeUnchecked env pool c a (hmem c (List.mem_cons_self _ _))]

theorem existsTx_removeStaged (env : MemEnv) (pool : CTxMemPool)
    (stage : Finset Hash) (a : Hash) (hnot : a ∉ stage) :
    (RemoveStaged env pool stage).existsTx a = pool.existsTx a := by
  unfold RemoveStaged
  dsimp only
  rw [existsTx_foldl_removeUnchecked env a _ ?hm, existsTx_updateForRemove]
  case hm =>
    intro x hx
    rw [mem_sortHashes] at hx
    exact fun hh => hnot (hh ▸ hx)

theorem staged_not_ancestor (pool : CTxMemPool) (hcomplete : nextTxComplete pool)
    (stage protect : Finset Hash)
    (hdisj : ∀ x ∈ stage, x ∉ protect) (hcl : stageClosed pool stage)
    (tx : CTransaction) (hprot : ∀ inp ∈ tx.vin, inp.prevout.1 ∈ protect)
    (a : Hash) (ha : isAncestorOf pool tx a) : a ∉ stage := by
  intro has
  obtain ⟨d, hchain, inp, hinp, hd⟩ := ha
  have hstep : ∀ x, x ∈ stage → ∀ y, stepRel pool x y → y ∈ stage := by
    intro x hx y hy
    obtain ⟨e, he, hety, inp', hinp', hprev⟩ := hy
    obtain ⟨p, hp, hpeq, hph⟩ := hcomplete e he inp' hinp'
    have hc : p.2.1 ∈ pool.nextTxChildren x := by
      have := mem_nextTxChildren_of_mem pool p hp
      rwa [hpeq, hprev] at this
    have := hcl x hx p.2.1 hc
    rwa [hph, hety] at this
  have hdstage : d ∈ stage := by
    clear hd hinp
    induction hchain with
    | refl => exact has
    | tail _ hstep' ih => exact hstep _ ih _ hstep'
  exact hdisj d hdstage (hd ▸ hprot inp hinp)

/-- C1: an eviction stage produced by StageTrimToSize (which drives
TrimMempool with the protect set built from the incoming entry's inputs)
never contains an in-mempool ancestor of the incoming entry — any pool
transaction whose outputs are spent, directly or through a chain of pool
transactions, by the incoming transaction is absent from the returned
stage, and hence survives the subsequent RemoveStaged call. -/
theorem stageTrimToSize_never_stages_ancestor
    (env : MemEnv) (pool : CTxMemPool) (order : List Hash) (rand : Nat → Nat)
    (sizelimit : Nat) (toadd : CTxMemPoolEntry) (nFeesReserved : Int)
    (hcomplete : nextTxComplete pool) (a : Hash)
    (ha : isAncestorOf pool toadd.tx a) :
    a ∉ (StageTrimToSize env pool order rand sizelimit toadd nFeesReserved
        ∅ 0).stage ∧
      ∀ e ∈ pool.mapTx, e.tx.txid = a →
        (RemoveStaged env pool (StageTrimToSize env pool order rand sizelimit
          toadd nFeesReserved ∅ 0).stage).existsTx a = true := by
  have hmain : ∀ x ∈ (StageTrimToSize env pool order rand sizelimit toadd
      nFeesReserved ∅ 0).stage, ¬ isAncestorOf pool toadd.tx x := by
    unfold StageTrimToSize
    by_cases hfit : CTxMemPool.DynamicMemoryUsage env pool +
        CTxMemPool.GuessDynamicMemoryUsage env toadd ≤ sizelimit
    · rw [if_pos hfit]
      intro x hx
      simp at hx
    · rw [if_neg hfit]
      intro x hx hanc
      unfold TrimMempool at hx
      simp only at hx
      have hinv := trimLoop_stage_inv env pool
        ((toadd.tx.vin.map (fun i => i.prevout.1)).toFinset)
        (min (CTxMemPool.DynamicMemoryUsage env pool +
          CTxMemPool.GuessDynamicMemoryUsage env toadd - sizelimit)
          (CTxMemPool.GuessDynamicMemoryUsage env toadd))
        nFeesReserved toadd.GetTxSize toadd.GetFee 10 rand order
        { stage := ∅, nFeesRemoved := 0, usageRemoved := 0, itertotal := 0
          fails := 0, randIdx := 0 }
        (by intro y hy; simp at hy) (by intro y hy c _; simp at hy)
      exact staged_not_ancestor pool hcomplete _ _ hinv.1 hinv.2 toadd.tx
        (by
          intro inp hinp
          simp only [List.mem_toFinset, List.mem_map]
          exact ⟨inp, hinp, rfl⟩)
        x hanc hx
  refine ⟨fun hx => hmain a hx ha, fun e he hea => ?_⟩
  rw [existsTx_removeStaged env pool _ a (fun hx => hmain a hx ha)]
  unfold CTxMemPool.existsTx CTxMemPool.findTx
  rw [List.find?_isSome]
  exact ⟨e, he, by simp [hea]⟩

/-- C1 witness: in the two-transaction chain pool, txid 1 is a transitive
ancestor of the incoming transaction 3 (which spends an output of 2, which
spends an output of 1), and is never staged by StageTrimToSize with a zero
size limit. -/
theorem stageTrimToSize_never_stages_ancestor_witness :
    nextTxComplete wPool ∧ isAncestorOf wPool wToadd.tx 1 ∧
      1 ∉ (StageTrimToSize wEnv wPool [1, 2] (fun _ => 0) 0 wToadd 0 ∅ 0).stage := by
  have hanc : isAncestorOf wPool wToadd.tx 1 :=
    ⟨2, Relation.ReflTransGen.single
        ⟨wE2, by decide, rfl, { prevout := (1, 0) }, by decide, rfl⟩,
      { prevout := (2, 0) }, by decide, rfl⟩
  have hcomp : nextTxComplete wPool := by
    intro e he inp hinp
    fin_cases he <;> fin_cases hinp <;> decide
  exact ⟨hcomp, hanc,
    (stageTrimToSize_never_stages_ancestor wEnv wPool [1, 2] (fun _ => 0) 0
      wToadd 0 hcomp 1 hanc).1⟩

theorem updateChild_mapDeltas (env : MemEnv) (pool : CTxMemPool) (a b : Hash)
    (add : Bool) : (UpdateChild env pool a b add).mapDeltas = pool.mapDeltas := by
  unfold UpdateChild
  dsimp only
  split <;> split <;> rfl

theorem updateParent_mapDeltas (env : MemEnv) (pool : CTxMemPool) (a b : Hash)
    (add : Bool) : (UpdateParent env pool a b add).mapDeltas = pool.mapDeltas := by
  unfold UpdateParent
  dsimp only
  split <;> split <;> rfl

theorem updateAncestorsOf_mapDeltas (env : MemEnv) (pool : CTxMemPool)
    (add : Bool) (h : Hash) (s : Finset Hash) :
    (UpdateAncestorsOf env pool add h s).mapDeltas = pool.mapDeltas := by
  unfold UpdateAncestorsOf
  dsimp only
  generalize (sortHashes (linksOf pool h).1) = l
  induction l generalizing pool with
  | nil => rfl
  | cons c rest ih =>
    rw [List.foldl_cons]
    exact (ih (UpdateChild env pool c h add)).trans
      (updateChild_mapDeltas env pool c h add)

theorem updateChildrenForRemoval_mapDeltas (env : MemEnv) (pool : CTxMemPool)
    (h : Hash) :
    (UpdateChildrenForRemoval env pool h).mapDeltas = pool.mapDeltas := by
  unfold UpdateChildrenForRemoval
  generalize (sortHashes (linksOf pool h).2) = l
  induction l generalizing pool with
  | nil => rfl
  | cons c rest ih =>
    rw [List.foldl_cons]
    exact (ih (UpdateParent env pool c h false)).trans
      (updateParent_mapDeltas env pool c h false)

theorem updateForRemove_mapDeltas (env : MemEnv) (pool : CTxMemPool)
    (s : Finset Hash) :
    (UpdateForRemoveFromMempool env pool s).mapDeltas = pool.mapDeltas := by
  unfold UpdateForRemoveFromMempool
  dsimp only
  have h2 : ∀ (l2 : List Hash) (p : CTxMemPool),
      (l2.foldl (fun acc rh => UpdateChildrenForRemoval env acc rh) p).mapDeltas
        = p.mapDeltas := by
    intro l2
    induction l2 with
    | nil => intro p; rfl
    | cons c rest ih =>
      intro p
      rw [List.foldl_cons]
      exact (ih _).trans (updateChildrenForRemoval_mapDeltas env p c)
  rw [h2]
  generalize (sortHashes s) = l
  induction l generalizing pool with
  | nil => rfl
  | cons c rest ih =>
    rw [List.foldl_cons]
    exact (ih _).trans (updateAncestorsOf_mapDeltas env pool false c _)

theorem removeUnchecked_mapDeltas (env : MemEnv) (pool : CTxMemPool)
    (h : Hash) : (removeUnchecked env pool h).mapDeltas = pool.mapDeltas := rfl

theorem removeStaged_mapDeltas (env : MemEnv) (pool : CTxMemPool)
    (stage : Finset Hash) :
    (RemoveStaged env pool stage).mapDeltas = pool.mapDeltas := by
  unfold RemoveStaged
  dsimp only
  rw [show ∀ (l : List Hash) (p : CTxMemPool),
      (l.foldl (fun acc h => removeUnchecked env acc h) p).mapDeltas =
        p.mapDeltas from ?_, updateForRemove_mapDeltas]
  intro l
  induction l with
  | nil => intro p; rfl
  | cons c rest ih =>
    intro p
    rw [List.foldl_cons]
    exact (ih _).trans (removeUnchecked_mapDeltas env p c)

theorem remove_mapDeltas (env : MemEnv) (pool : CTxMemPool)
    (origTx : CTransaction) (r : Bool) :
    (remove env pool origTx r).mapDeltas = pool.mapDeltas := by
  unfold remove
  exact removeStaged_mapDeltas env pool _

theorem removeConflicts_mapDeltas (env : MemEnv) (pool : CTxMemPool)
    (tx : CTransaction) :
    (removeConflicts env pool tx).mapDeltas = pool.mapDeltas := by
  unfold removeConflicts
  generalize tx.vin = l
  induction l generalizing pool with
  | nil => rfl
  | cons c rest ih =>
    rw [List.foldl_cons]
    refine (ih _).trans ?_
    dsimp only
    cases hm : (pool.mapNextTx.find? (fun p => p.1 == c.prevout)).map
        (fun p => p.2.1) with
    | none => simp [hm]
    | some spender =>
      simp only [hm]
      by_cases hsp : spender ≠ tx.txid
      · rw [if_pos hsp]
        exact remove_mapDeltas env pool _ true
      · rw [if_neg hsp]

theorem expire_mapDeltas (env : MemEnv) (pool : CTxMemPool) (t : Int) :
    (Expire env pool t).1.mapDeltas = pool.mapDeltas := by
  unfold Expire
  exact removeStaged_mapDeltas env pool _

theorem applyDeltas_congr (pool1 pool2 : CTxMemPool)
    (h : pool1.mapDeltas = pool2.mapDeltas) (a : Hash) (p : ℚ) (f : Int) :
    ApplyDeltas pool1 a p f = ApplyDeltas pool2 a p f := by
  unfold ApplyDeltas
  rw [h]

/-- C8 counterexample: the claim includes block connection among the
removal paths across which a prioritisation delta persists, but
removeForBlock calls ClearPrioritisation on every block transaction: with
a (1, 500) delta registered for txid 1, connecting a block containing
transaction 1 leaves ApplyDeltas yielding (0, 0) instead of the previous
(1, 500). -/
theorem removeForBlock_clears_delta_counterexample :
    (ApplyDeltas wPoolD 1 0 0).2 = (500 : Int) ∧
    (ApplyDeltas (removeForBlock wEnv wPoolD [wTx1]) 1 0 0).2 ≠ (500 : Int) := by
  constructor
  · decide
  · decide

/-- C8 (amended): a prioritisation delta registered for a txid persists
across the entry's removal by recursive removal, conflict removal, staged
eviction and expiry — after any of those, ApplyDeltas yields the same
accumulated pair as before — but not across block connection, where
removeForBlock explicitly clears the prioritisation record of each
transaction in the connected block. -/
theorem deltas_persist_nonblock_removals (env : MemEnv) (pool : CTxMemPool)
    (origTx : CTransaction) (r : Bool) (stage : Finset Hash) (t : Int)
    (a : Hash) (p : ℚ) (f : Int) :
    ApplyDeltas (remove env pool origTx r) a p f = ApplyDeltas pool a p f ∧
    ApplyDeltas (removeConflicts env pool origTx) a p f =
      ApplyDeltas pool a p f ∧
    ApplyDeltas (RemoveStaged env pool stage) a p f = ApplyDeltas pool a p f ∧
    ApplyDeltas (Expire env pool t).1 a p f = ApplyDeltas pool a p f :=
  ⟨applyDeltas_congr _ _ (remove_mapDeltas env pool origTx r) a p f,
    applyDeltas_congr _ _ (removeConflicts_mapDeltas env pool origTx) a p f,
    applyDeltas_congr _ _ (removeStaged_mapDeltas env pool stage) a p f,
    applyDeltas_congr _ _ (expire_mapDeltas env pool t) a p f⟩

theorem sortHashes_empty : sortHashes (∅ : Finset Hash) = [] := rfl

theorem sortHashes_singleton (h : Hash) : sortHashes ({h} : Finset Hash) = [h] := rfl

theorem insSorted_perm (x : Nat) (l : List Nat) : (insSorted x l).Perm (x :: l) := by
  induction l with
  | nil => exact List.Perm.refl _
  | cons z zs ih =>
    by_cases hxz : x ≤ z
    · rw [insSorted, if_pos hxz]
    · rw [insSorted, if_neg hxz]
      exact (List.Perm.cons z ih).trans (List.Perm.swap x z zs)

theorem sortHashes_coe (s : Finset Hash) :
    (sortHashes s : Multiset Hash) = s.1 := by
  have hm : ∀ (m : Multiset Hash),
      ((Multiset.foldr insSorted [] m : List Hash) : Multiset Hash) = m := by
    intro m
    induction m using Multiset.induction_on with
    | empty => rfl
    | cons x t ih =>
      rw [Multiset.foldr_cons]
      calc ((insSorted x (Multiset.foldr insSorted [] t) : List Hash) : Multiset Hash)
          = ((x :: Multiset.foldr insSorted [] t : List Hash) : Multiset Hash) :=
            Quot.sound (insSorted_perm _ _)
        _ = x ::ₘ ((Multiset.foldr insSorted [] t : List Hash) : Multiset Hash) := rfl
        _ = x ::ₘ t := by rw [ih]
  exact hm s.1

theorem sortHashes_nodup (s : Finset Hash) : (sortHashes s).Nodup := by
  have : Multiset.Nodup (sortHashes s : Multiset Hash) := by
    rw [sortHashes_coe]; exact s.2
  exact this

theorem updateState_nTxSize (e : CTxMemPoolEntry) (ms mf mc : Int) :
    (e.UpdateState ms mf mc).nTxSize = e.nTxSize := by
  unfold CTxMemPoolEntry.UpdateState
  split <;> rfl

theorem updateState_cancel (e : CTxMemPoolEntry) (hc : 0 ≤ e.nCountWithDescendants)
    (ms mf : Int) :
    (e.UpdateState ms mf 1).UpdateState (-ms) (-mf) (-1) = e := by
  unfold CTxMemPoolEntry.UpdateState CTxMemPoolEntry.IsDirty
  by_cases hd : e.nCountWithDescendants = 0
  · simp [hd]
  · have h1 : (e.nCountWithDescendants == 0) = false := by
      simpa using hd
    have h2 : ((e.nCountWithDescendants + 1 : Int) == 0) = false := by
      simp only [beq_eq_false_iff_ne, ne_eq]
      omega
    simp [h1, h2, add_neg_cancel_right]

theorem findTx_append_entry (pool : CTxMemPool) (extra : List CTxMemPoolEntry)
    (x : Hash) (hx : ∀ e ∈ extra, e.tx.txid ≠ x) :
    ((pool.mapTx ++ extra).find? (fun e => e.tx.txid == x)) = pool.findTx x := by
  unfold CTxMemPool.findTx
  rw [List.find?_append]
  cases hf : pool.mapTx.find? (fun e => e.tx.txid == x) with
  | some e => rfl
  | none =>
    simp only [Option.none_or]
    rw [List.find?_eq_none]
    intro e he
    simp only [beq_iff_eq]
    exact hx e he

theorem find?_map_presTxid (l : List CTxMemPoolEntry)
    (g : CTxMemPoolEntry → CTxMemPoolEntry)
    (hg : ∀ e, (g e).tx.txid = e.tx.txid) (x : Hash) :
    (l.map g).find? (fun e => e.tx.txid == x) =
      (l.find? (fun e => e.tx.txid == x)).map g := by
  induction l with
  | nil => rfl
  | cons e rest ih =>
    by_cases he : e.tx.txid = x
    · rw [List.map_cons, List.find?_cons_of_pos, List.find?_cons_of_pos]
      · rfl
      · simpa using he
      · simp [hg, he]
    · rw [List.map_cons, List.find?_cons_of_neg, List.find?_cons_of_neg, ih]
      · simpa using he
      · simp [hg, he]

theorem mem_allLinkParents (pool : CTxMemPool) (x : Hash) :
    x ∈ allLinkParents pool ↔ ∃ kls ∈ pool.mapLinks, x ∈ kls.2.1 := by
  unfold allLinkParents
  induction pool.mapLinks with
  | nil => simp
  | cons k rest ih =>
    simp only [List.foldr_cons, Finset.mem_union, ih, List.mem_cons]
    constructor
    · rintro (hx | ⟨kls, hk, hm⟩)
      · exact ⟨k, Or.inl rfl, hx⟩
      · exact ⟨kls, Or.inr hk, hm⟩
    · rintro ⟨kls, hk | hk, hm⟩
      · exact Or.inl (hk ▸ hm)
      · exact Or.inr ⟨kls, hk, hm⟩

theorem linksOf_parents_subset_ALP (pool : CTxMemPool) (sh : Hash) :
    (linksOf pool sh).1 ⊆ allLinkParents pool := by
  unfold linksOf
  cases hf : pool.mapLinks.find? (fun p => p.1 == sh) with
  | none => simp
  | some kls =>
    intro x hx
    exact (mem_allLinkParents pool x).mpr ⟨kls, List.mem_of_find?_eq_some hf, hx⟩

theorem not_lt_nNoLimit_u64 (x : Nat) : ¬ (nNoLimit < u64 x) := by
  unfold nNoLimit u64
  have := Nat.mod_lt x (show 0 < 2 ^ 64 by norm_num)
  omega

theorem not_lt_nNoLimit_u64i (y : Int) : ¬ (nNoLimit < u64i y) := by
  unfold nNoLimit u64i
  have h1 : (0 : Int) ≤ y % 2 ^ 64 := Int.emod_nonneg y (by norm_num)
  have h2 : y % 2 ^ 64 < 2 ^ 64 := Int.emod_lt_of_pos y (by norm_num)
  omega

theorem foldl_preserve {α : Type} (f : CTxMemPool → α)
    (step : CTxMemPool → Hash → CTxMemPool)
    (hstep : ∀ acc x, f (step acc x) = f acc) :
    ∀ (l : List Hash) (acc : CTxMemPool), f (l.foldl step acc) = f acc := by
  intro l
  induction l with
  | nil => intro acc; rfl
  | cons x rest ih =>
    intro acc
    rw [List.foldl_cons, ih, hstep]

theorem updateParent_mapNextTx (env : MemEnv) (pool : CTxMemPool) (a b : Hash)
    (add : Bool) : (UpdateParent env pool a b add).mapNextTx = pool.mapNextTx := by
  unfold UpdateParent
  dsimp only
  split <;> split <;> rfl

theorem updateChild_mapNextTx (env : MemEnv) (pool : CTxMemPool) (a b : Hash)
    (add : Bool) : (UpdateChild env pool a b add).mapNextTx = pool.mapNextTx := by
  unfold UpdateChild
  dsimp only
  split <;> split <;> rfl

theorem updateParent_totalTxSize (env : MemEnv) (pool : CTxMemPool) (a b : Hash)
    (add : Bool) : (UpdateParent env pool a b add).totalTxSize = pool.totalTxSize := by
  unfold UpdateParent
  dsimp only
  split <;> split <;> rfl

theorem updateChild_totalTxSize (env : MemEnv) (pool : CTxMemPool) (a b : Hash)
    (add : Bool) : (UpdateChild env pool a b add).totalTxSize = pool.totalTxSize := by
  unfold UpdateChild
  dsimp only
  split <;> split <;> rfl

theorem updateParent_nTransactionsUpdated (env : MemEnv) (pool : CTxMemPool)
    (a b : Hash) (add : Bool) :
    (UpdateParent env pool a b add).nTransactionsUpdated =
      pool.nTransactionsUpdated := by
  unfold UpdateParent
  dsimp only
  split <;> split <;> rfl

theorem updateChild_nTransactionsUpdated (env : MemEnv) (pool : CTxMemPool)
    (a b : Hash) (add : Bool) :
    (UpdateChild env pool a b add).nTransactionsUpdated =
      pool.nTransactionsUpdated := by
  unfold UpdateChild
  dsimp only
  split <;> split <;> rfl

theorem updateParent_mapTx' (env : MemEnv) (pool : CTxMemPool) (a b : Hash)
    (add : Bool) : (UpdateParent env pool a b add).mapTx = pool.mapTx :=
  updateParent_mapTx env pool a b add

theorem find?_key_append {α : Type} (m : List (Hash × α)) (h : Hash) (v : α)
    (hk : ∀ kls ∈ m, kls.1 ≠ h) :
    (m ++ [(h, v)]).find? (fun p => p.1 == h) = some (h, v) := by
  rw [List.find?_append]
  have hnone : m.find? (fun p => p.1 == h) = none := by
    rw [List.find?_eq_none]
    intro kls hm
    simpa using hk kls hm
  rw [hnone]
  simp

theorem find?_key_map {α : Type} (m : List (Hash × α)) (p : Hash)
    (f : Hash × α → Hash × α) (hf : ∀ kls, (f kls).1 = kls.1) :
    (m.map f).find? (fun q => q.1 == p) =
      (m.find? (fun q => q.1 == p)).map f := by
  induction m with
  | nil => rfl
  | cons kls rest ih =>
    by_cases hk : kls.1 = p
    · rw [List.map_cons, List.find?_cons_of_pos, List.find?_cons_of_pos]
      · rfl
      · simpa using hk
      · simp [hf, hk]
    · rw [List.map_cons, List.find?_cons_of_neg, List.find?_cons_of_neg, ih]
      · simpa using hk
      · simp [hf, hk]

theorem setLinks_append_key (m : List (Hash × (Finset Hash × Finset Hash)))
    (h : Hash) (v : Finset Hash × Finset Hash)
    (f : Finset Hash × Finset Hash → Finset Hash × Finset Hash)
    (hk : ∀ kls ∈ m, kls.1 ≠ h) :
    setLinks (m ++ [(h, v)]) h f = m ++ [(h, f v)] := by
  unfold setLinks
  rw [if_pos]
  · rw [List.map_append]
    congr 1
    · refine (List.map_congr_left ?_).trans (List.map_id _)
      intro kls hm
      simp [hk kls hm]
    · simp
  · simp

theorem setLinks_present (m : List (Hash × (Finset Hash × Finset Hash)))
    (p : Hash) (f : Finset Hash × Finset Hash → Finset Hash × Finset Hash)
    (hp : m.any (fun q => q.1 == p) = true) :
    setLinks m p f =
      m.map (fun q => if q.1 == p then (q.1, f q.2) else q) := by
  unfold setLinks
  rw [if_pos hp]

theorem mem_poolFiltered (pool : CTxMemPool) (l : List Hash) (x : Hash) :
    x ∈ poolFiltered pool l ↔ x ∈ l ∧ pool.existsTx x = true := by
  unfold poolFiltered
  simp [List.mem_filter]

theorem poolFiltered_nil (pool : CTxMemPool) : poolFiltered pool [] = ∅ := rfl

theorem poolFiltered_cons (pool : CTxMemPool) (ph : Hash) (rest : List Hash) :
    poolFiltered pool (ph :: rest) =
      if pool.existsTx ph then insert ph (poolFiltered pool rest)
      else poolFiltered pool rest := by
  unfold poolFiltered
  by_cases hex : pool.existsTx ph <;> simp [List.filter_cons, hex]

theorem parentsFold_spec (env : MemEnv) (pool : CTxMemPool) (h : Hash)
    (T : List CTxMemPoolEntry)
    (hT : ∀ x : Hash, x ≠ h →
      (T.find? (fun e => e.tx.txid == x)).isSome = pool.existsTx x)
    (hkf : ∀ kls ∈ pool.mapLinks, kls.1 ≠ h) :
    ∀ (l : List Hash), l.Nodup → (∀ x ∈ l, x ≠ h) →
      ∀ (Q : Finset Hash), (∀ x ∈ l, x ∉ Q) →
      ∀ (acc : CTxMemPool), acc.mapTx = T →
        acc.mapLinks = pool.mapLinks ++ [(h, (Q, ∅))] →
        (l.foldl (fun acc2 phash =>
            if acc2.existsTx phash then UpdateParent env acc2 h phash true
            else acc2) acc).mapLinks =
          pool.mapLinks ++ [(h, (Q ∪ poolFiltered pool l, ∅))] ∧
        (l.foldl (fun acc2 phash =>
            if acc2.existsTx phash then UpdateParent env acc2 h phash true
            else acc2) acc).cachedInnerUsage =
          acc.cachedInnerUsage + env.incSetEntries * (poolFiltered pool l).card := by
  intro l
  induction l with
  | nil =>
    intro _ _ Q _ acc _ haccL
    simp [poolFiltered_nil, haccL]
  | cons ph rest ih =>
    intro hnd hlh Q hlQ acc haccT haccL
    have hph : ph ≠ h := hlh ph (List.mem_cons_self _ _)
    have hexists : acc.existsTx ph = pool.existsTx ph := by
      unfold CTxMemPool.existsTx CTxMemPool.findTx
      rw [haccT]
      exact hT ph hph
    rw [List.foldl_cons]
    by_cases hex : pool.existsTx ph = true
    · have hphQ : ph ∉ Q := hlQ ph (List.mem_cons_self _ _)
      have hlinks : linksOf acc h = (Q, ∅) := by
        unfold linksOf
        rw [haccL, find?_key_append _ _ _ hkf]
        rfl
      have hstep : (if acc.existsTx ph then UpdateParent env acc h ph true
          else acc) =
          { acc with
            mapLinks := setLinks acc.mapLinks h (fun ls => (insert ph ls.1, ls.2))
            cachedInnerUsage := acc.cachedInnerUsage + env.incSetEntries } := by
        rw [if_pos (by rw [hexists]; exact hex)]
        unfold UpdateParent
        dsimp only
        rw [hlinks]
        dsimp only
        rw [if_neg hphQ]
        rfl
      rw [hstep]
      have haccT' : ({ acc with
          mapLinks := setLinks acc.mapLinks h (fun ls => (insert ph ls.1, ls.2))
          cachedInnerUsage := acc.cachedInnerUsage + env.incSetEntries } :
            CTxMemPool).mapTx = T := haccT
      have haccL' : ({ acc with
          mapLinks := setLinks acc.mapLinks h (fun ls => (insert ph ls.1, ls.2))
          cachedInnerUsage := acc.cachedInnerUsage + env.incSetEntries } :
            CTxMemPool).mapLinks = pool.mapLinks ++ [(h, (insert ph Q, ∅))] := by
        show setLinks acc.mapLinks h (fun ls => (insert ph ls.1, ls.2)) = _
        rw [haccL, setLinks_append_key _ _ _ _ hkf]
      have hrec := ih (List.Nodup.of_cons hnd)
        (fun x hx => hlh x (List.mem_cons_of_mem _ hx))
        (insert ph Q)
        (fun x hx hmem => by
          rcases Finset.mem_insert.mp hmem with rfl | hmem'
          · exact (List.Nodup.not_mem (by simpa using hnd)) hx
          · exact hlQ x (List.mem_cons_of_mem _ hx) hmem')
        _ haccT' haccL'
      have hphF : ph ∉ poolFiltered pool rest := by
        rw [mem_poolFiltered]
        intro hc
        exact (List.Nodup.not_mem (by simpa using hnd)) hc.1
      constructor
      · rw [hrec.1, poolFiltered_cons, if_pos hex, Finset.union_insert,
          ← Finset.insert_union]
      · rw [hrec.2, poolFiltered_cons, if_pos hex,
          Finset.card_insert_of_not_mem hphF]
        dsimp only
        ring
    · have hstep : (if acc.existsTx ph then UpdateParent env acc h ph true
          else acc) = acc := by
        rw [if_neg (by rw [hexists]; exact hex)]
      rw [hstep]
      have hrec := ih (List.Nodup.of_cons hnd)
        (fun x hx => hlh x (List.mem_cons_of_mem _ hx)) Q
        (fun x hx => hlQ x (List.mem_cons_of_mem _ hx)) acc haccT haccL
      rw [poolFiltered_cons, if_neg hex]
      exact hrec

theorem mapChildIns_empty (h : Hash)
    (m : List (Hash × (Finset Hash × Finset Hash))) :
    mapChildIns h ∅ m = m := by
  unfold mapChildIns
  refine (List.map_congr_left ?_).trans (List.map_id _)
  intro kls _
  simp

theorem mapChildIns_keys (h : Hash) (Q : Finset Hash)
    (m : List (Hash × (Finset Hash × Finset Hash))) (kls : _)
    (hm : kls ∈ mapChildIns h Q m) : ∃ kls0 ∈ m, kls0.1 = kls.1 := by
  unfold mapChildIns at hm
  obtain ⟨kls0, h0, heq⟩ := List.mem_map.mp hm
  refine ⟨kls0, h0, ?_⟩
  subst heq
  split <;> rfl

theorem find?_mapChildIns (h : Hash) (Q : Finset Hash)
    (m : List (Hash × (Finset Hash × Finset Hash))) (p : Hash) :
    (mapChildIns h Q m).find? (fun q => q.1 == p) =
      ((m.find? (fun q => q.1 == p)).map
        (fun kls => if kls.1 ∈ Q then (kls.1, (kls.2.1, insert h kls.2.2))
          else kls)) := by
  unfold mapChildIns
  refine find?_key_map m p _ ?_
  intro kls
  split <;> rfl

theorem setLinks_mapChildIns_ins (h p : Hash) (Q : Finset Hash)
    (m : List (Hash × (Finset Hash × Finset Hash)))
    (v : Finset Hash × Finset Hash)
    (hph : p ≠ h) (hpQ : p ∉ Q)
    (hany : (mapChildIns h Q m ++ [(h, v)]).any (fun q => q.1 == p) = true) :
    setLinks (mapChildIns h Q m ++ [(h, v)]) p (fun ls => (ls.1, insert h ls.2)) =
      mapChildIns h (insert p Q) m ++ [(h, v)] := by
  rw [setLinks_present _ _ _ hany, List.map_append]
  congr 1
  · unfold mapChildIns
    rw [List.map_map]
    refine List.map_congr_left ?_
    intro kls _
    by_cases hk : kls.1 = p
    · subst hk
      simp only [Function.comp_apply, if_neg hpQ, beq_self_eq_true, if_pos,
        Finset.mem_insert, true_or, if_true]
    · by_cases hkQ : kls.1 ∈ Q
      · simp only [Function.comp_apply, if_pos hkQ]
        rw [if_neg (by simpa using hk), if_pos (Finset.mem_insert_of_mem hkQ)]
      · simp only [Function.comp_apply, if_neg hkQ]
        rw [if_neg (by simpa using hk),
          if_neg (by
            intro hc
            rcases Finset.mem_insert.mp hc with hc1 | hc2
            · exact hk hc1
            · exact hkQ hc2)]
  · simp only [List.map_cons, List.map_nil]
    rw [if_neg (by simpa using (Ne.symm hph))]

theorem setLinks_mapChildIns_del (h p : Hash) (Q : Finset Hash)
    (m : List (Hash × (Finset Hash × Finset Hash)))
    (v : Finset Hash × Finset Hash)
    (hph : p ≠ h) (hpQ : p ∈ Q)
    (hnoh : ∀ kls ∈ m, h ∉ kls.2.2)
    (hany : (mapChildIns h Q m ++ [(h, v)]).any (fun q => q.1 == p) = true) :
    setLinks (mapChildIns h Q m ++ [(h, v)]) p (fun ls => (ls.1, ls.2.erase h)) =
      mapChildIns h (Q.erase p) m ++ [(h, v)] := by
  rw [setLinks_present _ _ _ hany, List.map_append]
  congr 1
  · unfold mapChildIns
    rw [List.map_map]
    refine List.map_congr_left ?_
    intro kls hkls
    obtain ⟨k, ps, cs⟩ := kls
    simp only [Function.comp_apply]
    by_cases hk : k = p
    · subst hk
      simp [hpQ, Finset.erase_insert (hnoh _ hkls)]
    · by_cases hkQ : k ∈ Q
      · simp [hkQ, hk, Finset.mem_erase]
      · simp [hkQ, hk, Finset.mem_erase]
  · simp only [List.map_cons, List.map_nil]
    rw [if_neg (by simpa using (Ne.symm hph))]

theorem find?_links_of_any (m : List (Hash × (Finset Hash × Finset Hash)))
    (p : Hash) (hany : m.any (fun q => q.1 == p) = true) :
    ∃ kls0, m.find? (fun q => q.1 == p) = some kls0 ∧ kls0.1 = p ∧ kls0 ∈ m := by
  obtain ⟨kls, hmem, hbeq⟩ := List.any_eq_true.mp hany
  have hsome : (m.find? (fun q => q.1 == p)).isSome := by
    rw [List.find?_isSome]
    exact ⟨kls, hmem, hbeq⟩
  obtain ⟨kls0, hk0⟩ := Option.isSome_iff_exists.mp hsome
  have hpred := List.find?_some hk0
  exact ⟨kls0, hk0, by simpa using hpred, List.mem_of_find?_eq_some hk0⟩

theorem childFold_ins (env : MemEnv) (pool : CTxMemPool) (h : Hash)
    (v : Finset Hash × Finset Hash)
    (hkf : ∀ kls ∈ pool.mapLinks, kls.1 ≠ h)
    (hnoh : ∀ kls ∈ pool.mapLinks, h ∉ kls.2.2) :
    ∀ (l : List Hash), l.Nodup → (∀ x ∈ l, x ≠ h) →
      (∀ x ∈ l, pool.mapLinks.any (fun q => q.1 == x) = true) →
      ∀ (Q : Finset Hash), (∀ x ∈ l, x ∉ Q) →
      ∀ (acc : CTxMemPool),
        acc.mapLinks = mapChildIns h Q pool.mapLinks ++ [(h, v)] →
        (l.foldl (fun a p => UpdateChild env a p h true) acc).mapLinks =
          mapChildIns h (Q ∪ l.toFinset) pool.mapLinks ++ [(h, v)] ∧
        (l.foldl (fun a p => UpdateChild env a p h true) acc).cachedInnerUsage =
          acc.cachedInnerUsage + env.incSetEntries * l.length := by
  intro l
  induction l with
  | nil =>
    intro _ _ _ Q _ acc haccL
    constructor
    · simpa using haccL
    · simp
  | cons p rest ih =>
    intro hnd hlh hlk Q hlQ acc haccL
    have hp_h : p ≠ h := hlh p (List.mem_cons_self _ _)
    have hpQ : p ∉ Q := hlQ p (List.mem_cons_self _ _)
    obtain ⟨kls0, hfind, hk0p, hk0mem⟩ :=
      find?_links_of_any pool.mapLinks p (hlk p (List.mem_cons_self _ _))
    have hfQ : (if kls0.1 ∈ Q then (kls0.1, (kls0.2.1, insert h kls0.2.2))
        else kls0) = kls0 := by
      rw [if_neg (by rw [hk0p]; exact hpQ)]
    have hfindacc : acc.mapLinks.find? (fun q => q.1 == p) = some kls0 := by
      rw [haccL, List.find?_append, find?_mapChildIns, hfind]
      exact congrArg some hfQ
    have hlinks : linksOf acc p = kls0.2 := by
      unfold linksOf
      rw [hfindacc]
      rfl
    have hanyacc : (acc.mapLinks.any (fun q => q.1 == p)) = true := by
      rw [haccL]
      refine List.any_eq_true.mpr ?_
      refine ⟨(if kls0.1 ∈ Q then (kls0.1, (kls0.2.1, insert h kls0.2.2))
        else kls0), List.mem_append_left _ ?_, by rw [hfQ]; simpa using hk0p⟩
      exact List.mem_map_of_mem _ hk0mem
    have hstep : UpdateChild env acc p h true =
        { acc with
          mapLinks := setLinks acc.mapLinks p (fun ls => (ls.1, insert h ls.2))
          cachedInnerUsage := acc.cachedInnerUsage + env.incSetEntries } := by
      unfold UpdateChild
      dsimp only
      rw [hlinks]
      simp only [if_neg (hnoh kls0 hk0mem)]
      rfl
    have haccL' : (UpdateChild env acc p h true).mapLinks =
        mapChildIns h (insert p Q) pool.mapLinks ++ [(h, v)] := by
      rw [hstep]
      show setLinks acc.mapLinks p (fun ls => (ls.1, insert h ls.2)) = _
      rw [haccL]
      exact setLinks_mapChildIns_ins h p Q pool.mapLinks v hp_h hpQ
        (haccL ▸ hanyacc)
    rw [List.foldl_cons]
    have hrec := ih (List.Nodup.of_cons hnd)
      (fun x hx => hlh x (List.mem_cons_of_mem _ hx))
      (fun x hx => hlk x (List.mem_cons_of_mem _ hx))
      (insert p Q)
      (fun x hx hmem => by
        rcases Finset.mem_insert.mp hmem with rfl | hmem'
        · exact (List.Nodup.not_mem (by simpa using hnd)) hx
        · exact hlQ x (List.mem_cons_of_mem _ hx) hmem')
      _ haccL'
    constructor
    · rw [hrec.1, List.toFinset_cons, Finset.union_insert, ← Finset.insert_union]
    · rw [hrec.2, hstep]
      dsimp only
      simp only [List.length_cons]
      ring

theorem childFold_del (env : MemEnv) (pool : CTxMemPool) (h : Hash)
    (v : Finset Hash × Finset Hash)
    (hkf : ∀ kls ∈ pool.mapLinks, kls.1 ≠ h)
    (hnoh : ∀ kls ∈ pool.mapLinks, h ∉ kls.2.2) :
    ∀ (l : List Hash), l.Nodup → (∀ x ∈ l, x ≠ h) →
      (∀ x ∈ l, pool.mapLinks.any (fun q => q.1 == x) = true) →
      ∀ (Q : Finset Hash), (∀ x ∈ l, x ∈ Q) →
      ∀ (acc : CTxMemPool),
        acc.mapLinks = mapChildIns h Q pool.mapLinks ++ [(h, v)] →
        (l.foldl (fun a p => UpdateChild env a p h false) acc).mapLinks =
          mapChildIns h (Q \ l.toFinset) pool.mapLinks ++ [(h, v)] ∧
        (l.foldl (fun a p => UpdateChild env a p h false) acc).cachedInnerUsage =
          acc.cachedInnerUsage - env.incSetEntries * l.length := by
  intro l
  induction l with
  | nil =>
    intro _ _ _ Q _ acc haccL
    constructor
    · simpa using haccL
    · simp
  | cons p rest ih =>
    intro hnd hlh hlk Q hlQ acc haccL
    have hp_h : p ≠ h := hlh p (List.mem_cons_self _ _)
    have hpQ : p ∈ Q := hlQ p (List.mem_cons_self _ _)
    obtain ⟨kls0, hfind, hk0p, hk0mem⟩ :=
      find?_links_of_any pool.mapLinks p (hlk p (List.mem_cons_self _ _))
    have hfQ : (if kls0.1 ∈ Q then (kls0.1, (kls0.2.1, insert h kls0.2.2))
        else kls0) = (kls0.1, (kls0.2.1, insert h kls0.2.2)) := by
      rw [if_pos (by rw [hk0p]; exact hpQ)]
    have hfindacc : acc.mapLinks.find? (fun q => q.1 == p) =
        some (kls0.1, (kls0.2.1, insert h kls0.2.2)) := by
      rw [haccL, List.find?_append, find?_mapChildIns, hfind]
      exact congrArg some hfQ
    have hlinks : linksOf acc p = (kls0.2.1, insert h kls0.2.2) := by
      unfold linksOf
      rw [hfindacc]
      rfl
    have hanyacc : (acc.mapLinks.any (fun q => q.1 == p)) = true := by
      rw [haccL]
      refine List.any_eq_true.mpr ?_
      refine ⟨(if kls0.1 ∈ Q then (kls0.1, (kls0.2.1, insert h kls0.2.2))
        else kls0), List.mem_append_left _ ?_, by rw [hfQ]; simpa using hk0p⟩
      exact List.mem_map_of_mem _ hk0mem
    have hstep : UpdateChild env acc p h false =
        { acc with
          mapLinks := setLinks acc.mapLinks p (fun ls => (ls.1, ls.2.erase h))
          cachedInnerUsage := acc.cachedInnerUsage - env.incSetEntries } := by
      unfold UpdateChild
      dsimp only
      rw [hlinks]
      simp only [if_pos (Finset.mem_insert_self h kls0.2.2)]
      rfl
    have haccL' : (UpdateChild env acc p h false).mapLinks =
        mapChildIns h (Q.erase p) pool.mapLinks ++ [(h, v)] := by
      rw [hstep]
      show setLinks acc.mapLinks p (fun ls => (ls.1, ls.2.erase h)) = _
      rw [haccL]
      exact setLinks_mapChildIns_del h p Q pool.mapLinks v hp_h hpQ hnoh
        (haccL ▸ hanyacc)
    rw [List.foldl_cons]
    have hrec := ih (List.Nodup.of_cons hnd)
      (fun x hx => hlh x (List.mem_cons_of_mem _ hx))
      (fun x hx => hlk x (List.mem_cons_of_mem _ hx))
      (Q.erase p)
      (fun x hx => Finset.mem_erase.mpr
        ⟨fun he => (List.Nodup.not_mem (by simpa using hnd)) (he ▸ hx),
          hlQ x (List.mem_cons_of_mem _ hx)⟩)
      _ haccL'
    constructor
    · rw [hrec.1]
      congr 2
      ext x
      simp only [Finset.mem_sdiff, Finset.mem_erase, List.toFinset_cons,
        Finset.mem_insert, List.mem_toFinset]
      tauto
    · rw [hrec.2, hstep]
      dsimp only
      simp only [List.length_cons]
      rw [Nat.sub_sub]
      congr 1
      ring

theorem eraseFold_eq_filter :
    ∀ (vin : List CTxIn) (m : List (OutPoint × (Hash × Nat))),
      vin.foldl (fun m2 inp => m2.filter (fun p => ¬(p.1 == inp.prevout))) m =
        m.filter (fun q => vin.all (fun inp => ¬(q.1 == inp.prevout))) := by
  intro vin
  induction vin with
  | nil =>
    intro m
    simp
  | cons inp rest ih =>
    intro m
    rw [List.foldl_cons, ih, List.filter_filter]
    refine List.filter_congr ?_
    intro q _
    simp only [List.all_cons, Bool.and_comm]

theorem foldAssign_spec {ι : Type} (f : ι → OutPoint) (g : ι → Hash × Nat)
    (S : OutPoint → Prop) :
    ∀ (I : List ι), (∀ i ∈ I, S (f i)) →
      ∀ (N extra : List (OutPoint × (Hash × Nat))),
        (∀ q ∈ N, ¬ S q.1) → (∀ q ∈ extra, S q.1) →
        ∃ extra2, (I.foldl (fun m i => nextTxAssign m (f i) (g i)) (N ++ extra)) =
          N ++ extra2 ∧ ∀ q ∈ extra2, S q.1 := by
  intro I
  induction I with
  | nil =>
    intro _ N extra _ hextra
    exact ⟨extra, rfl, hextra⟩
  | cons i rest ih =>
    intro hI N extra hN hextra
    rw [List.foldl_cons]
    have hSfi : S (f i) := hI i (List.mem_cons_self _ _)
    have hstep : ∃ extra1, nextTxAssign (N ++ extra) (f i) (g i) = N ++ extra1 ∧
        ∀ q ∈ extra1, S q.1 := by
      unfold nextTxAssign
      by_cases hany : ((N ++ extra).any (fun p => p.1 == f i)) = true
      · rw [if_pos hany]
        refine ⟨extra.map (fun p => if p.1 == f i then (p.1, g i) else p), ?_, ?_⟩
        · rw [List.map_append]
          congr 1
          refine (List.map_congr_left ?_).trans (List.map_id _)
          intro q hq
          have hneg : ¬ (q.1 == f i) = true := by
            intro hc
            exact hN q hq ((beq_iff_eq.mp hc) ▸ hSfi)
          rw [if_neg hneg]
          rfl
        · intro q hq
          obtain ⟨q0, hq0, rfl⟩ := List.mem_map.mp hq
          split
          · next hc => exact (beq_iff_eq.mp hc) ▸ hSfi
          · exact hextra q0 hq0
      · rw [if_neg hany, List.append_assoc]
        refine ⟨extra ++ [(f i, g i)], rfl, ?_⟩
        intro q hq
        rcases List.mem_append.mp hq with hq' | hq'
        · exact hextra q hq'
        · rw [List.mem_singleton.mp hq']
          exact hSfi
    obtain ⟨extra1, heq, hextra1⟩ := hstep
    rw [heq]
    exact ih (fun j hj => hI j (List.mem_cons_of_mem _ hj)) N extra1 hN hextra1

theorem scanParents_out (pool : CTxMemPool) (lim : Nat) :
    ∀ (l : List CTxIn) (acc out : Finset Hash),
      scanParents pool lim l acc = .ok out →
      ∀ x ∈ out, x ∈ acc ∨ ∃ e ∈ pool.mapTx, e.tx.txid = x := by
  intro l
  induction l with
  | nil =>
    intro acc out hout x hx
    rw [scanParents] at hout
    cases hout
    exact Or.inl hx
  | cons inp rest ih =>
    intro acc out hout x hx
    rw [scanParents] at hout
    cases hf : pool.findTx inp.prevout.1 with
    | none =>
      rw [hf] at hout
      exact ih acc out hout x hx
    | some p =>
      rw [hf] at hout
      dsimp only at hout
      by_cases hlim : lim < u64 ((insert p.tx.txid acc).card + 1)
      · rw [if_pos hlim] at hout
        cases hout
      · rw [if_neg hlim] at hout
        rcases ih _ out hout x hx with hx' | hx'
        · rcases Finset.mem_insert.mp hx' with rfl | hx''
          · exact Or.inr ⟨p, List.mem_of_find?_eq_some hf, rfl⟩
          · exact Or.inl hx''
        · exact Or.inr hx'

theorem calcAncParents_out (s : Finset Hash) (lim : Nat) :
    ∀ (l : List Hash) (sps out : Finset Hash),
      calcAncParents s lim l sps = .ok out →
      ∀ x ∈ out, x ∈ sps ∨ x ∈ l := by
  intro l
  induction l with
  | nil =>
    intro sps out hout x hx
    rw [calcAncParents] at hout
    cases hout
    exact Or.inl hx
  | cons ph rest ih =>
    intro sps out hout x hx
    rw [calcAncParents] at hout
    by_cases hlim : lim < u64 ((if ph ∈ s then sps else insert ph sps).card +
        s.card + 1)
    · rw [if_pos hlim] at hout
      cases hout
    · rw [if_neg hlim] at hout
      rcases ih _ out hout x hx with hx' | hx'
      · by_cases hps : ph ∈ s
        · rw [if_pos hps] at hx'
          exact Or.inl hx'
        · rw [if_neg hps] at hx'
          rcases Finset.mem_insert.mp hx' with rfl | hx''
          · exact Or.inr (List.mem_cons_self _ _)
          · exact Or.inl hx''
      · exact Or.inr (List.mem_cons_of_mem _ hx')

theorem calcAncRound_out (pool : CTxMemPool) (ets : Nat)
    (la ls2 ldc lds : Nat) (sAnc : Finset Hash) :
    ∀ (l : List Hash) (sps : Finset Hash) (total : Nat)
      (out : Finset Hash × Nat),
      calcAncRound pool ets la ls2 ldc lds sAnc l sps total = .ok out →
      ∀ x ∈ out.1, x ∈ sps ∨ x ∈ allLinkParents pool := by
  intro l
  induction l with
  | nil =>
    intro sps total out hout x hx
    rw [calcAncRound] at hout
    cases hout
    exact Or.inl hx
  | cons sh rest ih =>
    intro sps total out hout x hx
    rw [calcAncRound] at hout
    by_cases h1 : lds < u64i (((pool.findTx sh).getD default).nSizeWithDescendants +
        (ets : Int))
    · rw [if_pos h1] at hout; cases hout
    · rw [if_neg h1] at hout
      by_cases h2 : ldc <
          u64i (((pool.findTx sh).getD default).nCountWithDescendants + 1)
      · rw [if_pos h2] at hout; cases hout
      · rw [if_neg h2] at hout
        by_cases h3 : ls2 < u64 (total + ((pool.findTx sh).getD default).GetTxSize)
        · rw [if_pos h3] at hout; cases hout
        · rw [if_neg h3] at hout
          cases hcp : calcAncParents sAnc la (sortHashes (linksOf pool sh).1) sps with
          | error e => rw [hcp] at hout; dsimp only at hout; cases hout
          | ok sps1 =>
            rw [hcp] at hout
            dsimp only at hout
            rcases ih _ _ out hout x hx with hx' | hx'
            · rcases calcAncParents_out sAnc la _ _ _ hcp x hx' with hx'' | hx''
              · exact Or.inl hx''
              · refine Or.inr (linksOf_parents_subset_ALP pool sh ?_)
                exact (mem_sortHashes x _).mp hx''
            · exact Or.inr hx'

theorem calcAncLoop_out (pool : CTxMemPool) (ets : Nat)
    (la ls2 ldc lds : Nat) (U : Hash → Prop)
    (hALP : ∀ x ∈ allLinkParents pool, U x) :
    ∀ (fuel : Nat) (s p : Finset Hash) (t : Nat),
      (∀ x ∈ s, U x) → (∀ x ∈ p, U x) →
      ∀ x ∈ (match calcAncLoop pool ets la ls2 ldc lds fuel s p t with
        | .ok out => out
        | .error (_, out) => out), U x := by
  intro fuel
  induction fuel with
  | zero =>
    intro s p t hs _ x hx
    exact hs x hx
  | succ fuel ih =>
    intro s p t hs hp x hx
    rw [calcAncLoop] at hx
    by_cases hpe : p = ∅
    · rw [if_pos hpe] at hx
      exact hs x hx
    · rw [if_neg hpe] at hx
      dsimp only at hx
      have hsp : ∀ y ∈ s ∪ p, U y := by
        intro y hy
        rcases Finset.mem_union.mp hy with hy' | hy'
        · exact hs y hy'
        · exact hp y hy'
      cases hcr : calcAncRound pool ets la ls2 ldc lds (s ∪ p)
          (sortHashes p) ∅ t with
      | error e =>
        rw [hcr] at hx
        dsimp only at hx
        exact hsp x hx
      | ok pr =>
        rw [hcr] at hx
        dsimp only at hx
        refine ih (s ∪ p) pr.1 pr.2 hsp ?_ x hx
        intro y hy
        rcases calcAncRound_out pool ets la ls2 ldc lds _ _ _ _ _ hcr y hy with
          hy' | hy'
        · simp at hy'
        · exact hALP y hy'

theorem nNoLimit_u64_false (x : Nat) : (nNoLimit < u64 x) = False :=
  eq_false (not_lt_nNoLimit_u64 x)

theorem nNoLimit_u64i_false (y : Int) : (nNoLimit < u64i y) = False :=
  eq_false (not_lt_nNoLimit_u64i y)

theorem calcAncRound_eq_noLimit (pool pool2 : CTxMemPool) (ets : Nat) (h : Hash)
    (hpar : ∀ sh, sh ≠ h → (linksOf pool2 sh).1 = (linksOf pool sh).1)
    (hsize : ∀ sh, sh ≠ h → ((pool2.findTx sh).getD default).GetTxSize =
      ((pool.findTx sh).getD default).GetTxSize)
    (sAnc : Finset Hash) :
    ∀ (l : List Hash), (∀ sh ∈ l, sh ≠ h) → ∀ (sps : Finset Hash) (total : Nat),
      calcAncRound pool2 ets nNoLimit nNoLimit nNoLimit nNoLimit sAnc l sps total =
      calcAncRound pool ets nNoLimit nNoLimit nNoLimit nNoLimit sAnc l sps total := by
  intro l
  induction l with
  | nil => intro _ sps total; rfl
  | cons sh rest ih =>
    intro hl sps total
    have hsh : sh ≠ h := hl sh (List.mem_cons_self _ _)
    simp only [calcAncRound, nNoLimit_u64i_false, nNoLimit_u64_false, if_false]
    rw [hpar sh hsh, hsize sh hsh]
    cases hcp : calcAncParents sAnc nNoLimit (sortHashes (linksOf pool sh).1)
        sps with
    | error e => rfl
    | ok sps1 =>
      exact ih (fun z hz => hl z (List.mem_cons_of_mem _ hz)) sps1 _

theorem calcAncLoop_eq_noLimit (pool pool2 : CTxMemPool) (ets : Nat) (h : Hash)
    (hpar : ∀ sh, sh ≠ h → (linksOf pool2 sh).1 = (linksOf pool sh).1)
    (hsize : ∀ sh, sh ≠ h → ((pool2.findTx sh).getD default).GetTxSize =
      ((pool.findTx sh).getD default).GetTxSize)
    (hALP : h ∉ allLinkParents pool) :
    ∀ (fuel : Nat) (s p : Finset Hash) (t : Nat), h ∉ p →
      calcAncLoop pool2 ets nNoLimit nNoLimit nNoLimit nNoLimit fuel s p t =
      calcAncLoop pool ets nNoLimit nNoLimit nNoLimit nNoLimit fuel s p t := by
  intro fuel
  induction fuel with
  | zero => intro s p t _; rfl
  | succ fuel ih =>
    intro s p t hph
    simp only [calcAncLoop]
    by_cases hpe : p = ∅
    · rw [if_pos hpe, if_pos hpe]
    · rw [if_neg hpe, if_neg hpe]
      try dsimp only
      rw [calcAncRound_eq_noLimit pool pool2 ets h hpar hsize (s ∪ p)
        (sortHashes p)
        (fun z hz => fun hc => hph (hc ▸ (mem_sortHashes z p).mp hz))]
      cases hcr : calcAncRound pool ets nNoLimit nNoLimit nNoLimit nNoLimit
          (s ∪ p) (sortHashes p) ∅ t with
      | error e => rfl
      | ok pr =>
        dsimp only
        refine ih (s ∪ p) pr.1 pr.2 ?_
        intro hc
        rcases calcAncRound_out pool ets nNoLimit nNoLimit nNoLimit nNoLimit
            _ _ _ _ _ hcr h hc with hc' | hc'
        · simp at hc'
        · exact hALP hc'

theorem scanParents_eq_noLimit (pool pool2 : CTxMemPool) (h : Hash)
    (hft : ∀ x, x ≠ h → Option.map (fun e => e.tx.txid) (pool2.findTx x) =
      Option.map (fun e => e.tx.txid) (pool.findTx x)) :
    ∀ (l : List CTxIn), (∀ inp ∈ l, inp.prevout.1 ≠ h) → ∀ (acc : Finset Hash),
      scanParents pool2 nNoLimit l acc = scanParents pool nNoLimit l acc := by
  intro l
  induction l with
  | nil => intro _ acc; rfl
  | cons inp rest ih =>
    intro hl acc
    have hneq : inp.prevout.1 ≠ h := hl inp (List.mem_cons_self _ _)
    have hftx := hft inp.prevout.1 hneq
    simp only [scanParents]
    cases hf : pool.findTx inp.prevout.1 with
    | none =>
      rw [hf] at hftx
      cases hf2 : pool2.findTx inp.prevout.1 with
      | none => exact ih (fun z hz => hl z (List.mem_cons_of_mem _ hz)) acc
      | some p2 => rw [hf2] at hftx; simp at hftx
    | some p =>
      rw [hf] at hftx
      cases hf2 : pool2.findTx inp.prevout.1 with
      | none => rw [hf2] at hftx; simp at hftx
      | some p2 =>
        rw [hf2] at hftx
        have htxid : p2.tx.txid = p.tx.txid := by simpa using hftx
        dsimp only
        rw [htxid]
        simp only [nNoLimit_u64_false, if_false]
        exact ih (fun z hz => hl z (List.mem_cons_of_mem _ hz)) _

theorem scanParents_sup (pool : CTxMemPool) :
    ∀ (l : List CTxIn) (acc out : Finset Hash),
      scanParents pool nNoLimit l acc = .ok out →
      acc ⊆ out ∧ ∀ inp ∈ l, ∀ p, pool.findTx inp.prevout.1 = some p →
        p.tx.txid ∈ out := by
  intro l
  induction l with
  | nil =>
    intro acc out hout
    rw [scanParents] at hout
    cases hout
    exact ⟨Finset.Subset.refl _, fun inp hinp => by simp at hinp⟩
  | cons inp rest ih =>
    intro acc out hout
    rw [scanParents] at hout
    cases hf : pool.findTx inp.prevout.1 with
    | none =>
      rw [hf] at hout
      obtain ⟨hsub, hmem⟩ := ih acc out hout
      refine ⟨hsub, fun inp2 hinp2 p2 hp2 => ?_⟩
      rcases List.mem_cons.mp hinp2 with rfl | hinp2'
      · rw [hf] at hp2; cases hp2
      · exact hmem inp2 hinp2' p2 hp2
    | some p =>
      rw [hf] at hout
      dsimp only at hout
      rw [if_neg (not_lt_nNoLimit_u64 _)] at hout
      obtain ⟨hsub, hmem⟩ := ih _ out hout
      refine ⟨fun z hz => hsub (Finset.mem_insert_of_mem hz),
        fun inp2 hinp2 p2 hp2 => ?_⟩
      rcases List.mem_cons.mp hinp2 with rfl | hinp2'
      · rw [hf] at hp2
        cases hp2
        exact hsub (Finset.mem_insert_self _ _)
      · exact hmem inp2 hinp2' p2 hp2

theorem sortHashes_toFinset (s : Finset Hash) : (sortHashes s).toFinset = s := by
  ext x
  rw [List.mem_toFinset, mem_sortHashes]

theorem sortHashes_length (s : Finset Hash) : (sortHashes s).length = s.card := by
  have := congrArg Multiset.card (sortHashes_coe s)
  simpa using this

theorem findTx_append_self (pool : CTxMemPool) (entry : CTxMemPoolEntry)
    (hfresh : ∀ e ∈ pool.mapTx, e.tx.txid ≠ entry.tx.txid) :
    (pool.mapTx ++ [entry]).find? (fun e => e.tx.txid == entry.tx.txid) =
      some entry := by
  rw [List.find?_append]
  have hnone : pool.mapTx.find? (fun e => e.tx.txid == entry.tx.txid) = none := by
    rw [List.find?_eq_none]
    intro e he
    simpa using hfresh e he
  rw [hnone]
  simp

theorem parentStep_mapTx (env : MemEnv) (h : Hash) (acc : CTxMemPool) (p : Hash) :
    ((if acc.existsTx p then UpdateParent env acc h p true else acc)).mapTx =
      acc.mapTx := by
  split
  · exact updateParent_mapTx env acc h p true
  · rfl

theorem parentStep_mapNextTx (env : MemEnv) (h : Hash) (acc : CTxMemPool)
    (p : Hash) :
    ((if acc.existsTx p then UpdateParent env acc h p true else acc)).mapNextTx =
      acc.mapNextTx := by
  split
  · exact updateParent_mapNextTx env acc h p true
  · rfl

theorem parentStep_totalTxSize (env : MemEnv) (h : Hash) (acc : CTxMemPool)
    (p : Hash) :
    ((if acc.existsTx p then UpdateParent env acc h p true
      else acc)).totalTxSize = acc.totalTxSize := by
  split
  · exact updateParent_totalTxSize env acc h p true
  · rfl

theorem parentStep_mapDeltas (env : MemEnv) (h : Hash) (acc : CTxMemPool)
    (p : Hash) :
    ((if acc.existsTx p then UpdateParent env acc h p true
      else acc)).mapDeltas = acc.mapDeltas := by
  split
  · exact updateParent_mapDeltas env acc h p true
  · rfl

theorem updateAncestorsOf_mapNextTx (env : MemEnv) (pool : CTxMemPool)
    (add : Bool) (h : Hash) (s : Finset Hash) :
    (UpdateAncestorsOf env pool add h s).mapNextTx = pool.mapNextTx := by
  unfold UpdateAncestorsOf
  dsimp only
  exact foldl_preserve _ _ (fun acc x => updateChild_mapNextTx env acc x h add) _ _

theorem updateAncestorsOf_totalTxSize (env : MemEnv) (pool : CTxMemPool)
    (add : Bool) (h : Hash) (s : Finset Hash) :
    (UpdateAncestorsOf env pool add h s).totalTxSize = pool.totalTxSize := by
  unfold UpdateAncestorsOf
  dsimp only
  exact foldl_preserve _ _ (fun acc x => updateChild_totalTxSize env acc x h add) _ _

theorem updateAncestorsOf_cached_links (env : MemEnv) (pool : CTxMemPool)
    (add : Bool) (h : Hash) (s : Finset Hash) :
    (UpdateAncestorsOf env pool add h s).cachedInnerUsage =
      ((sortHashes (linksOf pool h).1).foldl
        (fun a p => UpdateChild env a p h add) pool).cachedInnerUsage ∧
    (UpdateAncestorsOf env pool add h s).mapLinks =
      ((sortHashes (linksOf pool h).1).foldl
        (fun a p => UpdateChild env a p h add) pool).mapLinks := by
  unfold UpdateAncestorsOf
  dsimp only
  exact ⟨rfl, rfl⟩

theorem parentStep_nTransactionsUpdated (env : MemEnv) (h : Hash)
    (acc : CTxMemPool) (p : Hash) :
    ((if acc.existsTx p then UpdateParent env acc h p true
      else acc)).nTransactionsUpdated = acc.nTransactionsUpdated := by
  split
  · exact updateParent_nTransactionsUpdated env acc h p true
  · rfl

theorem updateAncestorsOf_nTransactionsUpdated (env : MemEnv)
    (pool : CTxMemPool) (add : Bool) (h : Hash) (s : Finset Hash) :
    (UpdateAncestorsOf env pool add h s).nTransactionsUpdated =
      pool.nTransactionsUpdated := by
  unfold UpdateAncestorsOf
  dsimp only
  exact foldl_preserve _ _
    (fun acc x => updateChild_nTransactionsUpdated env acc x h add) _ _

theorem addUnchecked_spec (env : MemEnv) (pool : CTxMemPool)
    (entry : CTxMemPoolEntry) (A : Finset Hash)
    (hok : admissionOk pool entry) (hA : entry.tx.txid ∉ A) :
    ∃ extra2 : List (OutPoint × (Hash × Nat)),
      (∀ q ∈ extra2, ∃ inp ∈ entry.tx.vin, q.1 = inp.prevout) ∧
      (addUnchecked env pool entry.tx.txid entry A).mapTx =
        pool.mapTx.map (fun e =>
          if e.tx.txid ∈ A then
            e.UpdateState (1 * (entry.GetTxSize : Int)) (1 * entry.GetFee) 1
          else e) ++ [entry] ∧
      (addUnchecked env pool entry.tx.txid entry A).mapNextTx =
        pool.mapNextTx ++ extra2 ∧
      (addUnchecked env pool entry.tx.txid entry A).mapLinks =
        mapChildIns entry.tx.txid (directPoolParents pool entry) pool.mapLinks ++
          [(entry.tx.txid, (directPoolParents pool entry, ∅))] ∧
      (addUnchecked env pool entry.tx.txid entry A).totalTxSize =
        pool.totalTxSize + entry.GetTxSize ∧
      (addUnchecked env pool entry.tx.txid entry A).cachedInnerUsage =
        pool.cachedInnerUsage + entry.nUsageSize +
          env.incSetEntries * (directPoolParents pool entry).card +
          env.incSetEntries * (directPoolParents pool entry).card ∧
      (addUnchecked env pool entry.tx.txid entry A).mapDeltas = pool.mapDeltas ∧
      (addUnchecked env pool entry.tx.txid entry A).nTransactionsUpdated =
        pool.nTransactionsUpdated + 1 := by
  obtain ⟨hfresh, hspent, hlkf, hlkP, hlkC, hlkkey, hcount, hself⟩ := hok
  obtain ⟨extra2, hNeq, hextra2⟩ :=
    foldAssign_spec (fun p : Nat × CTxIn => p.2.prevout)
      (fun p => (entry.tx.txid, p.1))
      (fun op => ∃ inp ∈ entry.tx.vin, op = inp.prevout)
      entry.tx.vin.enum
      (fun p hp => ⟨p.2, List.snd_mem_of_mem_enum hp, rfl⟩)
      pool.mapNextTx []
      (fun q hq hS => by
        obtain ⟨inp, hinp, heq⟩ := hS
        exact hspent q hq inp hinp heq)
      (fun q hq => absurd hq (List.not_mem_nil q))
  rw [List.append_nil] at hNeq
  refine ⟨extra2, hextra2, ?_⟩
  set P := directPoolParents pool entry with hPdef
  set L := sortHashes ((entry.tx.vin.map (fun i => i.prevout.1)).toFinset)
    with hLdef
  set base0 : CTxMemPool :=
    { mapTx := pool.mapTx ++ [entry]
      mapNextTx := entry.tx.vin.enum.foldl
        (fun m p => nextTxAssign m p.2.prevout (entry.tx.txid, p.1))
        pool.mapNextTx
      mapLinks := pool.mapLinks ++ [(entry.tx.txid, (∅, ∅))]
      totalTxSize := pool.totalTxSize
      cachedInnerUsage := pool.cachedInnerUsage + entry.nUsageSize
      mapDeltas := pool.mapDeltas
      nTransactionsUpdated := pool.nTransactionsUpdated } with hbase0
  set pool3 := L.foldl (fun acc2 phash =>
    if acc2.existsTx phash then UpdateParent env acc2 entry.tx.txid phash true
    else acc2) base0 with hpool3
  set pool4 := UpdateAncestorsOf env pool3 true entry.tx.txid A with hpool4
  have hunf : addUnchecked env pool entry.tx.txid entry A =
      { pool4 with
        nTransactionsUpdated := pool4.nTransactionsUpdated + 1
        totalTxSize := pool4.totalTxSize + entry.GetTxSize } := rfl
  -- pool3's links and usage via the parent fold
  have hLmem : ∀ x ∈ L, x ≠ entry.tx.txid := by
    intro x hx
    rw [hLdef, mem_sortHashes, List.mem_toFinset] at hx
    obtain ⟨inp, hinp, rfl⟩ := List.mem_map.mp hx
    exact hself inp hinp
  have hPfold := parentsFold_spec env pool entry.tx.txid (pool.mapTx ++ [entry])
    (fun x hx => by
      rw [findTx_append_entry pool [entry] x
        (by
          intro e he
          rw [List.mem_singleton.mp he]
          exact fun hc => hx hc.symm)]
      rfl)
    hlkf L (hLdef ▸ sortHashes_nodup _) hLmem ∅ (fun x _ => Finset.not_mem_empty x)
    base0 rfl rfl
  have hPL : poolFiltered pool L = P := by
    rw [hPdef, hLdef]
    rfl
  have hp3L : pool3.mapLinks = pool.mapLinks ++ [(entry.tx.txid, (P, ∅))] := by
    rw [hpool3, hPfold.1, Finset.empty_union, hPL]
  have hp3C : pool3.cachedInnerUsage =
      pool.cachedInnerUsage + entry.nUsageSize + env.incSetEntries * P.card := by
    rw [hpool3, hPfold.2, hPL]
  have hp3Tx : pool3.mapTx = pool.mapTx ++ [entry] := by
    rw [hpool3]
    exact foldl_preserve _ _ (parentStep_mapTx env entry.tx.txid) _ _
  have hp3N : pool3.mapNextTx = pool.mapNextTx ++ extra2 := by
    rw [hpool3]
    rw [foldl_preserve _ _ (parentStep_mapNextTx env entry.tx.txid) _ _]
    exact hNeq
  have hp3T : pool3.totalTxSize = pool.totalTxSize := by
    rw [hpool3]
    exact foldl_preserve _ _ (parentStep_totalTxSize env entry.tx.txid) _ _
  have hp3D : pool3.mapDeltas = pool.mapDeltas := by
    rw [hpool3]
    exact foldl_preserve _ _ (parentStep_mapDeltas env entry.tx.txid) _ _
  have hp3U : pool3.nTransactionsUpdated = pool.nTransactionsUpdated := by
    rw [hpool3]
    exact foldl_preserve _ _
      (parentStep_nTransactionsUpdated env entry.tx.txid) _ _
  -- the entry looked up for the ancestor update is the fresh entry itself
  have hlook : (pool3.findTx entry.tx.txid).getD default = entry := by
    unfold CTxMemPool.findTx
    rw [hp3Tx, findTx_append_self pool entry hfresh]
    rfl
  have hPmem : ∀ x ∈ P, pool.existsTx x = true := by
    intro x hx
    rw [← hPL, mem_poolFiltered] at hx
    exact hx.2
  have hPne : ∀ x ∈ P, x ≠ entry.tx.txid := by
    intro x hx
    obtain ⟨e, he⟩ := Option.isSome_iff_exists.mp (hPmem x hx)
    have := List.find?_some he
    have hmem := List.mem_of_find?_eq_some he
    intro hc
    exact hfresh e hmem (by
      have : e.tx.txid = x := by simpa using this
      rw [this, hc])
  -- the child fold inside UpdateAncestorsOf
  have hlinksP3 : linksOf pool3 entry.tx.txid = (P, ∅) := by
    unfold linksOf
    rw [hp3L, find?_key_append _ _ _ hlkf]
    rfl
  have hchild := childFold_ins env pool entry.tx.txid (P, ∅) hlkf hlkC
    (sortHashes P) (sortHashes_nodup _)
    (fun x hx => hPne x ((mem_sortHashes x P).mp hx))
    (fun x hx => by
      obtain ⟨e, he⟩ := Option.isSome_iff_exists.mp
        (hPmem x ((mem_sortHashes x P).mp hx))
      have hpred := List.find?_some he
      have hmem := List.mem_of_find?_eq_some he
      have htx : e.tx.txid = x := by simpa using hpred
      rw [← htx]
      exact hlkkey e hmem)
    ∅ (fun x _ => Finset.not_mem_empty x) pool3
    (by rw [hp3L, mapChildIns_empty])
  have hp4LC := updateAncestorsOf_cached_links env pool3 true entry.tx.txid A
  have hp4L : pool4.mapLinks =
      mapChildIns entry.tx.txid P pool.mapLinks ++
        [(entry.tx.txid, (P, ∅))] := by
    rw [hpool4, hp4LC.2, hlinksP3]
    rw [hchild.1]
    rw [Finset.empty_union, sortHashes_toFinset]
  have hp4C : pool4.cachedInnerUsage =
      pool.cachedInnerUsage + entry.nUsageSize +
        env.incSetEntries * P.card + env.incSetEntries * P.card := by
    rw [hpool4, hp4LC.1, hlinksP3, hchild.2, hp3C, sortHashes_length]
  have hp4Tx : pool4.mapTx =
      pool.mapTx.map (fun e =>
        if e.tx.txid ∈ A then
          e.UpdateState (1 * (entry.GetTxSize : Int)) (1 * entry.GetFee) 1
        else e) ++ [entry] := by
    rw [hpool4, updateAncestorsOf_mapTx, hlook, hp3Tx, List.map_append]
    congr 1
    simp [hA]
  rw [hunf]
  refine ⟨hp4Tx, ?_, hp4L, ?_, hp4C, ?_, ?_⟩
  · rw [show ({ pool4 with
        nTransactionsUpdated := pool4.nTransactionsUpdated + 1
        totalTxSize := pool4.totalTxSize + entry.GetTxSize } :
          CTxMemPool).mapNextTx = pool4.mapNextTx from rfl,
      hpool4, updateAncestorsOf_mapNextTx, hp3N]
  · rw [show ({ pool4 with
        nTransactionsUpdated := pool4.nTransactionsUpdated + 1
        totalTxSize := pool4.totalTxSize + entry.GetTxSize } :
          CTxMemPool).totalTxSize = pool4.totalTxSize + entry.GetTxSize from rfl,
      hpool4, updateAncestorsOf_totalTxSize, hp3T]
  · rw [show ({ pool4 with
        nTransactionsUpdated := pool4.nTransactionsUpdated + 1
        totalTxSize := pool4.totalTxSize + entry.GetTxSize } :
          CTxMemPool).mapDeltas = pool4.mapDeltas from rfl,
      hpool4, updateAncestorsOf_mapDeltas, hp3D]
  · rw [show ({ pool4 with
        nTransactionsUpdated := pool4.nTransactionsUpdated + 1
        totalTxSize := pool4.totalTxSize + entry.GetTxSize } :
          CTxMemPool).nTransactionsUpdated = pool4.nTransactionsUpdated + 1
        from rfl,
      hpool4, updateAncestorsOf_nTransactionsUpdated, hp3U]

theorem scanParents_ok_noLimit (pool : CTxMemPool) :
    ∀ (l : List CTxIn) (acc : Finset Hash),
      scanParents pool nNoLimit l acc =
        .ok (acc ∪ poolFiltered pool (l.map (fun i => i.prevout.1))) := by
  intro l
  induction l with
  | nil =>
    intro acc
    rw [scanParents, List.map_nil, poolFiltered_nil, Finset.union_empty]
  | cons inp rest ih =>
    intro acc
    rw [scanParents, List.map_cons, poolFiltered_cons]
    cases hf : pool.findTx inp.prevout.1 with
    | none =>
      have hex : pool.existsTx inp.prevout.1 = false := by
        unfold CTxMemPool.existsTx
        rw [hf]
        rfl
      rw [ih, hex]
      simp
    | some p =>
      have hex : pool.existsTx inp.prevout.1 = true := by
        unfold CTxMemPool.existsTx
        rw [hf]
        rfl
      have htxid : p.tx.txid = inp.prevout.1 := by
        simpa using List.find?_some hf
      dsimp only
      rw [if_neg (not_lt_nNoLimit_u64 _), ih, hex, htxid]
      simp [Finset.insert_union, Finset.union_insert]

theorem poolFiltered_vin (pool : CTxMemPool) (entry : CTxMemPoolEntry) :
    poolFiltered pool (entry.tx.vin.map (fun i => i.prevout.1)) =
      directPoolParents pool entry := by
  unfold directPoolParents
  ext x
  rw [mem_poolFiltered, mem_poolFiltered]
  constructor
  · rintro ⟨hx, he⟩
    exact ⟨(mem_sortHashes x _).mpr (List.mem_toFinset.mpr hx), he⟩
  · rintro ⟨hx, he⟩
    exact ⟨List.mem_toFinset.mp ((mem_sortHashes x _).mp hx), he⟩

theorem allLinkParents_append_childIns (pool : CTxMemPool) (h : Hash)
    (P : Finset Hash) (pool2 : CTxMemPool)
    (hL : pool2.mapLinks = mapChildIns h P pool.mapLinks ++ [(h, (P, ∅))]) :
    allLinkParents pool2 = allLinkParents pool ∪ P := by
  ext x
  rw [Finset.mem_union, mem_allLinkParents, mem_allLinkParents, hL]
  constructor
  · rintro ⟨kls, hk, hx⟩
    rcases List.mem_append.mp hk with hk' | hk'
    · obtain ⟨kls0, h0, heq⟩ := List.mem_map.mp hk'
      refine Or.inl ⟨kls0, h0, ?_⟩
      subst heq
      revert hx
      split <;> exact id
    · rw [List.mem_singleton.mp hk'] at hx
      exact Or.inr hx
  · rintro (⟨kls0, h0, hx⟩ | hx)
    · refine ⟨(if kls0.1 ∈ P then (kls0.1, (kls0.2.1, insert h kls0.2.2))
        else kls0), List.mem_append_left _ (List.mem_map_of_mem _ h0), ?_⟩
      split <;> exact hx
    · exact ⟨(h, (P, ∅)), List.mem_append_right _ (List.mem_singleton_self _), hx⟩

theorem calcAncestorsOut_avoids (pool : CTxMemPool) (entry : CTxMemPoolEntry)
    (U : Hash → Prop)
    (hALP : ∀ x ∈ allLinkParents pool, U x)
    (hvin : ∀ inp ∈ entry.tx.vin, U inp.prevout.1) :
    ∀ x ∈ calcAncestorsOut pool entry nNoLimit nNoLimit nNoLimit nNoLimit,
      U x := by
  intro x hx
  unfold calcAncestorsOut CalculateMemPoolAncestors at hx
  rw [scanParents_ok_noLimit] at hx
  dsimp only at hx
  refine calcAncLoop_out pool entry.GetTxSize nNoLimit nNoLimit nNoLimit
    nNoLimit U hALP _ _ _ _
    (fun y hy => absurd hy (Finset.not_mem_empty y)) ?_ x hx
  intro y hy
  rcases Finset.mem_union.mp hy with hy' | hy'
  · exact absurd hy' (Finset.not_mem_empty y)
  · obtain ⟨hyl, _⟩ := (mem_poolFiltered pool _ y).mp hy'
    obtain ⟨inp, hinp, rfl⟩ := List.mem_map.mp hyl
    exact hvin inp hinp

theorem calcAncestorsOut_not_self (pool : CTxMemPool) (entry : CTxMemPoolEntry)
    (hlkP : ∀ kls ∈ pool.mapLinks, entry.tx.txid ∉ kls.2.1)
    (hself : ∀ inp ∈ entry.tx.vin, inp.prevout.1 ≠ entry.tx.txid) :
    entry.tx.txid ∉
      calcAncestorsOut pool entry nNoLimit nNoLimit nNoLimit nNoLimit := by
  intro hc
  refine calcAncestorsOut_avoids pool entry (fun x => x ≠ entry.tx.txid)
    ?_ hself entry.tx.txid hc rfl
  intro x hx hxe
  obtain ⟨kls, hk, hm⟩ := (mem_allLinkParents pool x).mp hx
  exact hlkP kls hk (hxe ▸ hm)

theorem calcDescLoop_empty_stage (pool : CTxMemPool) (s : Finset Hash) :
    ∀ fuel, calcDescLoop pool fuel s ∅ = s := by
  intro fuel
  cases fuel with
  | zero => rfl
  | succ n =>
    rw [calcDescLoop]
    exact if_pos rfl

theorem calcDescendants_singleton (pool : CTxMemPool) (h : Hash)
    (hch : (linksOf pool h).2 = ∅) :
    CalculateDescendants pool h ∅ = {h} := by
  unfold CalculateDescendants fuelForDescendants
  rw [if_neg (Finset.not_mem_empty h)]
  rw [calcDescLoop]
  rw [if_neg (by simp : ¬({h} : Finset Hash) = ∅)]
  dsimp only
  have hnext : Finset.biUnion ({h} : Finset Hash)
      (fun sh => (linksOf pool sh).2.filter
        (fun c => c ∉ (∅ ∪ {h} : Finset Hash))) = ∅ := by
    rw [Finset.singleton_biUnion, hch]
    rfl
  rw [hnext, calcDescLoop_empty_stage]
  exact Finset.empty_union _

theorem calcAncestorsOut_add_eq (pool pool2 : CTxMemPool)
    (entry : CTxMemPoolEntry) (g : CTxMemPoolEntry → CTxMemPoolEntry)
    (hgtx : ∀ e, (g e).tx.txid = e.tx.txid)
    (hgsz : ∀ e, (g e).nTxSize = e.nTxSize)
    (hTx : pool2.mapTx = pool.mapTx.map g ++ [entry])
    (hL : pool2.mapLinks =
      mapChildIns entry.tx.txid (directPoolParents pool entry) pool.mapLinks ++
        [(entry.tx.txid, (directPoolParents pool entry, ∅))])
    (hlkf : ∀ kls ∈ pool.mapLinks, kls.1 ≠ entry.tx.txid)
    (hlkP : ∀ kls ∈ pool.mapLinks, entry.tx.txid ∉ kls.2.1)
    (hfresh : ∀ e ∈ pool.mapTx, e.tx.txid ≠ entry.tx.txid)
    (hself : ∀ inp ∈ entry.tx.vin, inp.prevout.1 ≠ entry.tx.txid) :
    calcAncestorsOut pool2 entry nNoLimit nNoLimit nNoLimit nNoLimit =
      calcAncestorsOut pool entry nNoLimit nNoLimit nNoLimit nNoLimit := by
  have hfind' : ∀ x, x ≠ entry.tx.txid →
      pool2.findTx x = (pool.findTx x).map g := by
    intro x hx
    unfold CTxMemPool.findTx
    rw [hTx, List.find?_append, find?_map_presTxid _ g hgtx x]
    cases hf : pool.mapTx.find? (fun e => e.tx.txid == x) with
    | some e => rfl
    | none =>
      have hnone : [entry].find? (fun e => e.tx.txid == x) = none := by
        rw [List.find?_eq_none]
        intro e he
        rw [List.mem_singleton.mp he]
        simpa using Ne.symm hx
      rw [hnone]
      rfl
  have hft : ∀ x, x ≠ entry.tx.txid →
      Option.map (fun e => e.tx.txid) (pool2.findTx x) =
        Option.map (fun e => e.tx.txid) (pool.findTx x) := by
    intro x hx
    rw [hfind' x hx]
    cases pool.findTx x with
    | none => rfl
    | some e => exact congrArg some (hgtx e)
  have hpar : ∀ sh, sh ≠ entry.tx.txid →
      (linksOf pool2 sh).1 = (linksOf pool sh).1 := by
    intro sh hsh
    unfold linksOf
    rw [hL, List.find?_append, find?_mapChildIns]
    cases hf : pool.mapLinks.find? (fun q => q.1 == sh) with
    | some kls =>
      show (if kls.1 ∈ directPoolParents pool entry
        then (kls.1, (kls.2.1, insert entry.tx.txid kls.2.2))
        else kls).2.1 = kls.2.1
      split <;> rfl
    | none =>
      have hnone :
          [(entry.tx.txid, (directPoolParents pool entry,
            (∅ : Finset Hash)))].find? (fun q => q.1 == sh) = none := by
        rw [List.find?_eq_none]
        intro q hq
        rw [List.mem_singleton.mp hq]
        simpa using Ne.symm hsh
      rw [hnone]
      rfl
  have hsize : ∀ sh, sh ≠ entry.tx.txid →
      ((pool2.findTx sh).getD default).GetTxSize =
        ((pool.findTx sh).getD default).GetTxSize := by
    intro sh hsh
    rw [hfind' sh hsh]
    cases pool.findTx sh with
    | none => rfl
    | some e =>
      show (g e).GetTxSize = e.GetTxSize
      unfold CTxMemPoolEntry.GetTxSize
      exact hgsz e
  have hALPold : entry.tx.txid ∉ allLinkParents pool := by
    intro hc
    obtain ⟨kls, hk, hm⟩ := (mem_allLinkParents pool entry.tx.txid).mp hc
    exact hlkP kls hk hm
  have hALP2 : allLinkParents pool2 =
      allLinkParents pool ∪ directPoolParents pool entry :=
    allLinkParents_append_childIns pool entry.tx.txid
      (directPoolParents pool entry) pool2 hL
  have hPne : ∀ x ∈ directPoolParents pool entry, x ≠ entry.tx.txid := by
    intro x hx hc
    have hex : pool.existsTx x = true := by
      unfold directPoolParents at hx
      exact ((mem_poolFiltered pool _ x).mp hx).2
    obtain ⟨e, he⟩ := Option.isSome_iff_exists.mp hex
    have hmem := List.mem_of_find?_eq_some he
    have htx : e.tx.txid = x := by simpa using List.find?_some he
    exact hfresh e hmem (by rw [htx, hc])
  unfold calcAncestorsOut CalculateMemPoolAncestors
  rw [scanParents_eq_noLimit pool pool2 entry.tx.txid hft entry.tx.vin hself ∅]
  rw [scanParents_ok_noLimit pool entry.tx.vin ∅]
  dsimp only
  rw [Finset.empty_union, poolFiltered_vin]
  have hfuel : fuelForAncestors pool2 (directPoolParents pool entry) =
      fuelForAncestors pool (directPoolParents pool entry) := by
    unfold fuelForAncestors
    rw [hALP2]
    congr 2
    ext x
    simp only [Finset.mem_union]
    tauto
  rw [hfuel]
  rw [calcAncLoop_eq_noLimit pool pool2 entry.GetTxSize entry.tx.txid hpar
    hsize hALPold _ ∅ _ _ (fun hc => hPne entry.tx.txid hc rfl)]

theorem remove_after_add_restores (env : MemEnv) (pool pool2 : CTxMemPool)
    (entry : CTxMemPoolEntry) (A : Finset Hash)
    (extra2 : List (OutPoint × (Hash × Nat)))
    (hfresh : ∀ e ∈ pool.mapTx, e.tx.txid ≠ entry.tx.txid)
    (hspent : ∀ q ∈ pool.mapNextTx, ∀ inp ∈ entry.tx.vin, q.1 ≠ inp.prevout)
    (hlkf : ∀ kls ∈ pool.mapLinks, kls.1 ≠ entry.tx.txid)
    (hlkC : ∀ kls ∈ pool.mapLinks, entry.tx.txid ∉ kls.2.2)
    (hlkkey : ∀ e ∈ pool.mapTx,
      pool.mapLinks.any (fun q => q.1 == e.tx.txid) = true)
    (hcount : ∀ e ∈ pool.mapTx, 0 ≤ e.nCountWithDescendants)
    (hA : entry.tx.txid ∉ A)
    (hex2 : ∀ q ∈ extra2, ∃ inp ∈ entry.tx.vin, q.1 = inp.prevout)
    (hTx : pool2.mapTx = pool.mapTx.map (fun e =>
      if e.tx.txid ∈ A then
        e.UpdateState (1 * (entry.GetTxSize : Int)) (1 * entry.GetFee) 1
      else e) ++ [entry])
    (hN : pool2.mapNextTx = pool.mapNextTx ++ extra2)
    (hL : pool2.mapLinks =
      mapChildIns entry.tx.txid (directPoolParents pool entry) pool.mapLinks ++
        [(entry.tx.txid, (directPoolParents pool entry, ∅))])
    (hT : pool2.totalTxSize = pool.totalTxSize + entry.GetTxSize)
    (hC : pool2.cachedInnerUsage = pool.cachedInnerUsage + entry.nUsageSize +
      env.incSetEntries * (directPoolParents pool entry).card +
      env.incSetEntries * (directPoolParents pool entry).card)
    (hD : pool2.mapDeltas = pool.mapDeltas)
    (hAeq : calcAncestorsOut pool2 entry nNoLimit nNoLimit nNoLimit nNoLimit
      = A) :
    (remove env pool2 entry.tx true).mapTx = pool.mapTx ∧
    (remove env pool2 entry.tx true).mapNextTx = pool.mapNextTx ∧
    (remove env pool2 entry.tx true).mapLinks = pool.mapLinks ∧
    (remove env pool2 entry.tx true).totalTxSize = pool.totalTxSize ∧
    (remove env pool2 entry.tx true).cachedInnerUsage =
      pool.cachedInnerUsage ∧
    (remove env pool2 entry.tx true).mapDeltas = pool.mapDeltas := by
  have hg : ∀ e : CTxMemPoolEntry,
      ((fun e => if e.tx.txid ∈ A then
        e.UpdateState (1 * (entry.GetTxSize : Int)) (1 * entry.GetFee) 1
      else e) e).tx.txid = e.tx.txid := by
    intro e
    dsimp only
    split
    · rw [updateState_tx]
    · rfl
  have hfind2 : pool2.findTx entry.tx.txid = some entry := by
    unfold CTxMemPool.findTx
    rw [hTx, List.find?_append, find?_map_presTxid _ _ hg]
    have h0 : pool.mapTx.find? (fun e => e.tx.txid == entry.tx.txid)
        = none := by
      rw [List.find?_eq_none]
      intro e he
      simpa using hfresh e he
    rw [h0]
    simp
  have hex2' : pool2.existsTx entry.tx.txid = true := by
    unfold CTxMemPool.existsTx
    rw [hfind2]
    rfl
  have hkm : ∀ kls ∈ mapChildIns entry.tx.txid
      (directPoolParents pool entry) pool.mapLinks,
      kls.1 ≠ entry.tx.txid := by
    intro kls hkls
    obtain ⟨kls0, h0, hk0⟩ := mapChildIns_keys _ _ _ kls hkls
    rw [← hk0]
    exact hlkf kls0 h0
  have hlinks2 : linksOf pool2 entry.tx.txid =
      (directPoolParents pool entry, ∅) := by
    unfold linksOf
    rw [hL, find?_key_append _ _ _ hkm]
    rfl
  have hdesc : CalculateDescendants pool2 entry.tx.txid ∅ =
      {entry.tx.txid} :=
    calcDescendants_singleton pool2 entry.tx.txid (by rw [hlinks2])
  have hremove : remove env pool2 entry.tx true =
      RemoveStaged env pool2 {entry.tx.txid} := by
    unfold remove
    rw [if_pos hex2']
    dsimp only
    rw [if_pos (rfl : (true : Bool) = true)]
    rw [sortHashes_singleton]
    dsimp only [List.foldl_cons, List.foldl_nil]
    rw [hdesc]
  have hufr : UpdateForRemoveFromMempool env pool2 {entry.tx.txid} =
      UpdateChildrenForRemoval env
        (UpdateAncestorsOf env pool2 false entry.tx.txid A)
        entry.tx.txid := by
    unfold UpdateForRemoveFromMempool
    rw [sortHashes_singleton]
    dsimp only [List.foldl_cons, List.foldl_nil]
    rw [hfind2]
    dsimp only [Option.getD]
    rw [hAeq]
  -- the single ancestor-side update
  have hPne : ∀ x ∈ directPoolParents pool entry, x ≠ entry.tx.txid := by
    intro x hx hc
    have hex : pool.existsTx x = true := by
      unfold directPoolParents at hx
      exact ((mem_poolFiltered pool _ x).mp hx).2
    obtain ⟨e, he⟩ := Option.isSome_iff_exists.mp hex
    have hmem := List.mem_of_find?_eq_some he
    have htx : e.tx.txid = x := by simpa using List.find?_some he
    exact hfresh e hmem (by rw [htx, hc])
  have hPany : ∀ x ∈ directPoolParents pool entry,
      pool.mapLinks.any (fun q => q.1 == x) = true := by
    intro x hx
    have hex : pool.existsTx x = true := by
      unfold directPoolParents at hx
      exact ((mem_poolFiltered pool _ x).mp hx).2
    obtain ⟨e, he⟩ := Option.isSome_iff_exists.mp hex
    have hmem := List.mem_of_find?_eq_some he
    have htx : e.tx.txid = x := by simpa using List.find?_some he
    rw [← htx]
    exact hlkkey e hmem
  have hchild := childFold_del env pool entry.tx.txid
    (directPoolParents pool entry, ∅) hlkf hlkC
    (sortHashes (directPoolParents pool entry)) (sortHashes_nodup _)
    (fun x hx => hPne x ((mem_sortHashes x _).mp hx))
    (fun x hx => hPany x ((mem_sortHashes x _).mp hx))
    (directPoolParents pool entry)
    (fun x hx => (mem_sortHashes x _).mp hx)
    pool2 (by rw [hL])
  have hq1CL := updateAncestorsOf_cached_links env pool2 false
    entry.tx.txid A
  have hq1L : (UpdateAncestorsOf env pool2 false entry.tx.txid A).mapLinks =
      pool.mapLinks ++
        [(entry.tx.txid, (directPoolParents pool entry, ∅))] := by
    rw [hq1CL.2, hlinks2]
    rw [hchild.1]
    rw [sortHashes_toFinset, Finset.sdiff_self, mapChildIns_empty]
  have hq1C : (UpdateAncestorsOf env pool2 false entry.tx.txid
      A).cachedInnerUsage =
      pool.cachedInnerUsage + entry.nUsageSize +
        env.incSetEntries * (directPoolParents pool entry).card := by
    rw [hq1CL.1, hlinks2]
    rw [hchild.2]
    rw [hC, sortHashes_length]
    exact Nat.add_sub_cancel _ _
  have hq1Tx : (UpdateAncestorsOf env pool2 false entry.tx.txid A).mapTx =
      pool.mapTx ++ [entry] := by
    rw [updateAncestorsOf_mapTx, hfind2]
    dsimp only [Option.getD]
    rw [hTx, List.map_append]
    congr 1
    · rw [List.map_map]
      refine (List.map_congr_left ?_).trans (List.map_id _)
      intro e he
      dsimp only [Function.comp]
      by_cases hmem : e.tx.txid ∈ A
      · simp only [if_pos hmem]
        rw [updateState_tx]
        rw [if_pos hmem]
        have hm1 : (if (false : Bool) = true then (1 : Int) else -1)
            = -1 := rfl
        rw [hm1]
        simp only [one_mul, neg_one_mul]
        exact updateState_cancel e (hcount e he) _ _
      · simp only [if_neg hmem]
        rfl
    · simp only [List.map_cons, List.map_nil]
      rw [if_neg hA]
  have hq1N : (UpdateAncestorsOf env pool2 false entry.tx.txid
      A).mapNextTx = pool.mapNextTx ++ extra2 := by
    rw [updateAncestorsOf_mapNextTx, hN]
  have hq1T : (UpdateAncestorsOf env pool2 false entry.tx.txid
      A).totalTxSize = pool.totalTxSize + entry.GetTxSize := by
    rw [updateAncestorsOf_totalTxSize, hT]
  have hq1D : (UpdateAncestorsOf env pool2 false entry.tx.txid
      A).mapDeltas = pool.mapDeltas := by
    rw [updateAncestorsOf_mapDeltas, hD]
  have hq1find : (UpdateAncestorsOf env pool2 false entry.tx.txid
      A).findTx entry.tx.txid = some entry := by
    unfold CTxMemPool.findTx
    rw [hq1Tx]
    exact findTx_append_self pool entry hfresh
  have hq1links : linksOf (UpdateAncestorsOf env pool2 false entry.tx.txid A)
      entry.tx.txid = (directPoolParents pool entry, ∅) := by
    unfold linksOf
    rw [hq1L, find?_key_append _ _ _ hlkf]
    rfl
  have hq2 : UpdateChildrenForRemoval env
      (UpdateAncestorsOf env pool2 false entry.tx.txid A) entry.tx.txid =
      UpdateAncestorsOf env pool2 false entry.tx.txid A := by
    unfold UpdateChildrenForRemoval
    have hlq1 : (linksOf (UpdateAncestorsOf env pool2 false entry.tx.txid A)
        entry.tx.txid).2 = ∅ := by
      rw [hq1links]
    rw [hlq1, sortHashes_empty]
    rfl
  have hrs : RemoveStaged env pool2 {entry.tx.txid} =
      removeUnchecked env (UpdateAncestorsOf env pool2 false entry.tx.txid A)
        entry.tx.txid := by
    unfold RemoveStaged
    rw [hufr, hq2, sortHashes_singleton]
    rfl
  rw [hremove, hrs]
  unfold removeUnchecked
  rw [hq1find]
  dsimp only [Option.getD]
  rw [hq1links]
  dsimp only
  refine ⟨?_, ?_, ?_, ?_, ?_, ?_⟩
  · rw [hq1Tx, List.filter_append]
    have h1 : pool.mapTx.filter
        (fun e => ¬(e.tx.txid == entry.tx.txid)) = pool.mapTx := by
      rw [List.filter_eq_self]
      intro e he
      simpa using hfresh e he
    have h2 : [entry].filter
        (fun e => ¬(e.tx.txid == entry.tx.txid)) = [] := by
      simp
    rw [h1, h2, List.append_nil]
  · rw [eraseFold_eq_filter, hq1N, List.filter_append]
    have h3 : pool.mapNextTx.filter
        (fun q => entry.tx.vin.all (fun inp => ¬(q.1 == inp.prevout)))
        = pool.mapNextTx := by
      rw [List.filter_eq_self]
      intro q hq
      simp only [List.all_eq_true, decide_eq_true_eq]
      intro inp hinp
      simpa using hspent q hq inp hinp
    have h4 : extra2.filter
        (fun q => entry.tx.vin.all (fun inp => ¬(q.1 == inp.prevout)))
        = [] := by
      rw [List.filter_eq_nil_iff]
      intro q hq
      obtain ⟨inp, hinp, heq⟩ := hex2 q hq
      simp only [List.all_eq_true, decide_eq_true_eq, not_forall]
      exact ⟨inp, hinp, by simp [heq]⟩
    rw [h3, h4, List.append_nil]
  · rw [hq1L, List.filter_append]
    have h5 : pool.mapLinks.filter
        (fun p => ¬(p.1 == entry.tx.txid)) = pool.mapLinks := by
      rw [List.filter_eq_self]
      intro kls hkls
      simpa using hlkf kls hkls
    have h6 : [(entry.tx.txid, (directPoolParents pool entry,
        (∅ : Finset Hash)))].filter
        (fun p => ¬(p.1 == entry.tx.txid)) = [] := by
      simp
    rw [h5, h6, List.append_nil]
  · rw [hq1T]
    exact Nat.add_sub_cancel _ _
  · simp only [Finset.card_empty, Nat.mul_zero, Nat.add_zero]
    rw [hq1C]
    generalize env.incSetEntries * (directPoolParents pool entry).card = z
    omega
  · exact hq1D

/-- C2: for a transaction not in the pool whose admission preconditions
hold, CTxMemPool::addUnchecked (the two-argument overload, which computes
the ancestor set with no limits) followed by CTxMemPool::remove with
fRecursive = true restores every mempool state component the claim lists
to a value equal to the one before the pair of calls: the entry store
mapTx (hence all other entries' descendant aggregates), the spend map
mapNextTx, the link map mapLinks, totalTxSize and cachedInnerUsage; the
prioritisation-delta map is untouched by both calls, so it persists. -/
theorem addUnchecked_remove_roundtrip (env : MemEnv) (pool : CTxMemPool)
    (entry : CTxMemPoolEntry) (hok : admissionOk pool entry) :
    (remove env (addUncheckedAuto env pool entry.tx.txid entry)
      entry.tx true).mapTx = pool.mapTx ∧
    (remove env (addUncheckedAuto env pool entry.tx.txid entry)
      entry.tx true).mapNextTx = pool.mapNextTx ∧
    (remove env (addUncheckedAuto env pool entry.tx.txid entry)
      entry.tx true).mapLinks = pool.mapLinks ∧
    (remove env (addUncheckedAuto env pool entry.tx.txid entry)
      entry.tx true).totalTxSize = pool.totalTxSize ∧
    (remove env (addUncheckedAuto env pool entry.tx.txid entry)
      entry.tx true).cachedInnerUsage = pool.cachedInnerUsage ∧
    (remove env (addUncheckedAuto env pool entry.tx.txid entry)
      entry.tx true).mapDeltas = pool.mapDeltas := by
  obtain ⟨hfresh, hspent, hlkf, hlkP, hlkC, hlkkey, hcount, hself⟩ := hok
  have hA : entry.tx.txid ∉
      calcAncestorsOut pool entry nNoLimit nNoLimit nNoLimit nNoLimit :=
    calcAncestorsOut_not_self pool entry hlkP hself
  obtain ⟨extra2, hex2, hTx, hN, hL, hT, hC, hD, _hU⟩ :=
    addUnchecked_spec env pool entry
      (calcAncestorsOut pool entry nNoLimit nNoLimit nNoLimit nNoLimit)
      ⟨hfresh, hspent, hlkf, hlkP, hlkC, hlkkey, hcount, hself⟩ hA
  have hAeq := calcAncestorsOut_add_eq pool
    (addUnchecked env pool entry.tx.txid entry
      (calcAncestorsOut pool entry nNoLimit nNoLimit nNoLimit nNoLimit))
    entry
    (fun e => if e.tx.txid ∈
        calcAncestorsOut pool entry nNoLimit nNoLimit nNoLimit nNoLimit then
      e.UpdateState (1 * (entry.GetTxSize : Int)) (1 * entry.GetFee) 1
    else e)
    (fun e => by
      dsimp only
      split
      · rw [updateState_tx]
      · rfl)
    (fun e => by
      dsimp only
      split
      · rw [updateState_nTxSize]
      · rfl)
    hTx hL hlkf hlkP hfresh hself
  rw [show addUncheckedAuto env pool entry.tx.txid entry =
    addUnchecked env pool entry.tx.txid entry
      (calcAncestorsOut pool entry nNoLimit nNoLimit nNoLimit nNoLimit)
    from rfl]
  exact remove_after_add_restores env pool
    (addUnchecked env pool entry.tx.txid entry
      (calcAncestorsOut pool entry nNoLimit nNoLimit nNoLimit nNoLimit))
    entry
    (calcAncestorsOut pool entry nNoLimit nNoLimit nNoLimit nNoLimit)
    extra2 hfresh hspent hlkf hlkC hlkkey hcount hA hex2
    hTx hN hL hT hC hD hAeq

/-- C2 witness: the round trip at the concrete two-transaction chain pool,
adding transaction 3 (which spends an output of in-pool transaction 2) and
removing it recursively; the admission preconditions hold by computation
and every listed component returns to its original value. -/
theorem addUnchecked_remove_roundtrip_witness :
    admissionOk wPool wToadd ∧
    ((remove wEnv (addUncheckedAuto wEnv wPool wToadd.tx.txid wToadd)
      wToadd.tx true).mapTx = wPool.mapTx ∧
    (remove wEnv (addUncheckedAuto wEnv wPool wToadd.tx.txid wToadd)
      wToadd.tx true).mapNextTx = wPool.mapNextTx ∧
    (remove wEnv (addUncheckedAuto wEnv wPool wToadd.tx.txid wToadd)
      wToadd.tx true).mapLinks = wPool.mapLinks ∧
    (remove wEnv (addUncheckedAuto wEnv wPool wToadd.tx.txid wToadd)
      wToadd.tx true).totalTxSize = wPool.totalTxSize ∧
    (remove wEnv (addUncheckedAuto wEnv wPool wToadd.tx.txid wToadd)
      wToadd.tx true).cachedInnerUsage = wPool.cachedInnerUsage ∧
    (remove wEnv (addUncheckedAuto wEnv wPool wToadd.tx.txid wToadd)
      wToadd.tx true).mapDeltas = wPool.mapDeltas) :=
  ⟨by unfold admissionOk; decide,
    addUnchecked_remove_roundtrip wEnv wPool wToadd
      (by unfold admissionOk; decide)⟩

theorem lt_of_lt_u64 (lim n : Nat) (h : lim < u64 n) : lim < n :=
  lt_of_lt_of_le h (Nat.mod_le _ _)

theorem u64_eq_of_lt (n : Nat) (h : n < 2 ^ 64) : u64 n = n :=
  Nat.mod_eq_of_lt h

theorem mem_poolTxids_of_exists (pool : CTxMemPool) (x : Hash)
    (hx : pool.existsTx x = true) : x ∈ poolTxids pool := by
  obtain ⟨e, he⟩ := Option.isSome_iff_exists.mp hx
  have hmem := List.mem_of_find?_eq_some he
  have htx : e.tx.txid = x := by simpa using List.find?_some he
  unfold poolTxids
  rw [List.mem_toFinset]
  exact htx ▸ List.mem_map_of_mem _ hmem

theorem scanParents_ok_spec (pool : CTxMemPool) (lim : Nat) :
    ∀ (l : List CTxIn) (acc out : Finset Hash),
      scanParents pool lim l acc = .ok out →
      out = acc ∪ poolFiltered pool (l.map (fun i => i.prevout.1)) := by
  intro l
  induction l with
  | nil =>
    intro acc out hout
    rw [scanParents] at hout
    cases hout
    simp [poolFiltered_nil]
  | cons inp rest ih =>
    intro acc out hout
    rw [scanParents] at hout
    rw [List.map_cons, poolFiltered_cons]
    cases hf : pool.findTx inp.prevout.1 with
    | none =>
      rw [hf] at hout
      have hex : pool.existsTx inp.prevout.1 = false := by
        unfold CTxMemPool.existsTx
        rw [hf]
        rfl
      rw [ih acc out hout, hex]
      simp
    | some p =>
      rw [hf] at hout
      dsimp only at hout
      by_cases hlim : lim < u64 ((insert p.tx.txid acc).card + 1)
      · rw [if_pos hlim] at hout
        cases hout
      · rw [if_neg hlim] at hout
        have hex : pool.existsTx inp.prevout.1 = true := by
          unfold CTxMemPool.existsTx
          rw [hf]
          rfl
        have htxid : p.tx.txid = inp.prevout.1 := by
          simpa using List.find?_some hf
        rw [ih _ out hout, hex, htxid]
        simp [Finset.insert_union, Finset.union_insert]

theorem scanParents_ok_count (pool : CTxMemPool) (lim : Nat) :
    ∀ (l : List CTxIn) (acc out : Finset Hash),
      scanParents pool lim l acc = .ok out →
      out = acc ∨ ¬(lim < u64 (out.card + 1)) := by
  intro l
  induction l with
  | nil =>
    intro acc out hout
    rw [scanParents] at hout
    cases hout
    exact Or.inl rfl
  | cons inp rest ih =>
    intro acc out hout
    rw [scanParents] at hout
    cases hf : pool.findTx inp.prevout.1 with
    | none =>
      rw [hf] at hout
      exact ih acc out hout
    | some p =>
      rw [hf] at hout
      dsimp only at hout
      by_cases hlim : lim < u64 ((insert p.tx.txid acc).card + 1)
      · rw [if_pos hlim] at hout
        cases hout
      · rw [if_neg hlim] at hout
        rcases ih _ out hout with heq | hch
        · refine Or.inr ?_
          rw [heq]
          exact hlim
        · exact Or.inr hch

theorem scanParents_err_spec (pool : CTxMemPool) (lim : Nat) :
    ∀ (l : List CTxIn) (acc : Finset Hash) (e : String),
      scanParents pool lim l acc = .error e →
      ∃ P2 : Finset Hash,
        P2 ⊆ acc ∪ poolFiltered pool (l.map (fun i => i.prevout.1)) ∧
        P2.Nonempty ∧ lim < u64 (P2.card + 1) := by
  intro l
  induction l with
  | nil =>
    intro acc e hout
    rw [scanParents] at hout
    cases hout
  | cons inp rest ih =>
    intro acc e hout
    rw [scanParents] at hout
    cases hf : pool.findTx inp.prevout.1 with
    | none =>
      rw [hf] at hout
      obtain ⟨P2, hsub, hne, hlim⟩ := ih acc e hout
      refine ⟨P2, hsub.trans ?_, hne, hlim⟩
      intro x hx
      rcases Finset.mem_union.mp hx with hx' | hx'
      · exact Finset.mem_union_left _ hx'
      · refine Finset.mem_union_right _ ?_
        rw [mem_poolFiltered] at hx' ⊢
        refine ⟨?_, hx'.2⟩
        rw [List.map_cons]
        exact List.mem_cons_of_mem _ hx'.1
    | some p =>
      rw [hf] at hout
      dsimp only at hout
      have htxid : p.tx.txid = inp.prevout.1 := by
        simpa using List.find?_some hf
      have hex : pool.existsTx inp.prevout.1 = true := by
        unfold CTxMemPool.existsTx
        rw [hf]
        rfl
      have hmemp : p.tx.txid ∈
          poolFiltered pool ((inp :: rest).map (fun i => i.prevout.1)) := by
        rw [mem_poolFiltered]
        constructor
        · rw [List.map_cons, htxid]
          exact List.mem_cons_self _ _
        · rwa [htxid]
      by_cases hlim : lim < u64 ((insert p.tx.txid acc).card + 1)
      · rw [if_pos hlim] at hout
        refine ⟨insert p.tx.txid acc, ?_,
          ⟨p.tx.txid, Finset.mem_insert_self _ _⟩, hlim⟩
        intro x hx
        rcases Finset.mem_insert.mp hx with rfl | hx'
        · exact Finset.mem_union_right _ hmemp
        · exact Finset.mem_union_left _ hx'
      · rw [if_neg hlim] at hout
        obtain ⟨P2, hsub, hne, hl⟩ := ih _ e hout
        refine ⟨P2, hsub.trans ?_, hne, hl⟩
        intro x hx
        rcases Finset.mem_union.mp hx with hx' | hx'
        · rcases Finset.mem_insert.mp hx' with rfl | hx''
          · exact Finset.mem_union_right _ hmemp
          · exact Finset.mem_union_left _ hx''
        · refine Finset.mem_union_right _ ?_
          rw [mem_poolFiltered] at hx' ⊢
          refine ⟨?_, hx'.2⟩
          rw [List.map_cons]
          exact List.mem_cons_of_mem _ hx'.1

theorem calcAncParents_ok_sup (s : Finset Hash) (lim : Nat) :
    ∀ (l : List Hash) (sps out : Finset Hash),
      calcAncParents s lim l sps = .ok out →
      sps ⊆ out ∧ (∀ ph ∈ l, ph ∈ s ∨ ph ∈ out) ∧
      (∀ x ∈ out, x ∈ sps ∨ (x ∈ l ∧ x ∉ s)) := by
  intro l
  induction l with
  | nil =>
    intro sps out hout
    rw [calcAncParents] at hout
    cases hout
    exact ⟨Finset.Subset.refl _, fun ph hph => absurd hph (List.not_mem_nil ph),
      fun x hx => Or.inl hx⟩
  | cons ph rest ih =>
    intro sps out hout
    rw [calcAncParents] at hout
    by_cases hlim : lim < u64 ((if ph ∈ s then sps else insert ph sps).card +
        s.card + 1)
    · rw [if_pos hlim] at hout
      cases hout
    · rw [if_neg hlim] at hout
      by_cases hps : ph ∈ s
      · rw [if_pos hps] at hout
        obtain ⟨hsub, hmem, hback⟩ := ih _ out hout
        refine ⟨hsub, ?_, ?_⟩
        · intro q hq
          rcases List.mem_cons.mp hq with rfl | hq'
          · exact Or.inl hps
          · exact hmem q hq'
        · intro x hx
          rcases hback x hx with hx' | ⟨hxl, hxs⟩
          · exact Or.inl hx'
          · exact Or.inr ⟨List.mem_cons_of_mem _ hxl, hxs⟩
      · rw [if_neg hps] at hout
        obtain ⟨hsub, hmem, hback⟩ := ih _ out hout
        refine ⟨fun x hx => hsub (Finset.mem_insert_of_mem hx), ?_, ?_⟩
        · intro q hq
          rcases List.mem_cons.mp hq with rfl | hq'
          · exact Or.inr (hsub (Finset.mem_insert_self _ _))
          · exact hmem q hq'
        · intro x hx
          rcases hback x hx with hx' | ⟨hxl, hxs⟩
          · rcases Finset.mem_insert.mp hx' with rfl | hx''
            · exact Or.inr ⟨List.mem_cons_self _ _, hps⟩
            · exact Or.inl hx''
          · exact Or.inr ⟨List.mem_cons_of_mem _ hxl, hxs⟩

theorem calcAncParents_ok_count (s : Finset Hash) (lim : Nat) :
    ∀ (l : List Hash) (sps out : Finset Hash),
      calcAncParents s lim l sps = .ok out →
      out = sps ∨ ¬(lim < u64 (out.card + s.card + 1)) := by
  intro l
  induction l with
  | nil =>
    intro sps out hout
    rw [calcAncParents] at hout
    cases hout
    exact Or.inl rfl
  | cons ph rest ih =>
    intro sps out hout
    rw [calcAncParents] at hout
    by_cases hlim : lim < u64 ((if ph ∈ s then sps else insert ph sps).card +
        s.card + 1)
    · rw [if_pos hlim] at hout
      cases hout
    · rw [if_neg hlim] at hout
      rcases ih _ out hout with heq | hch
      · refine Or.inr ?_
        rw [heq]
        exact hlim
      · exact Or.inr hch

theorem calcAncParents_err_spec (s : Finset Hash) (lim : Nat) :
    ∀ (l : List Hash) (sps : Finset Hash) (e : String),
      calcAncParents s lim l sps = .error e →
      ∃ sps2 : Finset Hash,
        (∀ x ∈ sps2, x ∈ sps ∨ (x ∈ l ∧ x ∉ s)) ∧
        lim < u64 (sps2.card + s.card + 1) := by
  intro l
  induction l with
  | nil =>
    intro sps e hout
    rw [calcAncParents] at hout
    cases hout
  | cons ph rest ih =>
    intro sps e hout
    rw [calcAncParents] at hout
    by_cases hlim : lim < u64 ((if ph ∈ s then sps else insert ph sps).card +
        s.card + 1)
    · rw [if_pos hlim] at hout
      refine ⟨if ph ∈ s then sps else insert ph sps, ?_, hlim⟩
      intro x hx
      by_cases hps : ph ∈ s
      · rw [if_pos hps] at hx
        exact Or.inl hx
      · rw [if_neg hps] at hx
        rcases Finset.mem_insert.mp hx with rfl | hx'
        · exact Or.inr ⟨List.mem_cons_self _ _, hps⟩
        · exact Or.inl hx'
    · rw [if_neg hlim] at hout
      obtain ⟨sps2, hmem, hl⟩ := ih _ e hout
      refine ⟨sps2, ?_, hl⟩
      intro x hx
      rcases hmem x hx with hx' | ⟨hxl, hxs⟩
      · by_cases hps : ph ∈ s
        · rw [if_pos hps] at hx'
          exact Or.inl hx'
        · rw [if_neg hps] at hx'
          rcases Finset.mem_insert.mp hx' with rfl | hx''
          · exact Or.inr ⟨List.mem_cons_self _ _, hps⟩
          · exact Or.inl hx''
      · exact Or.inr ⟨List.mem_cons_of_mem _ hxl, hxs⟩

theorem calcAncRound_sound (pool : CTxMemPool) (ets la ls2 ldc lds : Nat)
    (sAnc : Finset Hash) :
    ∀ (l : List Hash) (sps : Finset Hash) (total : Nat)
      (out : Finset Hash × Nat),
      calcAncRound pool ets la ls2 ldc lds sAnc l sps total = .ok out →
      ∀ x ∈ out.1, x ∈ sps ∨ ∃ sh ∈ l, x ∈ (linksOf pool sh).1 := by
  intro l
  induction l with
  | nil =>
    intro sps total out hout x hx
    rw [calcAncRound] at hout
    cases hout
    exact Or.inl hx
  | cons sh rest ih =>
    intro sps total out hout x hx
    rw [calcAncRound] at hout
    by_cases h1 : lds < u64i (((pool.findTx sh).getD default).nSizeWithDescendants +
        (ets : Int))
    · rw [if_pos h1] at hout; cases hout
    · rw [if_neg h1] at hout
      by_cases h2 : ldc <
          u64i (((pool.findTx sh).getD default).nCountWithDescendants + 1)
      · rw [if_pos h2] at hout; cases hout
      · rw [if_neg h2] at hout
        by_cases h3 : ls2 < u64 (total + ((pool.findTx sh).getD default).GetTxSize)
        · rw [if_pos h3] at hout; cases hout
        · rw [if_neg h3] at hout
          cases hcp : calcAncParents sAnc la (sortHashes (linksOf pool sh).1)
              sps with
          | error e2 => rw [hcp] at hout; dsimp only at hout; cases hout
          | ok sps1 =>
            rw [hcp] at hout
            dsimp only at hout
            rcases ih _ _ out hout x hx with hx' | ⟨sh', hsh', hx'⟩
            · rcases (calcAncParents_ok_sup sAnc la _ _ _ hcp).2.2 x hx' with
                hx'' | ⟨hxl, _⟩
              · exact Or.inl hx''
              · exact Or.inr ⟨sh, List.mem_cons_self _ _,
                  (mem_sortHashes x _).mp hxl⟩
            · exact Or.inr ⟨sh', List.mem_cons_of_mem _ hsh', hx'⟩

theorem calcAncRound_sup (pool : CTxMemPool) (ets la ls2 ldc lds : Nat)
    (sAnc : Finset Hash) :
    ∀ (l : List Hash) (sps : Finset Hash) (total : Nat)
      (out : Finset Hash × Nat),
      calcAncRound pool ets la ls2 ldc lds sAnc l sps total = .ok out →
      sps ⊆ out.1 ∧
      ∀ sh ∈ l, ∀ x ∈ (linksOf pool sh).1, x ∈ sAnc ∨ x ∈ out.1 := by
  intro l
  induction l with
  | nil =>
    intro sps total out hout
    rw [calcAncRound] at hout
    cases hout
    exact ⟨Finset.Subset.refl _, fun sh hsh => absurd hsh (List.not_mem_nil sh)⟩
  | cons sh rest ih =>
    intro sps total out hout
    rw [calcAncRound] at hout
    by_cases h1 : lds < u64i (((pool.findTx sh).getD default).nSizeWithDescendants +
        (ets : Int))
    · rw [if_pos h1] at hout; cases hout
    · rw [if_neg h1] at hout
      by_cases h2 : ldc <
          u64i (((pool.findTx sh).getD default).nCountWithDescendants + 1)
      · rw [if_pos h2] at hout; cases hout
      · rw [if_neg h2] at hout
        by_cases h3 : ls2 < u64 (total + ((pool.findTx sh).getD default).GetTxSize)
        · rw [if_pos h3] at hout; cases hout
        · rw [if_neg h3] at hout
          cases hcp : calcAncParents sAnc la (sortHashes (linksOf pool sh).1)
              sps with
          | error e2 => rw [hcp] at hout; dsimp only at hout; cases hout
          | ok sps1 =>
            rw [hcp] at hout
            dsimp only at hout
            obtain ⟨hsub1, hmem1, _⟩ := calcAncParents_ok_sup sAnc la _ _ _ hcp
            obtain ⟨hsub2, hmem2⟩ := ih _ _ out hout
            refine ⟨hsub1.trans hsub2, ?_⟩
            intro sh' hsh' x hx
            rcases List.mem_cons.mp hsh' with rfl | hsh''
            · rcases hmem1 x ((mem_sortHashes x _).mpr hx) with hx' | hx'
              · exact Or.inl hx'
              · exact Or.inr (hsub2 hx')
            · exact hmem2 sh' hsh'' x hx

theorem calcAncRound_ok_checks (pool : CTxMemPool) (ets la ls2 ldc lds : Nat)
    (sAnc : Finset Hash) :
    ∀ (l : List Hash) (sps : Finset Hash) (total : Nat)
      (out : Finset Hash × Nat),
      calcAncRound pool ets la ls2 ldc lds sAnc l sps total = .ok out →
      (∀ sh ∈ l,
        ¬(lds < u64i (((pool.findTx sh).getD default).nSizeWithDescendants +
          (ets : Int))) ∧
        ¬(ldc < u64i (((pool.findTx sh).getD default).nCountWithDescendants +
          1))) ∧
      out.2 = total + (l.map (szOf pool)).sum ∧
      (l ≠ [] → ¬(ls2 < u64 out.2)) ∧
      (out.1 = sps ∨ ¬(la < u64 (out.1.card + sAnc.card + 1))) := by
  intro l
  induction l with
  | nil =>
    intro sps total out hout
    rw [calcAncRound] at hout
    cases hout
    refine ⟨fun sh hsh => absurd hsh (List.not_mem_nil sh), by simp,
      fun hc => absurd rfl hc, Or.inl rfl⟩
  | cons sh rest ih =>
    intro sps total out hout
    rw [calcAncRound] at hout
    by_cases h1 : lds < u64i (((pool.findTx sh).getD default).nSizeWithDescendants +
        (ets : Int))
    · rw [if_pos h1] at hout; cases hout
    · rw [if_neg h1] at hout
      by_cases h2 : ldc <
          u64i (((pool.findTx sh).getD default).nCountWithDescendants + 1)
      · rw [if_pos h2] at hout; cases hout
      · rw [if_neg h2] at hout
        by_cases h3 : ls2 < u64 (total + ((pool.findTx sh).getD default).GetTxSize)
        · rw [if_pos h3] at hout; cases hout
        · rw [if_neg h3] at hout
          cases hcp : calcAncParents sAnc la (sortHashes (linksOf pool sh).1)
              sps with
          | error e2 => rw [hcp] at hout; dsimp only at hout; cases hout
          | ok sps1 =>
            rw [hcp] at hout
            dsimp only at hout
            obtain ⟨hchecks, hsum, hlast, hcnt⟩ := ih _ _ out hout
            refine ⟨?_, ?_, ?_, ?_⟩
            · intro sh' hsh'
              rcases List.mem_cons.mp hsh' with rfl | hsh''
              · exact ⟨h1, h2⟩
              · exact hchecks sh' hsh''
            · rw [hsum, List.map_cons, List.sum_cons]
              show total + ((pool.findTx sh).getD default).GetTxSize +
                (rest.map (szOf pool)).sum =
                total + (((pool.findTx sh).getD default).GetTxSize +
                  (rest.map (szOf pool)).sum)
              omega
            · intro _
              cases hrest : rest with
              | nil =>
                have : out.2 = total + ((pool.findTx sh).getD default).GetTxSize := by
                  rw [hsum, hrest]
                  simp [szOf]
                rw [this]
                exact h3
              | cons a as =>
                refine hlast ?_
                rw [hrest]
                exact List.cons_ne_nil a as
            · rcases hcnt with heq | hch
              · rcases calcAncParents_ok_count sAnc la _ _ _ hcp with heq1 | hch1
                · exact Or.inl (heq.trans heq1)
                · refine Or.inr ?_
                  rw [heq]
                  exact hch1
              · exact Or.inr hch

theorem calcAncRound_err_spec (pool : CTxMemPool) (ets la ls2 ldc lds : Nat)
    (sAnc : Finset Hash) :
    ∀ (l : List Hash) (sps : Finset Hash) (total : Nat) (e : String),
      calcAncRound pool ets la ls2 ldc lds sAnc l sps total = .error e →
      (∃ sh ∈ l, lds <
        u64i (((pool.findTx sh).getD default).nSizeWithDescendants +
          (ets : Int))) ∨
      (∃ sh ∈ l, ldc <
        u64i (((pool.findTx sh).getD default).nCountWithDescendants + 1)) ∨
      (∃ l1 l2 : List Hash, l = l1 ++ l2 ∧ l1 ≠ [] ∧
        ls2 < u64 (total + (l1.map (szOf pool)).sum)) ∨
      (∃ sps2 : Finset Hash,
        (∀ x ∈ sps2, (x ∈ sps ∨ ∃ sh ∈ l, x ∈ (linksOf pool sh).1) ∧
          (x ∈ sps ∨ x ∉ sAnc)) ∧
        la < u64 (sps2.card + sAnc.card + 1)) := by
  intro l
  induction l with
  | nil =>
    intro sps total e hout
    rw [calcAncRound] at hout
    cases hout
  | cons sh rest ih =>
    intro sps total e hout
    rw [calcAncRound] at hout
    by_cases h1 : lds < u64i (((pool.findTx sh).getD default).nSizeWithDescendants +
        (ets : Int))
    · exact Or.inl ⟨sh, List.mem_cons_self _ _, h1⟩
    · rw [if_neg h1] at hout
      by_cases h2 : ldc <
          u64i (((pool.findTx sh).getD default).nCountWithDescendants + 1)
      · exact Or.inr (Or.inl ⟨sh, List.mem_cons_self _ _, h2⟩)
      · rw [if_neg h2] at hout
        by_cases h3 : ls2 < u64 (total + ((pool.findTx sh).getD default).GetTxSize)
        · refine Or.inr (Or.inr (Or.inl ⟨[sh], rest, rfl,
            List.cons_ne_nil sh [], ?_⟩))
          simpa [szOf] using h3
        · rw [if_neg h3] at hout
          cases hcp : calcAncParents sAnc la (sortHashes (linksOf pool sh).1)
              sps with
          | error e2 =>
            obtain ⟨sps2, hmem, hl⟩ := calcAncParents_err_spec sAnc la _ _ _ hcp
            refine Or.inr (Or.inr (Or.inr ⟨sps2, ?_, hl⟩))
            intro x hx
            rcases hmem x hx with hx' | ⟨hxl, hxs⟩
            · exact ⟨Or.inl hx', Or.inl hx'⟩
            · exact ⟨Or.inr ⟨sh, List.mem_cons_self _ _,
                (mem_sortHashes x _).mp hxl⟩, Or.inr hxs⟩
          | ok sps1 =>
            rw [hcp] at hout
            dsimp only at hout
            obtain ⟨_, _, hback1⟩ := calcAncParents_ok_sup sAnc la _ _ _ hcp
            rcases ih _ _ e hout with hc | hc | hc | hc
            · obtain ⟨sh', hsh', hbad⟩ := hc
              exact Or.inl ⟨sh', List.mem_cons_of_mem _ hsh', hbad⟩
            · obtain ⟨sh', hsh', hbad⟩ := hc
              exact Or.inr (Or.inl ⟨sh', List.mem_cons_of_mem _ hsh', hbad⟩)
            · obtain ⟨l1, l2, heql, hne, hbad⟩ := hc
              refine Or.inr (Or.inr (Or.inl ⟨sh :: l1, l2, ?_,
                List.cons_ne_nil sh l1, ?_⟩))
              · rw [List.cons_append, heql]
              · rw [List.map_cons, List.sum_cons]
                have : total + ((pool.findTx sh).getD default).GetTxSize +
                    (l1.map (szOf pool)).sum =
                    total + (szOf pool sh + (l1.map (szOf pool)).sum) := by
                  simp only [szOf]
                  omega
                rwa [this] at hbad
            · obtain ⟨sps2, hmem, hl⟩ := hc
              refine Or.inr (Or.inr (Or.inr ⟨sps2, ?_, hl⟩))
              intro x hx
              obtain ⟨hx1, hx2⟩ := hmem x hx
              constructor
              · rcases hx1 with hx' | ⟨sh', hsh', hx'⟩
                · rcases hback1 x hx' with hx'' | ⟨hxl, _⟩
                  · exact Or.inl hx''
                  · exact Or.inr ⟨sh, List.mem_cons_self _ _,
                      (mem_sortHashes x _).mp hxl⟩
                · exact Or.inr ⟨sh', List.mem_cons_of_mem _ hsh', hx'⟩
              · rcases hx2 with hx' | hx'
                · rcases hback1 x hx' with hx'' | ⟨_, hxs⟩
                  · exact Or.inl hx''
                  · exact Or.inr hxs
                · exact Or.inr hx'

theorem sortHashes_map_sum (s : Finset Hash) (f : Hash → Nat) :
    ((sortHashes s).map f).sum = s.sum f := by
  calc ((sortHashes s).map f).sum
      = ((sortHashes s).map f : Multiset Nat).sum := (Multiset.sum_coe _).symm
    _ = (Multiset.map f (sortHashes s : Multiset Hash)).sum := by
        rw [Multiset.map_coe]
    _ = (Multiset.map f s.1).sum := by rw [sortHashes_coe]
    _ = s.sum f := rfl

theorem sortHashes_ne_nil (s : Finset Hash) (hs : s.Nonempty) :
    sortHashes s ≠ [] := by
  intro hc
  obtain ⟨x, hx⟩ := hs
  have := (mem_sortHashes x s).mpr hx
  rw [hc] at this
  exact List.not_mem_nil x this

theorem calcAncRound_ok_disj (pool : CTxMemPool) (ets la ls2 ldc lds : Nat)
    (sAnc : Finset Hash) :
    ∀ (l : List Hash) (sps : Finset Hash) (total : Nat)
      (out : Finset Hash × Nat),
      calcAncRound pool ets la ls2 ldc lds sAnc l sps total = .ok out →
      ∀ x ∈ out.1, x ∈ sps ∨ x ∉ sAnc := by
  intro l
  induction l with
  | nil =>
    intro sps total out hout x hx
    rw [calcAncRound] at hout
    cases hout
    exact Or.inl hx
  | cons sh rest ih =>
    intro sps total out hout x hx
    rw [calcAncRound] at hout
    by_cases h1 : lds < u64i (((pool.findTx sh).getD default).nSizeWithDescendants +
        (ets : Int))
    · rw [if_pos h1] at hout; cases hout
    · rw [if_neg h1] at hout
      by_cases h2 : ldc <
          u64i (((pool.findTx sh).getD default).nCountWithDescendants + 1)
      · rw [if_pos h2] at hout; cases hout
      · rw [if_neg h2] at hout
        by_cases h3 : ls2 < u64 (total + ((pool.findTx sh).getD default).GetTxSize)
        · rw [if_pos h3] at hout; cases hout
        · rw [if_neg h3] at hout
          cases hcp : calcAncParents sAnc la (sortHashes (linksOf pool sh).1)
              sps with
          | error e2 => rw [hcp] at hout; dsimp only at hout; cases hout
          | ok sps1 =>
            rw [hcp] at hout
            dsimp only at hout
            rcases ih _ _ out hout x hx with hx' | hx'
            · rcases (calcAncParents_ok_sup sAnc la _ _ _ hcp).2.2 x hx' with
                hx'' | ⟨_, hxs⟩
              · exact Or.inl hx''
              · exact Or.inr hxs
            · exact Or.inr hx'

theorem calcAncLoop_sound (pool : CTxMemPool) (ets la ls2 ldc lds : Nat)
    (U : Hash → Prop)
    (hUpar : ∀ sh, U sh → ∀ x ∈ (linksOf pool sh).1, U x) :
    ∀ (fuel : Nat) (s p : Finset Hash) (t : Nat),
      (∀ x ∈ s, U x) → (∀ x ∈ p, U x) →
      (∀ out, calcAncLoop pool ets la ls2 ldc lds fuel s p t = .ok out →
        ∀ x ∈ out, U x) ∧
      (∀ e sout, calcAncLoop pool ets la ls2 ldc lds fuel s p t =
        .error (e, sout) → ∀ x ∈ sout, U x) := by
  intro fuel
  induction fuel with
  | zero =>
    intro s p t hUs _
    constructor
    · intro out hout
      rw [calcAncLoop] at hout
      cases hout
    · intro e sout hout
      rw [calcAncLoop] at hout
      cases hout
      exact hUs
  | succ fuel ih =>
    intro s p t hUs hUp
    have hUsp : ∀ x ∈ s ∪ p, U x := by
      intro x hx
      rcases Finset.mem_union.mp hx with hx' | hx'
      · exact hUs x hx'
      · exact hUp x hx'
    constructor
    · intro out hout
      rw [calcAncLoop] at hout
      by_cases hpe : p = ∅
      · rw [if_pos hpe] at hout
        cases hout
        exact hUs
      · rw [if_neg hpe] at hout
        dsimp only at hout
        cases hcr : calcAncRound pool ets la ls2 ldc lds (s ∪ p)
            (sortHashes p) ∅ t with
        | error e2 => rw [hcr] at hout; dsimp only at hout; cases hout
        | ok pr =>
          rw [hcr] at hout
          dsimp only at hout
          have hUfr : ∀ x ∈ pr.1, U x := by
            intro x hx
            rcases calcAncRound_sound pool ets la ls2 ldc lds _ _ _ _ _
                hcr x hx with hx' | ⟨sh, hsh, hx'⟩
            · exact absurd hx' (Finset.not_mem_empty x)
            · exact hUpar sh (hUp sh ((mem_sortHashes sh p).mp hsh)) x hx'
          exact (ih (s ∪ p) pr.1 pr.2 hUsp hUfr).1 out hout
    · intro e sout hout
      rw [calcAncLoop] at hout
      by_cases hpe : p = ∅
      · rw [if_pos hpe] at hout
        cases hout
      · rw [if_neg hpe] at hout
        dsimp only at hout
        cases hcr : calcAncRound pool ets la ls2 ldc lds (s ∪ p)
            (sortHashes p) ∅ t with
        | error e2 =>
          rw [hcr] at hout
          dsimp only at hout
          cases hout
          exact hUsp
        | ok pr =>
          rw [hcr] at hout
          dsimp only at hout
          have hUfr : ∀ x ∈ pr.1, U x := by
            intro x hx
            rcases calcAncRound_sound pool ets la ls2 ldc lds _ _ _ _ _
                hcr x hx with hx' | ⟨sh, hsh, hx'⟩
            · exact absurd hx' (Finset.not_mem_empty x)
            · exact hUpar sh (hUp sh ((mem_sortHashes sh p).mp hsh)) x hx'
          exact (ih (s ∪ p) pr.1 pr.2 hUsp hUfr).2 e sout hout

theorem calcAncLoop_ok_spec (pool : CTxMemPool) (ets la ls2 ldc lds : Nat) :
    ∀ (fuel : Nat) (s p : Finset Hash) (t : Nat) (out : Finset Hash),
      calcAncLoop pool ets la ls2 ldc lds fuel s p t = .ok out →
      (∀ x ∈ s, ∀ y ∈ (linksOf pool x).1, y ∈ s ∨ y ∈ p) →
      s ∪ p ⊆ out ∧ ∀ x ∈ out, ∀ y ∈ (linksOf pool x).1, y ∈ out := by
  intro fuel
  induction fuel with
  | zero =>
    intro s p t out hout _
    rw [calcAncLoop] at hout
    cases hout
  | succ fuel ih =>
    intro s p t out hout hcl
    rw [calcAncLoop] at hout
    by_cases hpe : p = ∅
    · rw [if_pos hpe] at hout
      cases hout
      subst hpe
      constructor
      · simp
      · intro x hx y hy
        rcases hcl x hx y hy with hy' | hy'
        · exact hy'
        · exact absurd hy' (Finset.not_mem_empty y)
    · rw [if_neg hpe] at hout
      dsimp only at hout
      cases hcr : calcAncRound pool ets la ls2 ldc lds (s ∪ p)
          (sortHashes p) ∅ t with
      | error e2 => rw [hcr] at hout; dsimp only at hout; cases hout
      | ok pr =>
        rw [hcr] at hout
        dsimp only at hout
        obtain ⟨_, hpar⟩ := calcAncRound_sup pool ets la ls2 ldc lds _ _ _ _ _ hcr
        have hcl' : ∀ x ∈ s ∪ p, ∀ y ∈ (linksOf pool x).1,
            y ∈ s ∪ p ∨ y ∈ pr.1 := by
          intro x hx y hy
          rcases Finset.mem_union.mp hx with hx' | hx'
          · rcases hcl x hx' y hy with hy' | hy'
            · exact Or.inl (Finset.mem_union_left _ hy')
            · exact Or.inl (Finset.mem_union_right _ hy')
          · exact hpar x ((mem_sortHashes x p).mpr hx') y hy
        obtain ⟨hsub, hclosed⟩ := ih (s ∪ p) pr.1 pr.2 out hout hcl'
        refine ⟨?_, hclosed⟩
        exact fun x hx => hsub (Finset.mem_union_left _ hx)

theorem calcAncLoop_ok_checks (pool : CTxMemPool) (ets la ls2 ldc lds : Nat) :
    ∀ (fuel : Nat) (s p : Finset Hash) (t : Nat) (out : Finset Hash),
      calcAncLoop pool ets la ls2 ldc lds fuel s p t = .ok out →
      Disjoint s p →
      t = ets + s.sum (szOf pool) →
      (s.Nonempty → ¬(ls2 < u64 t)) →
      ((s ∪ p).Nonempty → ¬(la < u64 ((s ∪ p).card + 1))) →
      (∀ a ∈ out, a ∈ s ∨
        (¬(lds < u64i (((pool.findTx a).getD default).nSizeWithDescendants +
          (ets : Int))) ∧
         ¬(ldc < u64i (((pool.findTx a).getD default).nCountWithDescendants +
          1)))) ∧
      (out.Nonempty → ¬(ls2 < u64 (ets + out.sum (szOf pool)))) ∧
      (out.Nonempty → ¬(la < u64 (out.card + 1))) := by
  intro fuel
  induction fuel with
  | zero =>
    intro s p t out hout _ _ _ _
    rw [calcAncLoop] at hout
    cases hout
  | succ fuel ih =>
    intro s p t out hout hdisj ht hsize hcnt
    rw [calcAncLoop] at hout
    by_cases hpe : p = ∅
    · rw [if_pos hpe] at hout
      cases hout
      subst hpe
      refine ⟨fun a ha => Or.inl ha, ?_, ?_⟩
      · intro hne
        rw [← ht]
        exact hsize hne
      · intro hne
        have := hcnt (by simpa using hne)
        simpa using this
    · rw [if_neg hpe] at hout
      dsimp only at hout
      cases hcr : calcAncRound pool ets la ls2 ldc lds (s ∪ p)
          (sortHashes p) ∅ t with
      | error e2 => rw [hcr] at hout; dsimp only at hout; cases hout
      | ok pr =>
        rw [hcr] at hout
        dsimp only at hout
        have hpne : p.Nonempty := Finset.nonempty_iff_ne_empty.mpr hpe
        obtain ⟨hchecks, hsum, hlast, hcount⟩ :=
          calcAncRound_ok_checks pool ets la ls2 ldc lds _ _ _ _ _ hcr
        have hdisj' : Disjoint (s ∪ p) pr.1 := by
          rw [Finset.disjoint_left]
          intro a ha hapr
          rcases calcAncRound_ok_disj pool ets la ls2 ldc lds _ _ _ _ _
              hcr a hapr with h0 | hns
          · exact Finset.not_mem_empty a h0
          · exact hns ha
        have ht' : pr.2 = ets + (s ∪ p).sum (szOf pool) := by
          rw [hsum, sortHashes_map_sum, ht, Finset.sum_union hdisj,
            Nat.add_assoc]
        have hsize' : (s ∪ p).Nonempty → ¬(ls2 < u64 pr.2) := by
          intro _
          exact hlast (sortHashes_ne_nil p hpne)
        have hcnt' : ((s ∪ p) ∪ pr.1).Nonempty →
            ¬(la < u64 (((s ∪ p) ∪ pr.1).card + 1)) := by
          intro _
          rcases hcount with h0 | hch
          · rw [h0, Finset.union_empty]
            refine hcnt ?_
            obtain ⟨x, hx⟩ := hpne
            exact ⟨x, Finset.mem_union_right _ hx⟩
          · rw [Finset.card_union_of_disjoint hdisj',
              Nat.add_comm (s ∪ p).card pr.1.card]
            exact hch
        obtain ⟨hperA, hfsize, hfcnt⟩ :=
          ih (s ∪ p) pr.1 pr.2 out hout hdisj' ht' hsize' hcnt'
        refine ⟨?_, hfsize, hfcnt⟩
        intro a ha
        rcases hperA a ha with ha' | hgood
        · rcases Finset.mem_union.mp ha' with ha'' | ha''
          · exact Or.inl ha''
          · exact Or.inr (hchecks a ((mem_sortHashes a p).mpr ha''))
        · exact Or.inr hgood

theorem calcAncLoop_err_spec (pool : CTxMemPool) (ets la ls2 ldc lds : Nat)
    (U : Hash → Prop)
    (hUpar : ∀ sh, U sh → ∀ x ∈ (linksOf pool sh).1, U x)
    (B : Finset Hash)
    (hBpar : ∀ x ∈ allLinkParents pool, x ∈ B) :
    ∀ (fuel : Nat) (s p : Finset Hash) (t : Nat) (e : String)
      (sout : Finset Hash),
      calcAncLoop pool ets la ls2 ldc lds fuel s p t = .error (e, sout) →
      (∀ x ∈ s, U x) → (∀ x ∈ p, U x) →
      Disjoint s p → t = ets + s.sum (szOf pool) →
      s ⊆ B → p ⊆ B → B.card + 1 ≤ fuel + s.card →
      (∃ a, U a ∧ lds <
        u64i (((pool.findTx a).getD default).nSizeWithDescendants +
          (ets : Int))) ∨
      (∃ a, U a ∧ ldc <
        u64i (((pool.findTx a).getD default).nCountWithDescendants + 1)) ∨
      (∃ S : Finset Hash, S.Nonempty ∧ (∀ x ∈ S, U x) ∧
        ls2 < u64 (ets + S.sum (szOf pool))) ∨
      (∃ S : Finset Hash, S.Nonempty ∧ (∀ x ∈ S, U x) ∧
        la < u64 (S.card + 1)) := by
  intro fuel
  induction fuel with
  | zero =>
    intro s p t e sout _ _ _ _ _ hsB _ hfuel
    exfalso
    have := Finset.card_le_card hsB
    omega
  | succ fuel ih =>
    intro s p t e sout hout hUs hUp hdisj ht hsB hpB hfuel
    rw [calcAncLoop] at hout
    by_cases hpe : p = ∅
    · rw [if_pos hpe] at hout
      cases hout
    · rw [if_neg hpe] at hout
      dsimp only at hout
      have hpne : p.Nonempty := Finset.nonempty_iff_ne_empty.mpr hpe
      have hUsp : ∀ x ∈ s ∪ p, U x := by
        intro x hx
        rcases Finset.mem_union.mp hx with hx' | hx'
        · exact hUs x hx'
        · exact hUp x hx'
      cases hcr : calcAncRound pool ets la ls2 ldc lds (s ∪ p)
          (sortHashes p) ∅ t with
      | error e2 =>
        rcases calcAncRound_err_spec pool ets la ls2 ldc lds _ _ _ _ _ hcr with
          hc | hc | hc | hc
        · obtain ⟨sh, hsh, hbad⟩ := hc
          exact Or.inl ⟨sh, hUp sh ((mem_sortHashes sh p).mp hsh), hbad⟩
        · obtain ⟨sh, hsh, hbad⟩ := hc
          exact Or.inr (Or.inl ⟨sh, hUp sh ((mem_sortHashes sh p).mp hsh), hbad⟩)
        · obtain ⟨l1, l2, heql, hne1, hbad⟩ := hc
          have hndl : (sortHashes p).Nodup := sortHashes_nodup p
          have hnd1 : l1.Nodup := by
            rw [heql] at hndl
            exact (List.nodup_append.mp hndl).1
          have hsub1 : ∀ x ∈ l1, x ∈ p := by
            intro x hx
            have hx2 : x ∈ sortHashes p := by
              rw [heql]
              exact List.mem_append_left _ hx
            exact (mem_sortHashes x p).mp hx2
          have hdisj1 : Disjoint s l1.toFinset := by
            rw [Finset.disjoint_left]
            intro a ha hal
            exact (Finset.disjoint_left.mp hdisj) ha
              (hsub1 a (List.mem_toFinset.mp hal))
          refine Or.inr (Or.inr (Or.inl ⟨s ∪ l1.toFinset, ?_, ?_, ?_⟩))
          · obtain ⟨x, hx⟩ := List.exists_mem_of_ne_nil l1 hne1
            exact ⟨x, Finset.mem_union_right _ (List.mem_toFinset.mpr hx)⟩
          · intro x hx
            rcases Finset.mem_union.mp hx with hx' | hx'
            · exact hUs x hx'
            · exact hUp x (hsub1 x (List.mem_toFinset.mp hx'))
          · have heqsum : ets + (s ∪ l1.toFinset).sum (szOf pool) =
                t + (l1.map (szOf pool)).sum := by
              rw [Finset.sum_union hdisj1, List.sum_toFinset _ hnd1, ht,
                Nat.add_assoc]
            rw [heqsum]
            exact hbad
        · obtain ⟨sps2, hmem, hbad⟩ := hc
          have hdisj2 : Disjoint (s ∪ p) sps2 := by
            rw [Finset.disjoint_left]
            intro a ha hasp
            rcases (hmem a hasp).2 with h0 | hns
            · exact Finset.not_mem_empty a h0
            · exact hns ha
          refine Or.inr (Or.inr (Or.inr ⟨(s ∪ p) ∪ sps2, ?_, ?_, ?_⟩))
          · obtain ⟨x, hx⟩ := hpne
            exact ⟨x, Finset.mem_union_left _ (Finset.mem_union_right _ hx)⟩
          · intro x hx
            rcases Finset.mem_union.mp hx with hx' | hx'
            · exact hUsp x hx'
            · rcases (hmem x hx').1 with h0 | ⟨sh, hsh, hx''⟩
              · exact absurd h0 (Finset.not_mem_empty x)
              · exact hUpar sh (hUp sh ((mem_sortHashes sh p).mp hsh)) x hx''
          · have hcard : ((s ∪ p) ∪ sps2).card + 1 =
                sps2.card + (s ∪ p).card + 1 := by
              rw [Finset.card_union_of_disjoint hdisj2]
              omega
            rw [hcard]
            exact hbad
      | ok pr =>
        rw [hcr] at hout
        dsimp only at hout
        have hUfr : ∀ x ∈ pr.1, U x := by
          intro x hx
          rcases calcAncRound_sound pool ets la ls2 ldc lds _ _ _ _ _
              hcr x hx with hx' | ⟨sh, hsh, hx'⟩
          · exact absurd hx' (Finset.not_mem_empty x)
          · exact hUpar sh (hUp sh ((mem_sortHashes sh p).mp hsh)) x hx'
        have hfrB : pr.1 ⊆ B := by
          intro x hx
          rcases calcAncRound_sound pool ets la ls2 ldc lds _ _ _ _ _
              hcr x hx with hx' | ⟨sh, _, hx'⟩
          · exact absurd hx' (Finset.not_mem_empty x)
          · exact hBpar x (linksOf_parents_subset_ALP pool sh hx')
        have hdisj' : Disjoint (s ∪ p) pr.1 := by
          rw [Finset.disjoint_left]
          intro a ha hapr
          rcases calcAncRound_ok_disj pool ets la ls2 ldc lds _ _ _ _ _
              hcr a hapr with h0 | hns
          · exact Finset.not_mem_empty a h0
          · exact hns ha
        obtain ⟨_, hsum, _, _⟩ :=
          calcAncRound_ok_checks pool ets la ls2 ldc lds _ _ _ _ _ hcr
        have ht' : pr.2 = ets + (s ∪ p).sum (szOf pool) := by
          rw [hsum, sortHashes_map_sum, ht, Finset.sum_union hdisj,
            Nat.add_assoc]
        have hspB : s ∪ p ⊆ B := Finset.union_subset hsB hpB
        have hfuel' : B.card + 1 ≤ fuel + (s ∪ p).card := by
          have hcard : (s ∪ p).card = s.card + p.card :=
            Finset.card_union_of_disjoint hdisj
          have hppos : 0 < p.card := Finset.card_pos.mpr hpne
          omega
        exact ih (s ∪ p) pr.1 pr.2 e sout hout hUsp hUfr hdisj' ht'
          hspB hfrB hfuel'

theorem ancOf_parent_closed (pool : CTxMemPool) (tx : CTransaction)
    (hsound : linksSound pool) :
    ∀ sh, ancOf pool tx sh → ∀ x ∈ (linksOf pool sh).1, ancOf pool tx x := by
  intro sh hanc x hx
  unfold ancOf isAncestorOf at hanc ⊢
  obtain ⟨hex, d, hchain, hspend⟩ := hanc
  obtain ⟨e, he⟩ := Option.isSome_iff_exists.mp hex
  have hmem := List.mem_of_find?_eq_some he
  have htx : e.tx.txid = sh := by simpa using List.find?_some he
  obtain ⟨hexx, inp, hinp, hprev⟩ := hsound e hmem x (by rw [htx]; exact hx)
  refine ⟨hexx, d, ?_, hspend⟩
  exact Relation.ReflTransGen.head ⟨e, hmem, htx, inp, hinp, hprev⟩ hchain

theorem poolFiltered_vin_anc (pool : CTxMemPool) (tx : CTransaction) :
    ∀ x ∈ poolFiltered pool (tx.vin.map (fun i => i.prevout.1)),
      ancOf pool tx x := by
  intro x hx
  rw [mem_poolFiltered] at hx
  obtain ⟨hxl, hex⟩ := hx
  obtain ⟨inp, hinp, rfl⟩ := List.mem_map.mp hxl
  unfold ancOf isAncestorOf
  exact ⟨hex, inp.prevout.1, Relation.ReflTransGen.refl, inp, hinp, rfl⟩

/-- C4: under the link-graph invariants (recorded links-parents are exactly
the in-pool direct parents) and machine-width bounds on the pool's counts
and sizes, CalculateMemPoolAncestors succeeds with `setAncestors` equal to
the exact set of in-mempool ancestors of the entry, and fails — returning
false with an error string — exactly when one of the claim's conditions
holds: some ancestor's size-with-descendants plus the entry's size exceeds
the descendant-size limit, some ancestor's count-with-descendants plus one
exceeds the descendant-count limit, the cumulative size of the entry plus
a (traversed) set of ancestors exceeds the ancestor-size limit, or the
number of a (traversed) set of ancestors plus one exceeds the
ancestor-count limit. -/
theorem calculateMemPoolAncestors_spec (pool : CTxMemPool)
    (entry : CTxMemPoolEntry) (la ls2 ldc lds : Nat)
    (hsound : linksSound pool) (hcompl : linksComplete pool)
    (hcard : (poolTxids pool).card + 1 < 2 ^ 64)
    (hsizes : entry.GetTxSize + (poolTxids pool).sum (szOf pool) < 2 ^ 64) :
    (∀ out, CalculateMemPoolAncestors pool entry la ls2 ldc lds = .ok out →
      ∀ x, x ∈ out ↔ ancOf pool entry.tx x) ∧
    ((∃ es, CalculateMemPoolAncestors pool entry la ls2 ldc lds =
        .error es) ↔
      specAncestorFailure pool entry la ls2 ldc lds) := by
  have hUpar := ancOf_parent_closed pool entry.tx hsound
  have hP0anc := poolFiltered_vin_anc pool entry.tx
  have hOK : ∀ out,
      CalculateMemPoolAncestors pool entry la ls2 ldc lds = .ok out →
      ∀ x, x ∈ out ↔ ancOf pool entry.tx x := by
    intro out hout x
    unfold CalculateMemPoolAncestors at hout
    cases hsp : scanParents pool la entry.tx.vin ∅ with
    | error e =>
      rw [hsp] at hout
      cases hout
    | ok P0 =>
      rw [hsp] at hout
      dsimp only at hout
      have hP0eq := scanParents_ok_spec pool la entry.tx.vin ∅ P0 hsp
      rw [Finset.empty_union] at hP0eq
      subst hP0eq
      constructor
      · intro hx
        exact (calcAncLoop_sound pool entry.GetTxSize la ls2 ldc lds
          (ancOf pool entry.tx) hUpar _ ∅ _ _
          (fun y hy => absurd hy (Finset.not_mem_empty y)) hP0anc).1
          out hout x hx
      · intro hanc
        obtain ⟨hsub, hclosed⟩ := calcAncLoop_ok_spec pool entry.GetTxSize
          la ls2 ldc lds _ ∅ _ _ out hout
          (fun y hy => absurd hy (Finset.not_mem_empty y))
        unfold ancOf isAncestorOf at hanc
        obtain ⟨hex, d, hchain, inp, hinp, hprev⟩ := hanc
        have hwalk : ∀ a, Relation.ReflTransGen (stepRel pool) a d →
            pool.existsTx a = true → a ∈ out := by
          intro a hch
          induction hch using Relation.ReflTransGen.head_induction_on with
          | refl =>
            intro hexd
            refine hsub (Finset.mem_union_right _ ?_)
            rw [mem_poolFiltered]
            exact ⟨List.mem_map.mpr ⟨inp, hinp, hprev⟩, hexd⟩
          | @head a' c' hrel hch' ih =>
            intro hexa
            obtain ⟨e, hmem, htxc, inp', hinp', hprev'⟩ := hrel
            have hexc := ih (by
              unfold CTxMemPool.existsTx CTxMemPool.findTx
              rw [List.find?_isSome]
              exact ⟨e, hmem, by simpa using htxc⟩)
            have hpar : a' ∈ (linksOf pool c').1 := by
              have hc := hcompl e hmem inp' hinp' (by rwa [hprev'])
              rwa [htxc, hprev'] at hc
            exact hclosed _ hexc _ hpar
        exact hwalk x hchain hex
  refine ⟨hOK, ?_, ?_⟩
  · rintro ⟨es, hout⟩
    unfold specAncestorFailure
    unfold CalculateMemPoolAncestors at hout
    cases hsp : scanParents pool la entry.tx.vin ∅ with
    | error e =>
      rw [hsp] at hout
      obtain ⟨P2, hsub, hne, hlim⟩ :=
        scanParents_err_spec pool la entry.tx.vin ∅ e hsp
      refine Or.inr (Or.inr (Or.inr ⟨P2, hne, ?_, hlim⟩))
      intro y hy
      rcases Finset.mem_union.mp (hsub hy) with h0 | hpf
      · exact absurd h0 (Finset.not_mem_empty y)
      · exact hP0anc y hpf
    | ok P0 =>
      rw [hsp] at hout
      dsimp only at hout
      have hP0eq := scanParents_ok_spec pool la entry.tx.vin ∅ P0 hsp
      rw [Finset.empty_union] at hP0eq
      subst hP0eq
      obtain ⟨e1, sout⟩ := es
      exact calcAncLoop_err_spec pool entry.GetTxSize la ls2 ldc lds
        (ancOf pool entry.tx) hUpar
        (poolFiltered pool (entry.tx.vin.map (fun i => i.prevout.1)) ∪
          allLinkParents pool)
        (fun y hy => Finset.mem_union_right _ hy)
        _ ∅ _ _ e1 sout hout
        (fun y hy => absurd hy (Finset.not_mem_empty y)) hP0anc
        (Finset.disjoint_left.mpr (fun {a} ha _ => Finset.not_mem_empty a ha))
        (by simp)
        (Finset.empty_subset _) Finset.subset_union_left
        (by
          unfold fuelForAncestors
          simp)
  · intro hviol
    cases hres : CalculateMemPoolAncestors pool entry la ls2 ldc lds with
    | error es => exact ⟨es, rfl⟩
    | ok out =>
      exfalso
      have hiff := hOK out hres
      have hres' := hres
      unfold CalculateMemPoolAncestors at hres'
      cases hsp : scanParents pool la entry.tx.vin ∅ with
      | error e =>
        rw [hsp] at hres'
        cases hres'
      | ok P0 =>
        rw [hsp] at hres'
        dsimp only at hres'
        have hP0eq := scanParents_ok_spec pool la entry.tx.vin ∅ P0 hsp
        rw [Finset.empty_union] at hP0eq
        subst hP0eq
        have hcscan := scanParents_ok_count pool la entry.tx.vin ∅ _ hsp
        obtain ⟨hperA, hfsize, hfcnt⟩ :=
          calcAncLoop_ok_checks pool entry.GetTxSize la ls2 ldc lds
            _ ∅ _ _ out hres'
            (Finset.disjoint_left.mpr (fun {a} ha _ => Finset.not_mem_empty a ha))
            (by simp)
            (fun hne => absurd hne (by simp))
            (by
              intro hne
              rcases hcscan with h0 | hch
              · rw [h0] at hne
                simp at hne
              · rw [Finset.empty_union]
                exact hch)
        have houtsub : out ⊆ poolTxids pool := fun x hx =>
          mem_poolTxids_of_exists pool x ((hiff x).mp hx).1
        unfold specAncestorFailure at hviol
        rcases hviol with ⟨a, hanc, hbad⟩ | ⟨a, hanc, hbad⟩ |
          ⟨S, hSne, hSanc, hbad⟩ | ⟨S, hSne, hSanc, hbad⟩
        · have haout : a ∈ out := (hiff a).mpr hanc
          rcases hperA a haout with h0 | ⟨hld, _⟩
          · exact Finset.not_mem_empty a h0
          · exact hld hbad
        · have haout : a ∈ out := (hiff a).mpr hanc
          rcases hperA a haout with h0 | ⟨_, hldc⟩
          · exact Finset.not_mem_empty a h0
          · exact hldc hbad
        · have hSsub : S ⊆ out := fun x hx => (hiff x).mpr (hSanc x hx)
          have houtne : out.Nonempty := hSne.mono hSsub
          have hpass := hfsize houtne
          have h1 : entry.GetTxSize + S.sum (szOf pool) ≤
              entry.GetTxSize + out.sum (szOf pool) :=
            Nat.add_le_add_left (Finset.sum_le_sum_of_subset hSsub) _
          have h2 : entry.GetTxSize + out.sum (szOf pool) ≤
              entry.GetTxSize + (poolTxids pool).sum (szOf pool) :=
            Nat.add_le_add_left (Finset.sum_le_sum_of_subset houtsub) _
          rw [u64_eq_of_lt _ (lt_of_le_of_lt (h1.trans h2) hsizes)] at hbad
          rw [u64_eq_of_lt _ (lt_of_le_of_lt h2 hsizes)] at hpass
          omega
        · have hSsub : S ⊆ out := fun x hx => (hiff x).mpr (hSanc x hx)
          have houtne : out.Nonempty := hSne.mono hSsub
          have hpass := hfcnt houtne
          have h1 : S.card + 1 ≤ out.card + 1 :=
            Nat.add_le_add_right (Finset.card_le_card hSsub) _
          have h2 : out.card + 1 ≤ (poolTxids pool).card + 1 :=
            Nat.add_le_add_right (Finset.card_le_card houtsub) _
          rw [u64_eq_of_lt _ (lt_of_le_of_lt (h1.trans h2) hcard)] at hbad
          rw [u64_eq_of_lt _ (lt_of_le_of_lt h2 hcard)] at hpass
          omega

/-- C4 witness: the two-transaction chain pool with the incoming
transaction 3 and no limits: the invariants and width bounds hold by
computation, and the characterization applies. -/
theorem calculateMemPoolAncestors_spec_witness :
    linksSound wPool ∧ linksComplete wPool ∧
    (poolTxids wPool).card + 1 < 2 ^ 64 ∧
    wToadd.GetTxSize + (poolTxids wPool).sum (szOf wPool) < 2 ^ 64 ∧
    ((∀ out, CalculateMemPoolAncestors wPool wToadd nNoLimit nNoLimit
        nNoLimit nNoLimit = .ok out →
      ∀ x, x ∈ out ↔ ancOf wPool wToadd.tx x) ∧
    ((∃ es, CalculateMemPoolAncestors wPool wToadd nNoLimit nNoLimit
        nNoLimit nNoLimit = .error es) ↔
      specAncestorFailure wPool wToadd nNoLimit nNoLimit nNoLimit
        nNoLimit)) :=
  ⟨by unfold linksSound; decide,
   by unfold linksComplete; decide,
   by decide,
   by decide,
   calculateMemPoolAncestors_spec wPool wToadd nNoLimit nNoLimit nNoLimit
     nNoLimit (by unfold linksSound; decide) (by unfold linksComplete; decide)
     (by decide) (by decide)⟩

theorem toFinset_card_lt_of_not_nodup (l : List Nat) (h : ¬ l.Nodup) :
    l.toFinset.card < l.length := by
  induction l with
  | nil => simp at h
  | cons a t ih =>
    rw [List.toFinset_cons, List.length_cons]
    by_cases hat : a ∈ t
    · rw [Finset.insert_eq_self.mpr (List.mem_toFinset.mpr hat)]
      have := List.toFinset_card_le t
      omega
    · have hnt : ¬ t.Nodup := by
        intro hc
        exact h (List.nodup_cons.mpr ⟨hat, hc⟩)
      have h1 := ih hnt
      have h2 := Finset.card_insert_le a t.toFinset
      omega

theorem shortMapAssign_keys (m : List (Nat × Nat)) (k v : Nat) (k2 : Nat) :
    k2 ∈ (shortMapAssign m k v).map (fun p => p.1) ↔
      k2 ∈ m.map (fun p => p.1) ∨ k2 = k := by
  unfold shortMapAssign
  by_cases hany : (m.any (fun p => p.1 == k)) = true
  · rw [if_pos hany]
    obtain ⟨q, hq, hqk⟩ := List.any_eq_true.mp hany
    rw [List.map_map]
    constructor
    · intro h2
      obtain ⟨p, hp, hpk⟩ := List.mem_map.mp h2
      by_cases hpkk : (p.1 == k) = true
      · refine Or.inr ?_
        rw [← hpk]
        simp only [Function.comp_apply, if_pos hpkk]
        simpa using hpkk
      · refine Or.inl (List.mem_map.mpr ⟨p, hp, ?_⟩)
        rw [← hpk]
        simp only [Function.comp_apply, if_neg hpkk]
    · intro h2
      rcases h2 with h2 | rfl
      · obtain ⟨p, hp, hpk⟩ := List.mem_map.mp h2
        refine List.mem_map.mpr ⟨p, hp, ?_⟩
        simp only [Function.comp_apply]
        split
        · next hpkk => rw [← hpk]
        · rw [hpk]
      · refine List.mem_map.mpr ⟨q, hq, ?_⟩
        simp only [Function.comp_apply, if_pos hqk]
        simpa using hqk
  · rw [if_neg hany, List.map_append]
    simp

theorem shortMapAssign_keys_nodup (m : List (Nat × Nat)) (k v : Nat)
    (h : (m.map (fun p => p.1)).Nodup) :
    ((shortMapAssign m k v).map (fun p => p.1)).Nodup := by
  unfold shortMapAssign
  by_cases hany : (m.any (fun p => p.1 == k)) = true
  · rw [if_pos hany, List.map_map]
    have : (m.map ((fun p => p.1) ∘ fun p =>
        if p.1 == k then (p.1, v) else p)) = m.map (fun p => p.1) := by
      refine List.map_congr_left ?_
      intro p _
      simp only [Function.comp_apply]
      split <;> rfl
    rwa [this]
  · rw [if_neg hany, List.map_append]
    simp only [List.map_cons, List.map_nil]
    rw [List.nodup_append]
    refine ⟨h, List.nodup_singleton k, ?_⟩
    intro a ha hak
    rw [List.mem_singleton.mp hak] at ha
    have : ¬ k ∈ m.map (fun p => p.1) := by
      intro hc
      obtain ⟨p, hp, hpk⟩ := List.mem_map.mp hc
      refine Bool.eq_false_iff.mp (Bool.eq_false_iff.mpr ?_) rfl
      intro _
      exact (List.any_eq_true.not.mp hany) ⟨p, hp, by simpa using hpk⟩
    exact this ha

theorem buildShortMap_err_failed (oracle : List (Nat × Nat) → Nat → Bool)
    (avail : Finset Nat) :
    ∀ (l : List Nat) (i off : Nat) (m : List (Nat × Nat)) (st : ReadStatus),
      buildShortMap oracle avail l i off m = .error st → st = .failed := by
  intro l
  induction l with
  | nil =>
    intro i off m st hout
    rw [buildShortMap] at hout
    cases hout
  | cons sid rest ih =>
    intro i off m st hout
    rw [buildShortMap] at hout
    by_cases hor : (oracle (shortMapAssign m sid
        (skipOffset avail (avail.card + 1) (i + off))) sid) = true
    · rw [if_pos hor] at hout
      cases hout
      rfl
    · rw [if_neg hor] at hout
      exact ih _ _ _ st hout

theorem buildShortMap_ok_keys (oracle : List (Nat × Nat) → Nat → Bool)
    (avail : Finset Nat) :
    ∀ (l : List Nat) (i off : Nat) (m m2 : List (Nat × Nat)),
      buildShortMap oracle avail l i off m = .ok m2 →
      ((m.map (fun p => p.1)).Nodup → (m2.map (fun p => p.1)).Nodup) ∧
      (∀ k, k ∈ m2.map (fun p => p.1) ↔
        k ∈ m.map (fun p => p.1) ∨ k ∈ l) := by
  intro l
  induction l with
  | nil =>
    intro i off m m2 hout
    rw [buildShortMap] at hout
    cases hout
    exact ⟨id, fun k => by simp⟩
  | cons sid rest ih =>
    intro i off m m2 hout
    rw [buildShortMap] at hout
    by_cases hor : (oracle (shortMapAssign m sid
        (skipOffset avail (avail.card + 1) (i + off))) sid) = true
    · rw [if_pos hor] at hout
      cases hout
    · rw [if_neg hor] at hout
      obtain ⟨hnd, hkeys⟩ := ih _ _ _ m2 hout
      constructor
      · intro hm
        exact hnd (shortMapAssign_keys_nodup m sid _ hm)
      · intro k
        rw [hkeys k, shortMapAssign_keys]
        constructor
        · rintro ((hk | rfl) | hk)
          · exact Or.inl hk
          · exact Or.inr (List.mem_cons_self _ _)
          · exact Or.inr (List.mem_cons_of_mem _ hk)
        · rintro (hk | hk)
          · exact Or.inl (Or.inl hk)
          · rcases List.mem_cons.mp hk with rfl | hk'
            · exact Or.inl (Or.inr rfl)
            · exact Or.inr hk'

/-- C6: whenever two distinct transaction ids of the compact block
collide on the same short id — equivalently, the short-id list contains a
duplicate, so that after inserting all short ids the map's size differs
from the number of short ids — PartiallyDownloadedBlock::InitData returns
READ_STATUS_FAILED, for every behaviour of the bucket-size guard, provided
the preceding header/size/prefilled validity checks pass. -/
theorem initData_shortid_collision_failed (sizeBound : Nat)
    (oracle : List (Nat × Nat) → Nat → Bool) (cb : CmpctBlock)
    (avail : Finset Nat) (txids : List Hash) (sidOf : Hash → Nat)
    (hheader : cb.headerIsNull = false)
    (hbound : cb.shorttxids.length + cb.prefilledtxn.length ≤ sizeBound)
    (hpre : initPrefilled cb.shorttxids.length (-1) ∅ 0 cb.prefilledtxn =
      .ok avail)
    (hids : cb.shorttxids = txids.map sidOf)
    (hndtx : txids.Nodup)
    (hcoll : ∃ t1 ∈ txids, ∃ t2 ∈ txids, t1 ≠ t2 ∧ sidOf t1 = sidOf t2) :
    InitData sizeBound oracle cb = .failed := by
  have hdup : ¬ cb.shorttxids.Nodup := by
    rw [hids]
    intro hc
    obtain ⟨t1, h1, t2, h2, hne, heq⟩ := hcoll
    exact hne (List.inj_on_of_nodup_map hc h1 h2 heq)
  have hne : cb.shorttxids.isEmpty = false := by
    cases hl : cb.shorttxids with
    | nil =>
      rw [hl] at hdup
      exact absurd List.nodup_nil hdup
    | cons a t => rfl
  unfold InitData
  rw [if_neg (by rw [hheader, hne]; simp)]
  rw [if_neg (by omega)]
  rw [hpre]
  dsimp only
  cases hb : buildShortMap oracle avail cb.shorttxids 0 0 [] with
  | error st =>
    rw [buildShortMap_err_failed oracle avail _ _ _ _ st hb]
  | ok m =>
    obtain ⟨hnd, hkeys⟩ := buildShortMap_ok_keys oracle avail _ _ _ _ m hb
    have hndk : (m.map (fun p => p.1)).Nodup := hnd List.nodup_nil
    have hset : (m.map (fun p => p.1)).toFinset = cb.shorttxids.toFinset := by
      ext k
      rw [List.mem_toFinset, List.mem_toFinset, hkeys k]
      simp
    have hlen : m.length = cb.shorttxids.toFinset.card := by
      have h1 : m.length = (m.map (fun p => p.1)).length :=
        (List.length_map _ _).symm
      rw [h1, ← List.toFinset_card_of_nodup hndk, hset]
    have hlt : m.length < cb.shorttxids.length := by
      rw [hlen]
      exact toFinset_card_lt_of_not_nodup _ hdup
    dsimp only
    rw [if_pos (Nat.ne_of_lt hlt)]

/-- C6 witness: a compact block whose two transactions share the short id
5 under the (abstracted) short-id function; InitData reports
READ_STATUS_FAILED. -/
theorem initData_shortid_collision_failed_witness :
    ({ headerIsNull := false, shorttxids := [5, 5],
       prefilledtxn := [] } : CmpctBlock).headerIsNull = false ∧
    InitData 2 (fun _ _ => false)
      { headerIsNull := false, shorttxids := [5, 5], prefilledtxn := [] } =
      .failed :=
  ⟨rfl, initData_shortid_collision_failed 2 (fun _ _ => false)
    { headerIsNull := false, shorttxids := [5, 5], prefilledtxn := [] }
    ∅ [10, 11] (fun _ => 5) rfl (by decide) rfl rfl (by decide)
    ⟨10, by decide, 11, by decide, by decide, rfl⟩⟩

/-- C5: when every mempool entry's package fees are below
blockMinFeeRate.GetFee of its package size — in particular whenever the
minimum fee rate is set above every entry's fee rate — CreateNewBlock
returns a template whose transaction list is exactly the coinbase:
package selection returns at the first package below the minimum fee
rate, and the first considered package (mapModifiedTx being initially
empty) is a mempool entry with its own ancestor aggregates. -/
theorem createNewBlock_coinbase_only (env : MinerEnv) (orc : MinerOracles)
    (pool : CTxMemPool) (order : List CTxMemPoolEntry) (fuel : Nat)
    (ws0 : BlockWorkState) (coinbase : Hash)
    (horder : ∀ e ∈ order, e ∈ pool.mapTx)
    (hbelow : ∀ e ∈ pool.mapTx,
      e.nModFeesWithAncestors < orc.getFee e.nSizeWithAncestors) :
    CreateNewBlock env orc pool order fuel ws0 coinbase = [coinbase] := by
  unfold CreateNewBlock addPackageTxs
  dsimp only
  suffices h : (addPackageTxsLoop env orc pool true fuel order
      { ws := { ws0 with blockTxs := [], inBlock := ∅ }
        mapModifiedTx := [], failedTx := ∅
        nConsecutiveFailed := 0, nPackagesSelected := 0 }).ws.blockTxs =
      [] by
    rw [h]
  cases fuel with
  | zero => rfl
  | succ n =>
    cases order with
    | nil => rw [addPackageTxsLoop]
    | cons e rest =>
      rw [addPackageTxsLoop]
      dsimp only
      have hskip : SkipMapTxEntry { ws0 with blockTxs := [], inBlock := ∅ }
          [] ∅ e (!true) orc = false := by
        unfold SkipMapTxEntry
        simp
      rw [hskip]
      have hret : aptConsider env orc pool
          { ws := { ws0 with blockTxs := [], inBlock := ∅ }
            mapModifiedTx := [], failedTx := ∅
            nConsecutiveFailed := 0, nPackagesSelected := 0 }
          (modEntryOf e) false = .ret := by
        unfold aptConsider
        dsimp only
        rw [if_pos]
        exact hbelow e (horder e (List.mem_cons_self _ _))
      rw [hret]
      rfl

/-- C5 witness: the two-entry chain pool with a 1000000-unit minimum fee
per package; the produced transaction list is exactly the coinbase
marker. -/
theorem createNewBlock_coinbase_only_witness :
    (∀ e ∈ [wE1, wE2], e ∈ wPool.mapTx) ∧
    (∀ e ∈ wPool.mapTx,
      e.nModFeesWithAncestors < wMinerOrc.getFee e.nSizeWithAncestors) ∧
    CreateNewBlock wMinerEnv wMinerOrc wPool [wE1, wE2] 5 wWS0 99 =
      [99] :=
  ⟨by decide, by decide,
   createNewBlock_coinbase_only wMinerEnv wMinerOrc wPool [wE1, wE2] 5
     wWS0 99 (by decide) (by decide)⟩

/-- The fuel budget is always positive. -/
theorem topoFuel_pos (L s : Nat) : 1 ≤ topoFuel L s := by
  cases L with
  | zero => simp [topoFuel]
  | succ m => simp [topoFuel]

/-- Fuel decrement across a successful admission: one unit of fuel pays for
the iteration and the budget for the shortened queue (with the counter
reset) fits in the remainder. -/
theorem topoFuel_succ (L s : Nat) (hs : s ≤ L) :
    topoFuel L 0 + 1 ≤ topoFuel (L + 1) s := by
  cases L with
  | zero =>
    simp only [topoFuel]
    omega
  | succ m =>
    simp only [topoFuel]
    have hsq : (m + 1) * (m + 1) = m * m + 2 * m + 1 := by ring
    omega

/-- Fuel decrement across a failed (re-queueing) iteration. -/
theorem topoFuel_fail (L s : Nat) (hs : s + 2 ≤ L) :
    topoFuel L (s + 1) + 1 ≤ topoFuel L s := by
  cases L with
  | zero => omega
  | succ m =>
    simp only [topoFuel]
    omega

/-- The initial fuel budget is at most the square of the queue length plus
one. -/
theorem topoFuel_start (L : Nat) : topoFuel L 0 ≤ L * L + 1 := by
  cases L with
  | zero => simp [topoFuel]
  | succ m =>
    simp only [topoFuel]
    have hsq : (m + 1) * (m + 1) = m * m + 2 * m + 1 := by ring
    omega

/-- In a nonempty queue whose every transaction has each input available or
produced by a strictly lower-ranked queued transaction, the queued
transaction of minimal rank has all inputs available. -/
theorem exists_processable (coins : Finset OutPoint)
    (queue : List CTransaction) (rank : Hash → Nat) (hne : queue ≠ [])
    (hdep : ∀ tx ∈ queue, ∀ inp ∈ tx.vin, inp.prevout ∈ coins ∨
      ∃ tx2 ∈ queue, inp.prevout ∈ tx2.outpoints ∧
        rank tx2.txid < rank tx.txid) :
    ∃ q1 tx q2, queue = q1 ++ tx :: q2 ∧ HaveInputs coins tx = true := by
  cases hm : queue.argmin (fun t => rank t.txid) with
  | none => exact absurd (List.argmin_eq_none.mp hm) hne
  | some tx =>
    have htx : tx ∈ queue := List.argmin_mem hm
    obtain ⟨q1, q2, hsp⟩ := List.append_of_mem htx
    refine ⟨q1, tx, q2, hsp, ?_⟩
    unfold HaveInputs
    rw [List.all_eq_true]
    intro inp hinp
    rcases hdep tx htx inp hinp with hc | ⟨tx2, htx2, _, hrk⟩
    · simpa using hc
    · have hle := List.le_of_mem_argmin htx2
        (show tx ∈ List.argmin (fun t => rank t.txid) queue from hm)
      exact absurd hrk (not_lt.mpr hle)

/-- Invariant-carrying termination lemma for `checkTopoLoop`: if every
queued transaction's inputs are available or produced by a strictly
lower-ranked queued transaction, no two queued transactions spend the same
outpoint, queued txids are distinct, and some transaction within the first
`length - steps - 1` positions has all inputs available, then any fuel of
at least `topoFuel length steps` makes the loop return `some`. -/
theorem checkTopoLoop_ok (rank : Hash → Nat) :
    ∀ (fuel : Nat) (queue : List CTransaction) (coins : Finset OutPoint)
      (steps : Nat),
      (∀ tx ∈ queue, ∀ inp ∈ tx.vin, inp.prevout ∈ coins ∨
        ∃ tx2 ∈ queue, inp.prevout ∈ tx2.outpoints ∧
          rank tx2.txid < rank tx.txid) →
      (∀ tx1 ∈ queue, ∀ tx2 ∈ queue, tx1 ≠ tx2 →
        ∀ inp1 ∈ tx1.vin, ∀ inp2 ∈ tx2.vin, inp1.prevout ≠ inp2.prevout) →
      (queue.map (fun t => t.txid)).Nodup →
      (queue = [] ∨ ∃ q1 tx q2, queue = q1 ++ tx :: q2 ∧
        q1.length + steps + 1 ≤ queue.length ∧
        HaveInputs coins tx = true) →
      topoFuel queue.length steps ≤ fuel →
      ∃ coins2, checkTopoLoop fuel coins queue steps = some coins2 := by
  intro fuel
  induction fuel with
  | zero =>
    intro queue coins steps _ _ _ _ hfuel
    have := topoFuel_pos queue.length steps
    omega
  | succ fuel ih =>
    intro queue coins steps hdep hdisj hnd hinv hfuel
    cases queue with
    | nil => exact ⟨coins, by rw [checkTopoLoop]⟩
    | cons tx0 rest =>
      rcases hinv with hq | ⟨q1, tx, q2, hsp, hlen, hproc⟩
      · exact absurd hq (List.cons_ne_nil tx0 rest)
      by_cases hH : HaveInputs coins tx0 = true
      · -- the front transaction is admitted
        rw [checkTopoLoop, if_pos hH]
        have hdep' : ∀ tx3 ∈ rest, ∀ inp ∈ tx3.vin,
            inp.prevout ∈ UpdateCoins coins tx0 ∨
            ∃ tx2 ∈ rest, inp.prevout ∈ tx2.outpoints ∧
              rank tx2.txid < rank tx3.txid := by
          intro tx3 h3 inp hinp
          have hne3 : tx3 ≠ tx0 := by
            intro he
            have h1 := (List.nodup_cons.mp hnd).1
            apply h1
            subst he
            exact List.mem_map_of_mem _ h3
          rcases hdep tx3 (List.mem_cons_of_mem tx0 h3) inp hinp with
            hc | ⟨tx2, htx2, hout, hrk⟩
          · left
            unfold UpdateCoins
            apply Finset.mem_union_left
            rw [Finset.mem_sdiff]
            refine ⟨hc, ?_⟩
            intro hmem
            rw [List.mem_toFinset] at hmem
            obtain ⟨inp0, hinp0, hpe⟩ := List.mem_map.mp hmem
            exact hdisj tx3 (List.mem_cons_of_mem tx0 h3) tx0
              (List.mem_cons_self tx0 rest) hne3 inp hinp inp0 hinp0
              hpe.symm
          · rcases List.mem_cons.mp htx2 with he | h2
            · left
              unfold UpdateCoins
              apply Finset.mem_union_right
              rw [← he]
              exact hout
            · exact Or.inr ⟨tx2, h2, hout, hrk⟩
        have hdisj' : ∀ tx1 ∈ rest, ∀ tx2 ∈ rest, tx1 ≠ tx2 →
            ∀ inp1 ∈ tx1.vin, ∀ inp2 ∈ tx2.vin,
              inp1.prevout ≠ inp2.prevout := by
          intro tx1 h1 tx2 h2 hne inp1 hi1 inp2 hi2
          exact hdisj tx1 (List.mem_cons_of_mem tx0 h1) tx2
            (List.mem_cons_of_mem tx0 h2) hne inp1 hi1 inp2 hi2
        have hnd' : (rest.map (fun t => t.txid)).Nodup :=
          (List.nodup_cons.mp hnd).2
        have hinv' : rest = [] ∨ ∃ q1' tx' q2',
            rest = q1' ++ tx' :: q2' ∧
            q1'.length + 0 + 1 ≤ rest.length ∧
            HaveInputs (UpdateCoins coins tx0) tx' = true := by
          rcases eq_or_ne rest ([] : List CTransaction) with hre | hre
          · exact Or.inl hre
          · obtain ⟨q1', tx', q2', hsp', hpr'⟩ :=
              exists_processable (UpdateCoins coins tx0) rest rank hre hdep'
            refine Or.inr ⟨q1', tx', q2', hsp', ?_, hpr'⟩
            rw [hsp', List.length_append, List.length_cons]
            omega
        have hsteps : steps ≤ rest.length := by
          rw [List.length_cons] at hlen
          omega
        have hfuel' : topoFuel rest.length 0 ≤ fuel := by
          have h1 := topoFuel_succ rest.length steps hsteps
          rw [List.length_cons] at hfuel
          omega
        exact ih rest (UpdateCoins coins tx0) 0 hdep' hdisj' hnd' hinv'
          hfuel'
      · -- the front transaction is re-queued
        cases q1 with
        | nil =>
          exfalso
          rw [List.nil_append] at hsp
          injection hsp with h1 h2
          rw [← h1] at hproc
          exact hH hproc
        | cons a q1' =>
          rw [List.cons_append] at hsp
          injection hsp with ha hrest
          have hlen' : q1'.length + 1 + steps + 1 ≤ rest.length + 1 := by
            simp only [List.length_cons] at hlen
            omega
          have hguard : ¬ ((rest ++ [tx0]).length ≤ steps + 1) := by
            rw [List.length_append, List.length_singleton]
            omega
          have hperm : List.Perm (rest ++ [tx0]) (tx0 :: rest) :=
            List.perm_append_singleton tx0 rest
          rw [checkTopoLoop, if_neg hH, if_neg hguard]
          refine ih (rest ++ [tx0]) coins (steps + 1) ?_ ?_ ?_ ?_ ?_
          · intro tx3 h3 inp hinp
            rcases hdep tx3 (hperm.mem_iff.mp h3) inp hinp with
              hc | ⟨tx2, htx2, hout, hrk⟩
            · exact Or.inl hc
            · exact Or.inr ⟨tx2, hperm.mem_iff.mpr htx2, hout, hrk⟩
          · intro tx1 h1 tx2 h2 hne inp1 hi1 inp2 hi2
            exact hdisj tx1 (hperm.mem_iff.mp h1) tx2 (hperm.mem_iff.mp h2)
              hne inp1 hi1 inp2 hi2
          · exact ((hperm.map (fun t => t.txid)).nodup_iff).mpr hnd
          · refine Or.inr ⟨q1', tx, q2 ++ [tx0], ?_, ?_, hproc⟩
            · rw [hrest, List.append_assoc, List.cons_append]
            · rw [List.length_append, List.length_singleton]
              rw [hrest, List.length_append, List.length_cons] at hlen' ⊢
              omega
          · have hf := topoFuel_fail (rest.length + 1) steps (by omega)
            rw [List.length_cons] at hfuel
            rw [List.length_append, List.length_singleton]
            omega

/-- C9: the topological-validation loop of `CTxMemPool::check` terminates
and its internal assertion never fails.  If every pending transaction's
inputs are either already available in the duplicate view or produced by a
pending transaction of strictly smaller rank (acyclicity of the in-pool
dependency graph), no two pending transactions spend the same outpoint,
and pending txids are distinct, then the loop run with fuel
`|pending|^2 + 1` returns `some` final view: it finishes after at most
`|pending|^2` iterations and never reaches the modelled failure of
`assert(stepsSinceLastRemove < waitingOnDependants.size())`. -/
theorem check_topological_loop_terminates (coins0 : Finset OutPoint)
    (pending : List CTransaction) (rank : Hash → Nat)
    (hdep : ∀ tx ∈ pending, ∀ inp ∈ tx.vin, inp.prevout ∈ coins0 ∨
      ∃ tx2 ∈ pending, inp.prevout ∈ tx2.outpoints ∧
        rank tx2.txid < rank tx.txid)
    (hdisj : ∀ tx1 ∈ pending, ∀ tx2 ∈ pending, tx1 ≠ tx2 →
      ∀ inp1 ∈ tx1.vin, ∀ inp2 ∈ tx2.vin, inp1.prevout ≠ inp2.prevout)
    (hnd : (pending.map (fun t => t.txid)).Nodup) :
    ∃ coins2,
      checkTopoLoop (pending.length * pending.length + 1) coins0 pending 0
        = some coins2 := by
  apply checkTopoLoop_ok rank (pending.length * pending.length + 1)
    pending coins0 0 hdep hdisj hnd
  · rcases eq_or_ne pending ([] : List CTransaction) with hre | hre
    · exact Or.inl hre
    · obtain ⟨q1, tx, q2, hsp, hpr⟩ :=
        exists_processable coins0 pending rank hre hdep
      refine Or.inr ⟨q1, tx, q2, hsp, ?_, hpr⟩
      rw [hsp, List.length_append, List.length_cons]
      omega
  · exact topoFuel_start pending.length

/-- C9 witness: two pending transactions, the second spending the first's
only output, over a view holding one confirmed coin; the loop (fuel
2*2 + 1) admits both. -/
theorem check_topological_loop_terminates_witness :
    (∀ tx ∈ [wTx2, wTx1], ∀ inp ∈ tx.vin,
        inp.prevout ∈ ({(100, 0)} : Finset OutPoint) ∨
        ∃ tx2 ∈ [wTx2, wTx1], inp.prevout ∈ tx2.outpoints ∧
          (fun h : Hash => h) tx2.txid < (fun h : Hash => h) tx.txid) ∧
    ∃ coins2,
      checkTopoLoop
          (([wTx2, wTx1] : List CTransaction).length *
            ([wTx2, wTx1] : List CTransaction).length + 1)
          ({(100, 0)} : Finset OutPoint) [wTx2, wTx1] 0 = some coins2 :=
  ⟨by decide,
   check_topological_loop_terminates ({(100, 0)} : Finset OutPoint)
     [wTx2, wTx1] (fun h => h) (by decide) (by decide) (by decide)⟩

end BitcoinMempool
